import Mathlib

/-!
Verification of the `sh` pretty-printer (`src/print.go`).

This file gives a shallow embedding of the AST printer in `src/print.go`
(package `sh`) and proves properties of it.

Modelling notes, stated once here:

* The AST node types (`File`, `Stmt`, `Command`, `Word`, ...) and their
  position accessors live in the repository's companion `ast.go`, which is
  not part of the given source. They are modelled from how `print.go` reads
  them, with `Pos` as a byte offset (`Nat`, `0` = absent) and the opaque
  position-resolution service `File.Position(pos).Line` as a stored
  function `File.lineOf : Nat → Int`. Word parts carry their start and end
  offsets (`pos`, `pend`) as stored fields, standing in for the `Pos()` and
  `End()` accessors of `ast.go`.

* Go `int` values (lines, levels, width counters) are modelled as `Int`.

* The printer field `p.err` is assigned by writes but never read during the
  traversal (it is only read at the very end of `Fprint`), and the
  traversal never branches on the sink's behaviour. The embedding
  therefore logs every write as an event `Ev` (the written string together
  with whether its result is assigned to `p.err`; only `spaces` and `tabs`
  discard the result) and applies the sink to the event list afterwards.
  The sink models `bufio.Writer`'s sticky-error contract: each write
  attempt either appends its string (success) or records the first error;
  once an error is recorded all later writes are no-ops returning it, and
  `Flush` returns the recorded error.

* The Go code can fail to terminate or panic on degenerate trees (e.g. a
  comment resolving to line `<= 0` loops forever in `commentsUpTo`, and a
  re-entrant heredoc terminator word can recurse through `newline`).
  All traversal functions therefore take a fuel argument and return
  `Option`; `none` means the (bounded) computation did not complete.
  Within `newline`, the pending-heredoc queue is snapshotted and cleared
  before the drain loop; the Go code clears it only after the loop, which
  agrees whenever the drain does not re-enter `newline` (the re-entrant
  case diverges in Go). `incLevel`/`decLevel` on an empty `levelIncs`
  stack panic in Go (slice index out of range); the embedding makes them
  total with the documented default, and the balance theorem shows the
  empty-stack case is unreachable from `Fprint`.

* `unquotedWord` reads `x.Value[0]` of a literal part without a guard; the
  embedding returns `none` for an empty literal value, modelling the Go
  panic.
-/

set_option maxHeartbeats 12000000

namespace ShPrint

/-- Grammar token kinds used by the printer (from the companion `token.go`). -/
inductive Token where
  | DQUOTE | DOLLSQ | SQUOTE | DOLLDQ
  | COLON | ADD | CADD | SUB | CSUB | QUEST | CQUEST
  | ASSIGN | CASSIGN | REM | DREM | HASH | DHASH
  | MUL | QUO | AND | OR | LAND | LOR | XOR | POW
  | EQL | NEQ | LEQ | GEQ
  | ADDASSGN | SUBASSGN | MULASSGN | QUOASSGN | REMASSGN
  | ANDASSGN | ORASSGN | XORASSGN | SHLASSGN | SHRASSGN
  | LSS | GTR | SHL | SHR | COMMA | NOT | INC | DEC
  | RDRINOUT | DPLIN | DPLOUT | DHEREDOC | WHEREDOC | RDRALL | APPALL
  | PIPEALL | DSEMICOLON | SEMIFALL | DSEMIFALL | CMDIN | CMDOUT
  deriving DecidableEq, Repr

/-- A literal node (`*Lit` in the Go AST): value position plus raw text. -/
structure LitNode where
  valuePos : Nat
  value : String
  deriving DecidableEq, Repr

/-- A comment: position of its `#` plus raw text (`*Comment`). -/
structure Comment where
  hash : Nat
  text : String
  deriving DecidableEq, Repr

mutual

/-- Go `*Stmt`: negation flag, assignments, optional command, redirections,
background flag, plus its start position. -/
inductive Stmt where
  | mk (pos : Nat) (negated : Bool) (assigns : List Assign)
       (cmd : Option Command) (redirs : List Redirect) (background : Bool)

/-- Go `*Assign`: optional name, append flag, value word, plus its position. -/
inductive Assign where
  | mk (pos : Nat) (name : Option LitNode) (append : Bool) (value : Word)

/-- Go `*Redirect`: operator position and kind, optional fd word, target word,
and (for heredocs) the literal body block. -/
inductive Redirect where
  | mk (opPos : Nat) (op : Token) (n : Option LitNode) (word : Word) (hdoc : LitNode)

/-- Go `*Word`: an ordered sequence of word parts. -/
inductive Word where
  | mk (parts : List WordPart)

/-- The word-part variants dispatched by `printer.wordPart`. Each carries
its start/end offsets (`pos`, `pend`), modelling `Pos()`/`End()`. -/
inductive WordPart where
  | lit (pos pend : Nat) (value : String)
  | sglQuoted (pos pend : Nat) (value : String)
  | quoted (pos pend : Nat) (quote : Token) (parts : List WordPart)
  | cmdSubst (pos pend : Nat) (backquotes : Bool) (stmts : List Stmt) (right : Nat)
  | paramExp (pos pend : Nat) (short length : Bool) (param : LitNode)
             (ind : Option Word) (repl : Option Repl) (expn : Option Expn)
  | arithmExp (pos pend : Nat) (x : ArithmExpr)
  | arrayExpr (pos pend : Nat) (list : List Word) (rparen : Nat)
  | procSubst (pos pend : Nat) (op : Token) (stmts : List Stmt)

/-- Go `*Replace`: the `/orig/with` replacement of a parameter expansion. -/
inductive Repl where
  | mk (all : Bool) (orig : Word) (withW : Word)

/-- Go `*Expansion`: operator and word of a parameter-expansion fallback. -/
inductive Expn where
  | mk (op : Token) (word : Word)

/-- Go `ArithmExpr`: word leaf, binary op, unary (pre/post) op, parenthesis. -/
inductive ArithmExpr where
  | word (w : Word)
  | binary (op : Token) (x y : ArithmExpr)
  | unary (op : Token) (post : Bool) (x : ArithmExpr)
  | paren (x : ArithmExpr)

/-- Go `Cond`: statement condition or C-style arithmetic condition. -/
inductive Cond where
  | stmtCond (stmts : List Stmt)
  | cStyleCond (x : ArithmExpr)

/-- Go `Loop`: word iteration (`name in list`) or C-style triple. -/
inductive Loop where
  | wordIter (name : LitNode) (list : List Word)
  | cStyleLoop (ini cond post : ArithmExpr)

/-- The command variants dispatched by `printer.command`. -/
inductive Command where
  | callExpr (args : List Word)
  | block (stmts : List Stmt) (rbrace : Nat)
  | ifClause (cond : Cond) (thenPos : Nat) (thenStmts : List Stmt)
             (elifs : List Elif) (elsePos : Nat) (elseStmts : List Stmt) (fiPos : Nat)
  | subshell (stmts : List Stmt) (rparen : Nat)
  | whileClause (cond : Cond) (doPos : Nat) (doStmts : List Stmt) (donePos : Nat)
  | forClause (loop : Loop) (doPos : Nat) (doStmts : List Stmt) (donePos : Nat)
  | binaryCmd (op : Token) (x y : Stmt)
  | funcDecl (bashStyle : Bool) (name : LitNode) (body : Stmt)
  | caseClause (word : Word) (list : List PatternList) (esac : Nat)
  | untilClause (cond : Cond) (doPos : Nat) (doStmts : List Stmt) (donePos : Nat)
  | declClause (loc : Bool) (opts : List Word) (assigns : List Assign)
  | evalClause (stmt : Option Stmt)
  | letClause (exprs : List ArithmExpr)

/-- One `elif` arm of an if clause. -/
inductive Elif where
  | mk (elifPos : Nat) (cond : Cond) (thenPos : Nat) (thenStmts : List Stmt)

/-- One pattern group of a case clause. -/
inductive PatternList where
  | mk (patterns : List Word) (opPos : Nat) (op : Token) (stmts : List Stmt)

end

/-- Go `File`: top-level statements, the position-ordered comment list, and
the opaque position-resolution service restricted to what the printer
uses: the line of a given offset. -/
structure File where
  stmts : List Stmt
  comments : List Comment
  lineOf : Nat → Int

/-- Go `PrintConfig`: 0 (default) for tabs, `>0` for a number of spaces. -/
structure PrintConfig where
  spaces : Int
  deriving DecidableEq, Repr

/-- Read-only context threaded through the traversal: the file being
printed and the print configuration. -/
structure Ctx where
  f : File
  c : PrintConfig

/- Accessors standing in for the `Pos()` methods of `ast.go`. -/

/-- The start position of a statement (`Stmt.Pos()`). -/
def Stmt.pos : Stmt → Nat
  | .mk p _ _ _ _ _ => p

def Stmt.negated : Stmt → Bool
  | .mk _ n _ _ _ _ => n

def Stmt.assigns : Stmt → List Assign
  | .mk _ _ a _ _ _ => a

def Stmt.cmd : Stmt → Option Command
  | .mk _ _ _ c _ _ => c

def Stmt.redirs : Stmt → List Redirect
  | .mk _ _ _ _ r _ => r

def Stmt.background : Stmt → Bool
  | .mk _ _ _ _ _ b => b

def Assign.pos : Assign → Nat
  | .mk p _ _ _ => p

def Assign.name : Assign → Option LitNode
  | .mk _ n _ _ => n

def Assign.append : Assign → Bool
  | .mk _ _ a _ => a

def Assign.value : Assign → Word
  | .mk _ _ _ v => v

def Redirect.opPos : Redirect → Nat
  | .mk p _ _ _ _ => p

def Redirect.op : Redirect → Token
  | .mk _ o _ _ _ => o

def Redirect.n : Redirect → Option LitNode
  | .mk _ _ n _ _ => n

def Redirect.word : Redirect → Word
  | .mk _ _ _ w _ => w

def Redirect.hdoc : Redirect → LitNode
  | .mk _ _ _ _ h => h

/-- Go `Redirect.Pos()`: the fd word's position if present, else the operator
position (modelled from the companion `ast.go`). -/
def Redirect.rpos (r : Redirect) : Nat :=
  match r.n with
  | some l => l.valuePos
  | none => r.opPos

def Word.parts : Word → List WordPart
  | .mk ps => ps

/-- Start position of a word part. -/
def WordPart.ppos : WordPart → Nat
  | .lit p _ _ => p
  | .sglQuoted p _ _ => p
  | .quoted p _ _ _ => p
  | .cmdSubst p _ _ _ _ => p
  | .paramExp p _ _ _ _ _ _ _ => p
  | .arithmExp p _ _ => p
  | .arrayExpr p _ _ _ => p
  | .procSubst p _ _ _ => p

/-- End position of a word part (`End()`). -/
def WordPart.pend : WordPart → Nat
  | .lit _ e _ => e
  | .sglQuoted _ e _ => e
  | .quoted _ e _ _ => e
  | .cmdSubst _ e _ _ _ => e
  | .paramExp _ e _ _ _ _ _ _ => e
  | .arithmExp _ e _ => e
  | .arrayExpr _ e _ _ => e
  | .procSubst _ e _ _ => e

/-- Go `Word.Pos()`: position of the first part (0 when there is none). -/
def Word.wpos (w : Word) : Nat :=
  match w.parts with
  | [] => 0
  | p :: _ => p.ppos

/-- Go `wordFirstPos` from the companion `ast.go`: position of the first word
of a list. -/
def wordFirstPos (ws : List Word) : Nat :=
  match ws with
  | [] => 0
  | w :: _ => w.wpos

/-- Go `quotedStop` from the companion `token.go`: the closing delimiter kind
matching an opening quote (`$'` closes with `'`, `$"` with `"`). -/
def quotedStop (tok : Token) : Token :=
  match tok with
  | .DOLLSQ => .SQUOTE
  | .DOLLDQ => .DQUOTE
  | t => t

/-- Go `quotedOp`. -/
def quotedOp (tok : Token) : String :=
  match tok with
  | .DQUOTE => "\""
  | .DOLLSQ => "$\x27"
  | .SQUOTE => "\x27"
  | _ => "$\""

/-- Go `expansionOp`. -/
def expansionOp (tok : Token) : String :=
  match tok with
  | .COLON => ":"
  | .ADD => "+"
  | .CADD => ":+"
  | .SUB => "-"
  | .CSUB => ":-"
  | .QUEST => "?"
  | .CQUEST => ":?"
  | .ASSIGN => "="
  | .CASSIGN => ":="
  | .REM => "%"
  | .DREM => "%%"
  | .HASH => "#"
  | _ => "##"

/-- Go `binaryExprOp`. -/
def binaryExprOp (tok : Token) : String :=
  match tok with
  | .ASSIGN => "="
  | .ADD => "+"
  | .SUB => "-"
  | .REM => "%"
  | .MUL => "*"
  | .QUO => "/"
  | .AND => "&"
  | .OR => "|"
  | .LAND => "&&"
  | .LOR => "||"
  | .XOR => "^"
  | .POW => "**"
  | .EQL => "=="
  | .NEQ => "!="
  | .LEQ => "<="
  | .GEQ => ">="
  | .ADDASSGN => "+="
  | .SUBASSGN => "-="
  | .MULASSGN => "*="
  | .QUOASSGN => "/="
  | .REMASSGN => "%="
  | .ANDASSGN => "&="
  | .ORASSGN => "|="
  | .XORASSGN => "^="
  | .SHLASSGN => "<<="
  | .SHRASSGN => ">>="
  | .LSS => "<"
  | .GTR => ">"
  | .SHL => "<<"
  | .SHR => ">>"
  | .QUEST => "?"
  | .COLON => ":"
  | _ => ","

/-- Go `unaryExprOp`. -/
def unaryExprOp (tok : Token) : String :=
  match tok with
  | .ADD => "+"
  | .SUB => "-"
  | .NOT => "!"
  | .INC => "++"
  | _ => "--"

/-- Go `redirectOp`. -/
def redirectOp (tok : Token) : String :=
  match tok with
  | .LSS => "<"
  | .GTR => ">"
  | .SHL => "<<"
  | .SHR => ">>"
  | .RDRINOUT => "<>"
  | .DPLIN => "<&"
  | .DPLOUT => ">&"
  | .DHEREDOC => "<<-"
  | .WHEREDOC => "<<<"
  | .RDRALL => "&>"
  | _ => "&>>"

/-- Go `binaryCmdOp`. -/
def binaryCmdOp (tok : Token) : String :=
  match tok with
  | .OR => "|"
  | .LAND => "&&"
  | .LOR => "||"
  | _ => "|&"

/-- Go `caseClauseOp`. -/
def caseClauseOp (tok : Token) : String :=
  match tok with
  | .DSEMICOLON => ";;"
  | .SEMIFALL => ";&"
  | _ => ";;&"

/-- Go `startsWithLparen`. -/
def startsWithLparen (stmts : List Stmt) : Bool :=
  match stmts with
  | [] => false
  | s :: _ =>
    match s.cmd with
    | some (.subshell _ _) => true
    | _ => false

/-- One logged write: the string handed to the sink and whether the write's
returned error is assigned to `p.err` (true for everything except the
byte loops of `spaces` and `tabs`, which discard it). -/
structure Ev where
  s : String
  assigns : Bool
  deriving DecidableEq, Repr

/-- The printer's mutable traversal state (`printer` minus the sink and
`err`, which the traversal never reads; writes are logged in `events`).
`levelIncs` is kept top-first (Go appends at the slice's end). -/
structure PState where
  events : List Ev
  nestedBinary : Bool
  wantSpace : Bool
  wantNewline : Bool
  wantSpaces : Int
  curLine : Int
  lastLevel : Int
  level : Int
  levelIncs : List Bool
  comments : List Comment
  pendingHdocs : List Redirect

/-- Concatenation of the strings of a list of write events. -/
def evsStr (evs : List Ev) : String :=
  evs.foldl (fun acc e => acc ++ e.s) ""

/-- The string produced by a run: concatenation of all logged writes. -/
def evStr (st : PState) : String :=
  evsStr st.events

/-- Append one write event. -/
def wr (s : String) (b : Bool) (st : PState) : PState :=
  { st with events := st.events ++ [⟨s, b⟩] }

/-- Go `printer.space`. -/
def space (st : PState) : PState :=
  { wr " " true st with wantSpace := false }

/-- Go `printer.spaces`: `n` single-byte writes whose results are discarded. -/
def spaces (n : Int) (st : PState) : PState :=
  { st with events := st.events ++ List.replicate n.toNat ⟨" ", false⟩,
            wantSpace := false }

/-- Go `printer.tabs`. -/
def tabs (n : Int) (st : PState) : PState :=
  { st with events := st.events ++ List.replicate n.toNat ⟨"\t", false⟩,
            wantSpace := false }

/-- Go `printer.bslashNewl`. -/
def bslashNewl (st : PState) : PState :=
  { wr " \\\n" true st with wantSpace := false, curLine := st.curLine + 1 }

/-- Go `printer.str`. -/
def str (s : String) (st : PState) : PState :=
  wr s true st

/-- Go `printer.byte`. -/
def byteW (b : Char) (st : PState) : PState :=
  wr (String.singleton b) true st

/-- Go `printer.token`. -/
def token (s : String) (spaceAfter : Bool) (st : PState) : PState :=
  wr s true { st with wantSpace := spaceAfter }

/-- Go `printer.rsrv`. -/
def rsrv (s : String) (st : PState) : PState :=
  { wr s true st with wantSpace := true }

/-- Go `printer.spacedRsrv`. -/
def spacedRsrv (s : String) (st : PState) : PState :=
  let st := if st.wantSpace then space st else st
  { wr s true st with wantSpace := true }

/-- Go `printer.spacedTok`. -/
def spacedTok (s : String) (spaceAfter : Bool) (st : PState) : PState :=
  let st := if st.wantSpace then space st else st
  wr s true { st with wantSpace := spaceAfter }

/-- Go `printer.incLevel`. On an empty `levelIncs` with `level > lastLevel`
the Go code panics (slice index out of range); that case is unreachable
from `Fprint` (see the balance theorems) and is modelled as pushing
`false`, uniformly with the not-incremented case. -/
def incLevel (st : PState) : PState :=
  if st.level ≤ st.lastLevel then
    { st with level := st.level + 1, levelIncs := true :: st.levelIncs }
  else
    match st.levelIncs with
    | true :: rest => { st with levelIncs := true :: false :: rest }
    | _ => { st with levelIncs := false :: st.levelIncs }

/-- Go `printer.decLevel`. On an empty stack Go panics; modelled as a no-op
(unreachable from `Fprint`). -/
def decLevel (st : PState) : PState :=
  match st.levelIncs with
  | [] => st
  | inc :: rest =>
    { st with levelIncs := rest, level := if inc then st.level - 1 else st.level }

/-- Go `printer.indent`. A negative `Spaces` configuration matches no switch
case in Go and emits nothing. -/
def indent (ctx : Ctx) (st : PState) : PState :=
  let st := { st with lastLevel := st.level }
  if st.level = 0 then st
  else if ctx.c.spaces = 0 then tabs st.level st
  else if ctx.c.spaces > 0 then spaces (ctx.c.spaces * st.level) st
  else st

/-- Go `printer.hasInline` (pure read of the comment backlog). -/
def hasInline (ctx : Ctx) (posLine : Int) : List Comment → Bool
  | [] => false
  | c :: rest =>
    let cl := ctx.f.lineOf c.hash
    if cl = posLine then true
    else if cl > posLine then false
    else hasInline ctx posLine rest

/-- Number of `"\n"` occurrences in a string (`strings.Count(s, "\n")`). -/
def countNl (s : String) : Int :=
  (s.toList.filter fun c => c = '\n').length

def Elif.elifPos : Elif → Nat
  | .mk p _ _ _ => p

def Elif.cond : Elif → Cond
  | .mk _ c _ _ => c

def Elif.thenPos : Elif → Nat
  | .mk _ _ p _ => p

def Elif.thenStmts : Elif → List Stmt
  | .mk _ _ _ s => s

def PatternList.patterns : PatternList → List Word
  | .mk p _ _ _ => p

def PatternList.opPos : PatternList → Nat
  | .mk _ p _ _ => p

def PatternList.op : PatternList → Token
  | .mk _ _ o _ => o

def PatternList.stmts : PatternList → List Stmt
  | .mk _ _ _ s => s

/-- Total byte length of the logged writes (`bytes.Buffer.Len`). -/
def evBytes (evs : List Ev) : Int :=
  ((evs.map fun e => e.s.utf8ByteSize).sum : Nat)

/-- Fresh traversal state of `printer{w: buf, f: f}` as built by `stmtLen`:
every field is Go's zero value (in particular the comment backlog is
empty and the config is zero, i.e. tabs). -/
def freshState : PState :=
  { events := [], nestedBinary := false, wantSpace := false,
    wantNewline := false, wantSpaces := 0, curLine := 0, lastLevel := 0,
    level := 0, levelIncs := [], comments := [], pendingHdocs := [] }

/-- The signatures of the mutually recursive printer methods at one fuel
level. One fuel unit is consumed per call, so a field at fuel `n+1` calls
the bundle for fuel `n`; at fuel 0 every method is `none` (out of fuel). -/
structure Funs where
  newlineF : Ctx → PState → Option PState
  drainHdocs : Ctx → List Redirect → PState → Option PState
  newlinesF : Ctx → Int → PState → Option PState
  alwaysSeparateF : Ctx → Int → PState → Option PState
  didSeparateF : Ctx → Int → PState → Option (Bool × PState)
  sepTokF : Ctx → String → Int → PState → Option PState
  semiRsrvF : Ctx → String → Nat → Bool → PState → Option PState
  semiOrNewlF : Ctx → String → Nat → PState → Option PState
  commentsUpToF : Ctx → Int → PState → Option PState
  wordPartF : Ctx → WordPart → PState → Option PState
  quotedPartsF : Ctx → List WordPart → PState → Option PState
  wordPartsF : Ctx → List WordPart → PState → Option PState
  wordF : Ctx → Word → PState → Option PState
  unquotedWordF : Ctx → Word → PState → Option PState
  unquotedPartsF : Ctx → List WordPart → PState → Option PState
  spacedWordF : Ctx → Word → PState → Option PState
  wordJoinF : Ctx → List Word → Bool → PState → Option PState
  wordJoinAux : Ctx → List Word → Bool → Bool → PState → Option PState
  arithmF : Ctx → ArithmExpr → Bool → PState → Option PState
  condF : Ctx → Cond → PState → Option PState
  loopF : Ctx → Loop → PState → Option PState
  stmtF : Ctx → Stmt → PState → Option PState
  redirsF : Ctx → List Redirect → Bool → PState → Option PState
  commandF : Ctx → Option Command → List Redirect → PState → Option (Nat × PState)
  callRedirsF : Ctx → List Redirect → Nat → PState → Option (Nat × PState)
  elifsF : Ctx → List Elif → PState → Option PState
  caseItemsF : Ctx → List PatternList → Nat → PState → Option PState
  patternsF : Ctx → List Word → Bool → PState → Option PState
  stmtsF : Ctx → List Stmt → PState → Option (Bool × PState)
  stmtsLoopF : Ctx → List Stmt → Int → Int → PState → Option PState
  scanInlineF : Ctx → List Stmt → Int → Int → PState → Option Int
  stmtLenF : Ctx → Stmt → Option Int
  nestedStmtsF : Ctx → List Stmt → PState → Option (Bool × PState)
  assignsF : Ctx → List Assign → PState → Option PState
  assignsAux : Ctx → List Assign → Bool → PState → Option PState
  letExprsF : Ctx → List ArithmExpr → PState → Option PState
  declOptsF : Ctx → List Word → PState → Option PState

/-- Body of `printer.newline`: emit the newline, then drain the
pending-heredoc queue in FIFO order, then clear it. -/
def newlineB (rec : Funs) (ctx : Ctx) (st : PState) : Option PState := do
  let st := { st with wantNewline := false }
  let st := byteW '\n' st
  let st := { st with wantSpace := false }
  let hd := st.pendingHdocs
  let st := { st with pendingHdocs := [] }
  let st ← rec.drainHdocs ctx hd st
  pure { st with pendingHdocs := [] }

/-- Body of the loop of `printer.newline`: for each queued redirect, the
heredoc body verbatim, then the unquoted terminator word, then a newline. -/
def drainHdocsB (rec : Funs) (ctx : Ctx) (rs : List Redirect) (st : PState) :
    Option PState :=
  match rs with
  | [] => pure st
  | r :: rest => do
    let st := str r.hdoc.value st
    let st := { st with curLine := st.curLine + countNl r.hdoc.value }
    let st ← rec.unquotedWordF ctx r.word st
    let st := byteW '\n' st
    let st := { st with curLine := st.curLine + 1, wantSpace := false }
    rec.drainHdocs ctx rest st

/-- Body of `printer.newlines`: newline, at most one preserved blank line,
indentation. -/
def newlinesB (rec : Funs) (ctx : Ctx) (posLine : Int) (st : PState) :
    Option PState := do
  let st ← rec.newlineF ctx st
  let st := if posLine > st.curLine + 1 then byteW '\n' st else st
  let st := indent ctx st
  pure { st with curLine := posLine }

/-- Body of `printer.alwaysSeparate`. -/
def alwaysSeparateB (rec : Funs) (ctx : Ctx) (posLine : Int) (st : PState) :
    Option PState := do
  let st ← rec.commentsUpToF ctx posLine st
  if st.curLine > 0 then rec.newlinesF ctx posLine st
  else pure { st with curLine := posLine }

/-- Body of `printer.didSeparate`. -/
def didSeparateB (rec : Funs) (ctx : Ctx) (posLine : Int) (st : PState) :
    Option (Bool × PState) := do
  let st ← rec.commentsUpToF ctx posLine st
  if st.wantNewline ∨ (st.curLine > 0 ∧ posLine > st.curLine) then do
    let st ← rec.newlinesF ctx posLine st
    pure (true, st)
  else if st.curLine = 0 then
    pure (true, { st with curLine := posLine })
  else
    pure (false, { st with curLine := posLine })

/-- Body of `printer.sepTok`. -/
def sepTokB (rec : Funs) (ctx : Ctx) (s : String) (posLine : Int) (st : PState) :
    Option PState := do
  let st := { st with level := st.level + 1 }
  let st ← rec.commentsUpToF ctx posLine st
  let st := { st with level := st.level - 1 }
  let (_, st) ← rec.didSeparateF ctx posLine st
  let st := if s ≠ ")" ∧ st.wantSpace then space st else st
  pure { wr s true st with wantSpace := true }

/-- Body of `printer.semiRsrv`. -/
def semiRsrvB (rec : Funs) (ctx : Ctx) (s : String) (rpos : Nat) (fallback : Bool)
    (st : PState) : Option PState := do
  let posLine := ctx.f.lineOf rpos
  let st := { st with level := st.level + 1 }
  let st ← rec.commentsUpToF ctx posLine st
  let st := { st with level := st.level - 1 }
  let (sep, st) ← rec.didSeparateF ctx posLine st
  let st :=
    if !sep && fallback then str "; " st
    else if st.wantSpace then space st
    else st
  pure { wr s true st with wantSpace := true }

/-- Body of `printer.semiOrNewl`. -/
def semiOrNewlB (rec : Funs) (ctx : Ctx) (s : String) (pos : Nat) (st : PState) :
    Option PState := do
  let st ←
    if st.wantNewline then do
      let st ← rec.newlineF ctx st
      pure (indent ctx st)
    else pure (str "; " st)
  let st := wr s true st
  pure { st with wantSpace := true, curLine := ctx.f.lineOf pos }

/-- Body of `printer.commentsUpTo`: flush every backlog comment strictly
before `line` (`line ≤ 0` flushes everything). -/
def commentsUpToB (rec : Funs) (ctx : Ctx) (line : Int) (st : PState) :
    Option PState :=
  match st.comments with
  | [] => pure st
  | c :: rest =>
    let cl := ctx.f.lineOf c.hash
    if line > 0 ∧ cl ≥ line then pure st
    else do
      let st := { st with wantNewline := false }
      let (sep, st) ← rec.didSeparateF ctx cl st
      let st := if !sep then spaces (st.wantSpaces + 1) st else st
      let st := byteW '#' st
      let st := str c.text st
      let st := { st with comments := rest }
      rec.commentsUpToF ctx line st

/-- Body of `printer.wordPart`. -/
def wordPartB (rec : Funs) (ctx : Ctx) (wp : WordPart) (st : PState) :
    Option PState := do
  let st ←
    match wp with
    | .lit _ _ v => pure (wr v true st)
    | .sglQuoted _ _ v =>
      let st := byteW '\x27' st
      let st := wr v true st
      let st := { st with curLine := st.curLine + countNl v }
      pure (byteW '\x27' st)
    | .quoted _ _ q ps => do
      let st := str (quotedOp q) st
      let st ← rec.quotedPartsF ctx ps st
      pure (str (quotedOp (quotedStop q)) st)
    | .cmdSubst _ _ bq stmts right => do
      let st := { st with wantSpace := false }
      let st := if bq then str "`" st else str "$(" st
      let st := if startsWithLparen stmts then space st else st
      let (_, st) ← rec.nestedStmtsF ctx stmts st
      if bq then
        rec.sepTokF ctx "`" (ctx.f.lineOf right) { st with wantSpace := false }
      else
        rec.sepTokF ctx ")" (ctx.f.lineOf right) st
    | .paramExp _ _ short len param ind repl expn =>
      if short then do
        let st := byteW '$' st
        pure (str param.value st)
      else do
        let st := str "$\x7b" st
        let st := if len then byteW '#' st else st
        let st := str param.value st
        let st ←
          match ind with
          | some w => do
            let st := byteW '[' st
            let st ← rec.wordF ctx w st
            pure (byteW ']' st)
          | none => pure st
        let st ←
          match repl with
          | some (.mk all orig withW) => do
            let st := if all then byteW '/' st else st
            let st := byteW '/' st
            let st ← rec.wordF ctx orig st
            let st := byteW '/' st
            rec.wordF ctx withW st
          | none =>
            match expn with
            | some (.mk op w) => do
              let st := str (expansionOp op) st
              rec.wordF ctx w st
            | none => pure st
        pure (byteW '\x7d' st)
    | .arithmExp _ _ x => do
      let st := str "$((" st
      let st ← rec.arithmF ctx x false st
      pure (str "))" st)
    | .arrayExpr _ _ list rparen => do
      let st := { st with wantSpace := false }
      let st := byteW '(' st
      let st ← rec.wordJoinF ctx list false st
      rec.sepTokF ctx ")" (ctx.f.lineOf rparen) st
    | .procSubst _ _ op stmts => do
      let st := if st.wantSpace then space st else st
      let st :=
        if op = .CMDIN then str "<(" st
        else if op = .CMDOUT then str ">(" st
        else st
      let (_, st) ← rec.nestedStmtsF ctx stmts st
      pure (byteW ')' st)
  pure { st with wantSpace := true }

/-- Body of the part loop of the `*Quoted` case of `wordPart`: each nested
part, updating `curLine` to the part's end line. -/
def quotedPartsB (rec : Funs) (ctx : Ctx) (ps : List WordPart) (st : PState) :
    Option PState :=
  match ps with
  | [] => pure st
  | p :: rest => do
    let st ← rec.wordPartF ctx p st
    let st := { st with curLine := ctx.f.lineOf p.pend }
    rec.quotedPartsF ctx rest st

/-- Body of the plain fold of `wordPart` over a part list (the body of
`printer.word` and of the inner loops of `spacedWord` and `wordJoin`). -/
def wordPartsB (rec : Funs) (ctx : Ctx) (ps : List WordPart) (st : PState) :
    Option PState :=
  match ps with
  | [] => pure st
  | p :: rest => do
    let st ← rec.wordPartF ctx p st
    rec.wordPartsF ctx rest st

/-- Body of `printer.word`. -/
def wordB (rec : Funs) (ctx : Ctx) (w : Word) (st : PState) : Option PState :=
  rec.wordPartsF ctx w.parts st

/-- Body of `printer.unquotedWord`. -/
def unquotedWordB (rec : Funs) (ctx : Ctx) (w : Word) (st : PState) :
    Option PState :=
  rec.unquotedPartsF ctx w.parts st

/-- Body of the part loop of `printer.unquotedWord`. A literal's first byte
is read without a guard (`x.Value[0]`); the empty-value case is the Go
panic, modelled as `none`. -/
def unquotedPartsB (rec : Funs) (ctx : Ctx) (ps : List WordPart) (st : PState) :
    Option PState :=
  match ps with
  | [] => pure st
  | wp :: rest => do
    let st ←
      match wp with
      | .sglQuoted _ _ v => pure (str v st)
      | .quoted _ _ _ ps2 => rec.wordPartsF ctx ps2 st
      | .lit _ _ v =>
        if v = "" then none
        else if v.front = '\\' then pure (str (v.drop 1) st)
        else pure (str v st)
      | _ => rec.wordPartF ctx wp st
    rec.unquotedPartsF ctx rest st

/-- Body of `printer.spacedWord`. -/
def spacedWordB (rec : Funs) (ctx : Ctx) (w : Word) (st : PState) :
    Option PState := do
  let st := if st.wantSpace then space st else st
  rec.wordPartsF ctx w.parts st

/-- Body of `printer.wordJoin`. -/
def wordJoinB (rec : Funs) (ctx : Ctx) (ws : List Word) (needBackslash : Bool)
    (st : PState) : Option PState :=
  rec.wordJoinAux ctx ws needBackslash false st

/-- Body of the loop of `printer.wordJoin`, carrying the `anyNewline` flag;
the matching `decLevel` runs once the list is exhausted. -/
def wordJoinAuxB (rec : Funs) (ctx : Ctx) (ws : List Word) (nb anyNl : Bool)
    (st : PState) : Option PState :=
  match ws with
  | [] => pure (if anyNl then decLevel st else st)
  | w :: rest => do
    let (st, anyNl) ←
      if st.curLine > 0 ∧ ctx.f.lineOf w.wpos > st.curLine then
        let st :=
          if nb then bslashNewl st
          else { byteW '\n' st with curLine := st.curLine + 1 }
        let (st, anyNl) := if !anyNl then (incLevel st, true) else (st, anyNl)
        pure (indent ctx st, anyNl)
      else
        pure ((if st.wantSpace then space st else st), anyNl)
    let st ← rec.wordPartsF ctx w.parts st
    rec.wordJoinAux ctx rest nb anyNl st

/-- Body of `printer.arithm` with its `compact` mode flag. -/
def arithmB (rec : Funs) (ctx : Ctx) (e : ArithmExpr) (compact : Bool)
    (st : PState) : Option PState :=
  let st := { st with wantSpace := false }
  match e with
  | .word w => rec.spacedWordF ctx w st
  | .binary op x y =>
    if compact then do
      let st ← rec.arithmF ctx x true st
      let st := str (binaryExprOp op) st
      rec.arithmF ctx y true st
    else do
      let st ← rec.arithmF ctx x false st
      let st := if op ≠ .COMMA then space st else st
      let st := str (binaryExprOp op) st
      let st := space st
      rec.arithmF ctx y false st
  | .unary op post x =>
    if post then do
      let st ← rec.arithmF ctx x compact st
      pure (str (unaryExprOp op) st)
    else do
      let st := str (unaryExprOp op) st
      rec.arithmF ctx x compact st
  | .paren x => do
    let st := byteW '(' st
    let st ← rec.arithmF ctx x false st
    pure (byteW ')' st)

/-- Body of `printer.cond`. -/
def condB (rec : Funs) (ctx : Ctx) (c : Cond) (st : PState) : Option PState :=
  match c with
  | .stmtCond stmts => do
    let (_, st) ← rec.nestedStmtsF ctx stmts st
    pure st
  | .cStyleCond x => do
    let st := spacedTok "((" false st
    let st ← rec.arithmF ctx x false st
    pure (str "))" st)

/-- Body of `printer.loop`. Note: all three C-style expressions are
rendered in NON-compact mode (`p.arithm(_, false)`). -/
def loopB (rec : Funs) (ctx : Ctx) (l : Loop) (st : PState) : Option PState :=
  match l with
  | .wordIter name list => do
    let st := str name.value st
    if !list.isEmpty then do
      let st := rsrv " in" st
      rec.wordJoinF ctx list true st
    else pure st
  | .cStyleLoop ini cond post => do
    let st := str "((" st
    let st ← rec.arithmF ctx ini false st
    let st := str "; " st
    let st ← rec.arithmF ctx cond false st
    let st := str "; " st
    let st ← rec.arithmF ctx post false st
    pure (str "))" st)

/-- Body of `printer.stmt`. -/
def stmtB (rec : Funs) (ctx : Ctx) (s : Stmt) (st : PState) : Option PState := do
  let st := if s.negated then spacedRsrv "!" st else st
  let st ← rec.assignsF ctx s.assigns st
  let (startRedirs, st) ← rec.commandF ctx s.cmd s.redirs st
  let st ← rec.redirsF ctx (s.redirs.drop startRedirs) false st
  pure (if s.background then str " &" st else st)

/-- Body of the trailing-redirection loop of `printer.stmt`: heredoc-kind
redirections are appended to the pending queue after their operator and
terminator word are printed. -/
def redirsB (rec : Funs) (ctx : Ctx) (rs : List Redirect) (anyNl : Bool)
    (st : PState) : Option PState :=
  match rs with
  | [] => pure (if anyNl then decLevel st else st)
  | r :: rest => do
    let posLine := ctx.f.lineOf r.opPos
    let (st, anyNl) ←
      if st.curLine > 0 ∧ posLine > st.curLine then
        let st := bslashNewl st
        let (st, anyNl) := if !anyNl then (incLevel st, true) else (st, anyNl)
        pure (indent ctx st, anyNl)
      else pure (st, anyNl)
    let (_, st) ← rec.didSeparateF ctx posLine st
    let st := if st.wantSpace then space st else st
    let st := match r.n with | some l => str l.value st | none => st
    let st := str (redirectOp r.op) st
    let st := { st with wantSpace := true }
    let st ← rec.wordF ctx r.word st
    let st :=
      if r.op = .SHL ∨ r.op = .DHEREDOC then
        { st with pendingHdocs := st.pendingHdocs ++ [r] }
      else st
    rec.redirsF ctx rest anyNl st

/-- Body of `printer.command`: dispatch on the command variant; returns how
many leading redirections were already printed in place (`startRedirs`).
A nil command matches no case. -/
def commandB (rec : Funs) (ctx : Ctx) (cmd : Option Command)
    (redirs : List Redirect) (st : PState) : Option (Nat × PState) :=
  match cmd with
  | none => pure (0, st)
  | some c =>
    match c with
    | .callExpr args =>
      match args with
      | [] => do
        let st ← rec.wordJoinF ctx [] true st
        pure (0, st)
      | [a] => do
        let st ← rec.wordJoinF ctx [a] true st
        pure (0, st)
      | a0 :: a1 :: rest => do
        let st ← rec.wordJoinF ctx [a0] true st
        let (count, st) ← rec.callRedirsF ctx redirs a1.wpos st
        let st ← rec.wordJoinF ctx (a1 :: rest) true st
        pure (count, st)
    | .block stmts rbrace => do
      let st := spacedRsrv "\x7b" st
      let (_, st) ← rec.nestedStmtsF ctx stmts st
      let st ← rec.semiRsrvF ctx "\x7d" rbrace true st
      pure (0, st)
    | .ifClause cond thenPos thenStmts elifs elsePos elseStmts fiPos => do
      let st := spacedRsrv "if" st
      let st ← rec.condF ctx cond st
      let st ← rec.semiOrNewlF ctx "then" thenPos st
      let (_, st) ← rec.nestedStmtsF ctx thenStmts st
      let st ← rec.elifsF ctx elifs st
      let st ←
        if !elseStmts.isEmpty then do
          let st ← rec.semiRsrvF ctx "else" elsePos true st
          let (_, st) ← rec.nestedStmtsF ctx elseStmts st
          pure st
        else if elsePos > 0 then
          pure { st with curLine := ctx.f.lineOf elsePos }
        else pure st
      let st ← rec.semiRsrvF ctx "fi" fiPos true st
      pure (0, st)
    | .subshell stmts rparen => do
      let st := spacedTok "(" false st
      let st := if startsWithLparen stmts then space st else st
      let (_, st) ← rec.nestedStmtsF ctx stmts st
      let st ← rec.sepTokF ctx ")" (ctx.f.lineOf rparen) st
      pure (0, st)
    | .whileClause cond doPos doStmts donePos => do
      let st := spacedRsrv "while" st
      let st ← rec.condF ctx cond st
      let st ← rec.semiOrNewlF ctx "do" doPos st
      let (_, st) ← rec.nestedStmtsF ctx doStmts st
      let st ← rec.semiRsrvF ctx "done" donePos true st
      pure (0, st)
    | .forClause loop doPos doStmts donePos => do
      let st := spacedRsrv "for " st
      let st ← rec.loopF ctx loop st
      let st ← rec.semiOrNewlF ctx "do" doPos st
      let (_, st) ← rec.nestedStmtsF ctx doStmts st
      let st ← rec.semiRsrvF ctx "done" donePos true st
      pure (0, st)
    | .binaryCmd op x y => do
      let st ← rec.stmtF ctx x st
      let doInd := !st.nestedBinary
      let st := if doInd then incLevel st else st
      let st :=
        { st with nestedBinary :=
            match y.cmd with
            | some (.binaryCmd _ _ _) => true
            | _ => false }
      let ypos := ctx.f.lineOf y.pos
      let st ←
        if !st.pendingHdocs.isEmpty then pure st
        else if ypos > st.curLine then pure (indent ctx (bslashNewl st))
        else pure st
      let st := { st with curLine := ypos }
      let st := spacedTok (binaryCmdOp op) true st
      let st ← rec.stmtF ctx y st
      let st := if doInd then decLevel st else st
      pure (0, { st with nestedBinary := false })
    | .funcDecl bashStyle name body => do
      let st := if bashStyle then str "function " st else st
      let st := str name.value st
      let st := str "() " st
      let st ← rec.stmtF ctx body st
      pure (0, st)
    | .caseClause w list esac => do
      let st := spacedRsrv "case " st
      let st ← rec.wordF ctx w st
      let st := rsrv " in" st
      let st := incLevel st
      let st ← rec.caseItemsF ctx list esac st
      let st := decLevel st
      let st ← rec.semiRsrvF ctx "esac" esac list.isEmpty st
      pure (0, st)
    | .untilClause cond doPos doStmts donePos => do
      let st := spacedRsrv "until" st
      let st ← rec.condF ctx cond st
      let st ← rec.semiOrNewlF ctx "do" doPos st
      let (_, st) ← rec.nestedStmtsF ctx doStmts st
      let st ← rec.semiRsrvF ctx "done" donePos true st
      pure (0, st)
    | .declClause loc opts assigns => do
      let st := if loc then spacedRsrv "local" st else spacedRsrv "declare" st
      let st ← rec.declOptsF ctx opts st
      let st ← rec.assignsF ctx assigns st
      pure (0, st)
    | .evalClause stmtOpt => do
      let st := spacedRsrv "eval" st
      let st ←
        match stmtOpt with
        | some s2 => rec.stmtF ctx s2 st
        | none => pure st
      pure (0, st)
    | .letClause exprs => do
      let st := spacedRsrv "let" st
      let st ← rec.letExprsF ctx exprs st
      pure (0, st)

/-- Body of the in-place redirection loop of the `*CallExpr` case:
non-heredoc redirections positioned before the second argument are
printed right after the first word; returns how many were consumed. -/
def callRedirsB (rec : Funs) (ctx : Ctx) (rs : List Redirect) (arg1pos : Nat)
    (st : PState) : Option (Nat × PState) :=
  match rs with
  | [] => pure (0, st)
  | r :: rest =>
    if r.rpos > arg1pos then pure (0, st)
    else if r.op = .SHL ∨ r.op = .DHEREDOC then pure (0, st)
    else do
      let st := if st.wantSpace then space st else st
      let st := match r.n with | some l => str l.value st | none => st
      let st := str (redirectOp r.op) st
      let st := { st with wantSpace := true }
      let st ← rec.wordF ctx r.word st
      let (count, st) ← rec.callRedirsF ctx rest arg1pos st
      pure (count + 1, st)

/-- Body of the `elif` loop of the `*IfClause` case. -/
def elifsB (rec : Funs) (ctx : Ctx) (els : List Elif) (st : PState) :
    Option PState :=
  match els with
  | [] => pure st
  | el :: rest => do
    let st ← rec.semiRsrvF ctx "elif" el.elifPos true st
    let st ← rec.condF ctx el.cond st
    let st ← rec.semiOrNewlF ctx "then" el.thenPos st
    let (_, st) ← rec.nestedStmtsF ctx el.thenStmts st
    rec.elifsF ctx rest st

/-- Body of the pattern-group loop of the `*CaseClause` case. -/
def caseItemsB (rec : Funs) (ctx : Ctx) (list : List PatternList) (esac : Nat)
    (st : PState) : Option PState :=
  match list with
  | [] => pure st
  | pl :: rest => do
    let (_, st) ← rec.didSeparateF ctx (ctx.f.lineOf (wordFirstPos pl.patterns)) st
    let st ← rec.patternsF ctx pl.patterns true st
    let st := byteW ')' st
    let (sep, st) ← rec.nestedStmtsF ctx pl.stmts st
    let st := { st with level := st.level + 1 }
    let opLine := ctx.f.lineOf pl.opPos
    let st :=
      if !sep then { st with curLine := st.curLine + 1 }
      else if opLine = st.curLine ∧ pl.opPos ≠ esac then
        { st with curLine := st.curLine - 1 }
      else st
    let st ← rec.sepTokF ctx (caseClauseOp pl.op) opLine st
    let st := if pl.opPos = esac then { st with curLine := st.curLine - 1 } else st
    let st := { st with level := st.level - 1 }
    rec.caseItemsF ctx rest esac st

/-- Body of the `|`-joined pattern loop of one case pattern group. -/
def patternsB (rec : Funs) (ctx : Ctx) (ws : List Word) (isFirst : Bool)
    (st : PState) : Option PState :=
  match ws with
  | [] => pure st
  | w :: rest => do
    let st := if !isFirst then spacedTok "|" true st else st
    let st ← rec.spacedWordF ctx w st
    rec.patternsF ctx rest false st

/-- Body of `printer.stmts`: returns whether a multi-line layout was used. -/
def stmtsB (rec : Funs) (ctx : Ctx) (stmts : List Stmt) (st : PState) :
    Option (Bool × PState) :=
  match stmts with
  | [] => pure (false, st)
  | s0 :: rest =>
    let pos0 := ctx.f.lineOf s0.pos
    if rest.isEmpty ∧ pos0 = st.curLine then do
      let (_, st) ← rec.didSeparateF ctx pos0 st
      let st ← rec.stmtF ctx s0 st
      pure (false, st)
    else do
      let st ← rec.stmtsLoopF ctx (s0 :: rest) pos0 0 st
      pure (true, { st with wantNewline := true })

/-- Body of the main loop of `printer.stmts`, carrying `lastLine` and the
current inline-comment alignment width `inlineIndent`. -/
def stmtsLoopB (rec : Funs) (ctx : Ctx) (rem : List Stmt) (lastLine : Int)
    (inlineIndent : Int) (st : PState) : Option PState :=
  match rem with
  | [] => pure st
  | s :: rest => do
    let pos := ctx.f.lineOf s.pos
    let st ← rec.alwaysSeparateF ctx pos st
    let st ← rec.stmtF ctx s st
    let inlineIndent := if pos > lastLine + 1 then 0 else inlineIndent
    let lastLine := pos
    if !hasInline ctx pos st.comments then
      rec.stmtsLoopF ctx rest lastLine 0 st
    else do
      let inlineIndent ←
        if inlineIndent = 0 then rec.scanInlineF ctx (s :: rest) pos 0 st
        else pure inlineIndent
      let l ← rec.stmtLenF ctx s
      let st := { st with wantSpaces := inlineIndent - l }
      rec.stmtsLoopF ctx rest lastLine inlineIndent st

/-- Body of the alignment scan of `printer.stmts`: the maximum rendered
width over the run of statements, from the current one, that all carry
inline comments on adjacent lines. -/
def scanInlineB (rec : Funs) (ctx : Ctx) (rem : List Stmt) (lastLine : Int)
    (acc : Int) (st : PState) : Option Int :=
  match rem with
  | [] => pure acc
  | s2 :: rest =>
    let pos2 := ctx.f.lineOf s2.pos
    if !hasInline ctx pos2 st.comments ∨ pos2 > lastLine + 1 then pure acc
    else do
      let l ← rec.stmtLenF ctx s2
      rec.scanInlineF ctx rest pos2 (if l > acc then l else acc) st

/-- Body of `stmtLen`: render the statement into a discarded buffer with a
fresh zero-valued printer (tabs config, empty backlog) and measure the
byte length. -/
def stmtLenB (rec : Funs) (ctx : Ctx) (s : Stmt) : Option Int := do
  let st ← rec.stmtF { f := ctx.f, c := ⟨0⟩ } s freshState
  pure (evBytes st.events)

/-- Body of `printer.nestedStmts`. -/
def nestedStmtsB (rec : Funs) (ctx : Ctx) (stmts : List Stmt) (st : PState) :
    Option (Bool × PState) := do
  let st := incLevel st
  let (sep, st) ← rec.stmtsF ctx stmts st
  pure (sep, decLevel st)

/-- Body of `printer.assigns`. -/
def assignsB (rec : Funs) (ctx : Ctx) (as_ : List Assign) (st : PState) :
    Option PState :=
  rec.assignsAux ctx as_ false st

/-- Body of the loop of `printer.assigns` with its `anyNewline` flag. -/
def assignsAuxB (rec : Funs) (ctx : Ctx) (as_ : List Assign) (anyNl : Bool)
    (st : PState) : Option PState :=
  match as_ with
  | [] => pure (if anyNl then decLevel st else st)
  | a :: rest => do
    let (st, anyNl) ←
      if st.curLine > 0 ∧ ctx.f.lineOf a.pos > st.curLine then
        let st := bslashNewl st
        let (st, anyNl) := if !anyNl then (incLevel st, true) else (st, anyNl)
        pure (indent ctx st, anyNl)
      else
        pure ((if st.wantSpace then space st else st), anyNl)
    let st ←
      match a.name with
      | some nm =>
        let st := str nm.value st
        pure (if a.append then token "+=" true st else token "=" true st)
      | none => pure st
    let st ← rec.wordF ctx a.value st
    rec.assignsAux ctx rest anyNl st

/-- Body of the expression loop of the `*LetClause` case (COMPACT mode). -/
def letExprsB (rec : Funs) (ctx : Ctx) (es : List ArithmExpr) (st : PState) :
    Option PState :=
  match es with
  | [] => pure st
  | e :: rest => do
    let st := space st
    let st ← rec.arithmF ctx e true st
    rec.letExprsF ctx rest st

/-- Body of the option-word loop of the `*DeclClause` case. -/
def declOptsB (rec : Funs) (ctx : Ctx) (ws : List Word) (st : PState) :
    Option PState :=
  match ws with
  | [] => pure st
  | w :: rest => do
    let st ← rec.spacedWordF ctx w st
    rec.declOptsF ctx rest st

/-- The out-of-fuel bundle: every method fails. -/
def funsZero : Funs :=
  { newlineF := fun _ _ => none, drainHdocs := fun _ _ _ => none,
    newlinesF := fun _ _ _ => none, alwaysSeparateF := fun _ _ _ => none,
    didSeparateF := fun _ _ _ => none, sepTokF := fun _ _ _ _ => none,
    semiRsrvF := fun _ _ _ _ _ => none, semiOrNewlF := fun _ _ _ _ => none,
    commentsUpToF := fun _ _ _ => none, wordPartF := fun _ _ _ => none,
    quotedPartsF := fun _ _ _ => none, wordPartsF := fun _ _ _ => none,
    wordF := fun _ _ _ => none, unquotedWordF := fun _ _ _ => none,
    unquotedPartsF := fun _ _ _ => none, spacedWordF := fun _ _ _ => none,
    wordJoinF := fun _ _ _ _ => none, wordJoinAux := fun _ _ _ _ _ => none,
    arithmF := fun _ _ _ _ => none, condF := fun _ _ _ => none,
    loopF := fun _ _ _ => none, stmtF := fun _ _ _ => none,
    redirsF := fun _ _ _ _ => none, commandF := fun _ _ _ _ => none,
    callRedirsF := fun _ _ _ _ => none, elifsF := fun _ _ _ => none,
    caseItemsF := fun _ _ _ _ => none, patternsF := fun _ _ _ _ => none,
    stmtsF := fun _ _ _ => none, stmtsLoopF := fun _ _ _ _ _ => none,
    scanInlineF := fun _ _ _ _ _ => none, stmtLenF := fun _ _ => none,
    nestedStmtsF := fun _ _ _ => none, assignsF := fun _ _ _ => none,
    assignsAux := fun _ _ _ _ => none, letExprsF := fun _ _ _ => none,
    declOptsF := fun _ _ _ => none }

/-- One more fuel level on top of `prev`. -/
def funsStep (prev : Funs) : Funs :=
  { newlineF := newlineB prev, drainHdocs := drainHdocsB prev,
    newlinesF := newlinesB prev, alwaysSeparateF := alwaysSeparateB prev,
    didSeparateF := didSeparateB prev, sepTokF := sepTokB prev,
    semiRsrvF := semiRsrvB prev, semiOrNewlF := semiOrNewlB prev,
    commentsUpToF := commentsUpToB prev, wordPartF := wordPartB prev,
    quotedPartsF := quotedPartsB prev, wordPartsF := wordPartsB prev,
    wordF := wordB prev, unquotedWordF := unquotedWordB prev,
    unquotedPartsF := unquotedPartsB prev, spacedWordF := spacedWordB prev,
    wordJoinF := wordJoinB prev, wordJoinAux := wordJoinAuxB prev,
    arithmF := arithmB prev, condF := condB prev, loopF := loopB prev,
    stmtF := stmtB prev, redirsF := redirsB prev, commandF := commandB prev,
    callRedirsF := callRedirsB prev, elifsF := elifsB prev,
    caseItemsF := caseItemsB prev, patternsF := patternsB prev,
    stmtsF := stmtsB prev, stmtsLoopF := stmtsLoopB prev,
    scanInlineF := scanInlineB prev, stmtLenF := stmtLenB prev,
    nestedStmtsF := nestedStmtsB prev, assignsF := assignsB prev,
    assignsAux := assignsAuxB prev, letExprsF := letExprsB prev,
    declOptsF := declOptsB prev }

/-- The printer methods at a given fuel. -/
def funs : Nat → Funs
  | 0 => funsZero
  | n+1 => funsStep (funs n)

/- The printer methods with explicit fuel, under the names of their Go
counterparts. -/

/-- Go `printer.newline` (fuelled). -/
def newlineF (ctx : Ctx) (n : Nat) : PState → Option PState :=
  (funs n).newlineF ctx

/-- The heredoc drain loop of `printer.newline` (fuelled). -/
def drainHdocs (ctx : Ctx) (n : Nat) : List Redirect → PState → Option PState :=
  (funs n).drainHdocs ctx

/-- Go `printer.newlines` (fuelled). -/
def newlinesF (ctx : Ctx) (n : Nat) : Int → PState → Option PState :=
  (funs n).newlinesF ctx

/-- Go `printer.alwaysSeparate` (fuelled). -/
def alwaysSeparateF (ctx : Ctx) (n : Nat) : Int → PState → Option PState :=
  (funs n).alwaysSeparateF ctx

/-- Go `printer.didSeparate` (fuelled). -/
def didSeparateF (ctx : Ctx) (n : Nat) : Int → PState → Option (Bool × PState) :=
  (funs n).didSeparateF ctx

/-- Go `printer.sepTok` (fuelled). -/
def sepTokF (ctx : Ctx) (n : Nat) : String → Int → PState → Option PState :=
  (funs n).sepTokF ctx

/-- Go `printer.semiRsrv` (fuelled). -/
def semiRsrvF (ctx : Ctx) (n : Nat) : String → Nat → Bool → PState → Option PState :=
  (funs n).semiRsrvF ctx

/-- Go `printer.semiOrNewl` (fuelled). -/
def semiOrNewlF (ctx : Ctx) (n : Nat) : String → Nat → PState → Option PState :=
  (funs n).semiOrNewlF ctx

/-- Go `printer.commentsUpTo` (fuelled). -/
def commentsUpToF (ctx : Ctx) (n : Nat) : Int → PState → Option PState :=
  (funs n).commentsUpToF ctx

/-- Go `printer.wordPart` (fuelled). -/
def wordPartF (ctx : Ctx) (n : Nat) : WordPart → PState → Option PState :=
  (funs n).wordPartF ctx

/-- The `*Quoted` part loop of `printer.wordPart` (fuelled). -/
def quotedPartsF (ctx : Ctx) (n : Nat) : List WordPart → PState → Option PState :=
  (funs n).quotedPartsF ctx

/-- The plain `wordPart` fold (fuelled). -/
def wordPartsF (ctx : Ctx) (n : Nat) : List WordPart → PState → Option PState :=
  (funs n).wordPartsF ctx

/-- Go `printer.word` (fuelled). -/
def wordF (ctx : Ctx) (n : Nat) : Word → PState → Option PState :=
  (funs n).wordF ctx

/-- Go `printer.unquotedWord` (fuelled). -/
def unquotedWordF (ctx : Ctx) (n : Nat) : Word → PState → Option PState :=
  (funs n).unquotedWordF ctx

/-- The part loop of `printer.unquotedWord` (fuelled). -/
def unquotedPartsF (ctx : Ctx) (n : Nat) : List WordPart → PState → Option PState :=
  (funs n).unquotedPartsF ctx

/-- Go `printer.spacedWord` (fuelled). -/
def spacedWordF (ctx : Ctx) (n : Nat) : Word → PState → Option PState :=
  (funs n).spacedWordF ctx

/-- Go `printer.wordJoin` (fuelled). -/
def wordJoinF (ctx : Ctx) (n : Nat) : List Word → Bool → PState → Option PState :=
  (funs n).wordJoinF ctx

/-- The loop of `printer.wordJoin` (fuelled). -/
def wordJoinAux (ctx : Ctx) (n : Nat) : List Word → Bool → Bool → PState → Option PState :=
  (funs n).wordJoinAux ctx

/-- Go `printer.arithm` (fuelled). -/
def arithmF (ctx : Ctx) (n : Nat) : ArithmExpr → Bool → PState → Option PState :=
  (funs n).arithmF ctx

/-- Go `printer.cond` (fuelled). -/
def condF (ctx : Ctx) (n : Nat) : Cond → PState → Option PState :=
  (funs n).condF ctx

/-- Go `printer.loop` (fuelled). -/
def loopF (ctx : Ctx) (n : Nat) : Loop → PState → Option PState :=
  (funs n).loopF ctx

/-- Go `printer.stmt` (fuelled). -/
def stmtF (ctx : Ctx) (n : Nat) : Stmt → PState → Option PState :=
  (funs n).stmtF ctx

/-- The trailing-redirection loop of `printer.stmt` (fuelled). -/
def redirsF (ctx : Ctx) (n : Nat) : List Redirect → Bool → PState → Option PState :=
  (funs n).redirsF ctx

/-- Go `printer.command` (fuelled). -/
def commandF (ctx : Ctx) (n : Nat) : Option Command → List Redirect → PState → Option (Nat × PState) :=
  (funs n).commandF ctx

/-- The `*CallExpr` in-place redirection loop (fuelled). -/
def callRedirsF (ctx : Ctx) (n : Nat) : List Redirect → Nat → PState → Option (Nat × PState) :=
  (funs n).callRedirsF ctx

/-- The `elif` loop of the `*IfClause` case (fuelled). -/
def elifsF (ctx : Ctx) (n : Nat) : List Elif → PState → Option PState :=
  (funs n).elifsF ctx

/-- The pattern-group loop of `*CaseClause` (fuelled). -/
def caseItemsF (ctx : Ctx) (n : Nat) : List PatternList → Nat → PState → Option PState :=
  (funs n).caseItemsF ctx

/-- The pattern loop of one case group (fuelled). -/
def patternsF (ctx : Ctx) (n : Nat) : List Word → Bool → PState → Option PState :=
  (funs n).patternsF ctx

/-- Go `printer.stmts` (fuelled). -/
def stmtsF (ctx : Ctx) (n : Nat) : List Stmt → PState → Option (Bool × PState) :=
  (funs n).stmtsF ctx

/-- The main loop of `printer.stmts` (fuelled). -/
def stmtsLoopF (ctx : Ctx) (n : Nat) : List Stmt → Int → Int → PState → Option PState :=
  (funs n).stmtsLoopF ctx

/-- The alignment scan of `printer.stmts` (fuelled). -/
def scanInlineF (ctx : Ctx) (n : Nat) : List Stmt → Int → Int → PState → Option Int :=
  (funs n).scanInlineF ctx

/-- Go `stmtLen` (fuelled). -/
def stmtLenF (ctx : Ctx) (n : Nat) : Stmt → Option Int :=
  (funs n).stmtLenF ctx

/-- Go `printer.nestedStmts` (fuelled). -/
def nestedStmtsF (ctx : Ctx) (n : Nat) : List Stmt → PState → Option (Bool × PState) :=
  (funs n).nestedStmtsF ctx

/-- Go `printer.assigns` (fuelled). -/
def assignsF (ctx : Ctx) (n : Nat) : List Assign → PState → Option PState :=
  (funs n).assignsF ctx

/-- The loop of `printer.assigns` (fuelled). -/
def assignsAux (ctx : Ctx) (n : Nat) : List Assign → Bool → PState → Option PState :=
  (funs n).assignsAux ctx

/-- The `*LetClause` expression loop (fuelled). -/
def letExprsF (ctx : Ctx) (n : Nat) : List ArithmExpr → PState → Option PState :=
  (funs n).letExprsF ctx

/-- The `*DeclClause` option-word loop (fuelled). -/
def declOptsF (ctx : Ctx) (n : Nat) : List Word → PState → Option PState :=
  (funs n).declOptsF ctx

/-! Equation lemmas: out-of-fuel, one-step unfolding, and folding of
bundle projections back to the named functions. All hold by `rfl`. -/

theorem newlineF_zero (ctx : Ctx) : newlineF ctx 0 = fun _ => none := rfl

theorem newlineF_succ (ctx : Ctx) (n : Nat) : newlineF ctx (n+1) = newlineB (funs n) ctx := rfl

theorem newlineF_fold (ctx : Ctx) (n : Nat) : (funs n).newlineF ctx = newlineF ctx n := rfl

theorem drainHdocs_zero (ctx : Ctx) : drainHdocs ctx 0 = fun _ _ => none := rfl

theorem drainHdocs_succ (ctx : Ctx) (n : Nat) : drainHdocs ctx (n+1) = drainHdocsB (funs n) ctx := rfl

theorem drainHdocs_fold (ctx : Ctx) (n : Nat) : (funs n).drainHdocs ctx = drainHdocs ctx n := rfl

theorem newlinesF_zero (ctx : Ctx) : newlinesF ctx 0 = fun _ _ => none := rfl

theorem newlinesF_succ (ctx : Ctx) (n : Nat) : newlinesF ctx (n+1) = newlinesB (funs n) ctx := rfl

theorem newlinesF_fold (ctx : Ctx) (n : Nat) : (funs n).newlinesF ctx = newlinesF ctx n := rfl

theorem alwaysSeparateF_zero (ctx : Ctx) : alwaysSeparateF ctx 0 = fun _ _ => none := rfl

theorem alwaysSeparateF_succ (ctx : Ctx) (n : Nat) : alwaysSeparateF ctx (n+1) = alwaysSeparateB (funs n) ctx := rfl

theorem alwaysSeparateF_fold (ctx : Ctx) (n : Nat) : (funs n).alwaysSeparateF ctx = alwaysSeparateF ctx n := rfl

theorem didSeparateF_zero (ctx : Ctx) : didSeparateF ctx 0 = fun _ _ => none := rfl

theorem didSeparateF_succ (ctx : Ctx) (n : Nat) : didSeparateF ctx (n+1) = didSeparateB (funs n) ctx := rfl

theorem didSeparateF_fold (ctx : Ctx) (n : Nat) : (funs n).didSeparateF ctx = didSeparateF ctx n := rfl

theorem sepTokF_zero (ctx : Ctx) : sepTokF ctx 0 = fun _ _ _ => none := rfl

theorem sepTokF_succ (ctx : Ctx) (n : Nat) : sepTokF ctx (n+1) = sepTokB (funs n) ctx := rfl

theorem sepTokF_fold (ctx : Ctx) (n : Nat) : (funs n).sepTokF ctx = sepTokF ctx n := rfl

theorem semiRsrvF_zero (ctx : Ctx) : semiRsrvF ctx 0 = fun _ _ _ _ => none := rfl

theorem semiRsrvF_succ (ctx : Ctx) (n : Nat) : semiRsrvF ctx (n+1) = semiRsrvB (funs n) ctx := rfl

theorem semiRsrvF_fold (ctx : Ctx) (n : Nat) : (funs n).semiRsrvF ctx = semiRsrvF ctx n := rfl

theorem semiOrNewlF_zero (ctx : Ctx) : semiOrNewlF ctx 0 = fun _ _ _ => none := rfl

theorem semiOrNewlF_succ (ctx : Ctx) (n : Nat) : semiOrNewlF ctx (n+1) = semiOrNewlB (funs n) ctx := rfl

theorem semiOrNewlF_fold (ctx : Ctx) (n : Nat) : (funs n).semiOrNewlF ctx = semiOrNewlF ctx n := rfl

theorem commentsUpToF_zero (ctx : Ctx) : commentsUpToF ctx 0 = fun _ _ => none := rfl

theorem commentsUpToF_succ (ctx : Ctx) (n : Nat) : commentsUpToF ctx (n+1) = commentsUpToB (funs n) ctx := rfl

theorem commentsUpToF_fold (ctx : Ctx) (n : Nat) : (funs n).commentsUpToF ctx = commentsUpToF ctx n := rfl

theorem wordPartF_zero (ctx : Ctx) : wordPartF ctx 0 = fun _ _ => none := rfl

theorem wordPartF_succ (ctx : Ctx) (n : Nat) : wordPartF ctx (n+1) = wordPartB (funs n) ctx := rfl

theorem wordPartF_fold (ctx : Ctx) (n : Nat) : (funs n).wordPartF ctx = wordPartF ctx n := rfl

theorem quotedPartsF_zero (ctx : Ctx) : quotedPartsF ctx 0 = fun _ _ => none := rfl

theorem quotedPartsF_succ (ctx : Ctx) (n : Nat) : quotedPartsF ctx (n+1) = quotedPartsB (funs n) ctx := rfl

theorem quotedPartsF_fold (ctx : Ctx) (n : Nat) : (funs n).quotedPartsF ctx = quotedPartsF ctx n := rfl

theorem wordPartsF_zero (ctx : Ctx) : wordPartsF ctx 0 = fun _ _ => none := rfl

theorem wordPartsF_succ (ctx : Ctx) (n : Nat) : wordPartsF ctx (n+1) = wordPartsB (funs n) ctx := rfl

theorem wordPartsF_fold (ctx : Ctx) (n : Nat) : (funs n).wordPartsF ctx = wordPartsF ctx n := rfl

theorem wordF_zero (ctx : Ctx) : wordF ctx 0 = fun _ _ => none := rfl

theorem wordF_succ (ctx : Ctx) (n : Nat) : wordF ctx (n+1) = wordB (funs n) ctx := rfl

theorem wordF_fold (ctx : Ctx) (n : Nat) : (funs n).wordF ctx = wordF ctx n := rfl

theorem unquotedWordF_zero (ctx : Ctx) : unquotedWordF ctx 0 = fun _ _ => none := rfl

theorem unquotedWordF_succ (ctx : Ctx) (n : Nat) : unquotedWordF ctx (n+1) = unquotedWordB (funs n) ctx := rfl

theorem unquotedWordF_fold (ctx : Ctx) (n : Nat) : (funs n).unquotedWordF ctx = unquotedWordF ctx n := rfl

theorem unquotedPartsF_zero (ctx : Ctx) : unquotedPartsF ctx 0 = fun _ _ => none := rfl

theorem unquotedPartsF_succ (ctx : Ctx) (n : Nat) : unquotedPartsF ctx (n+1) = unquotedPartsB (funs n) ctx := rfl

theorem unquotedPartsF_fold (ctx : Ctx) (n : Nat) : (funs n).unquotedPartsF ctx = unquotedPartsF ctx n := rfl

theorem spacedWordF_zero (ctx : Ctx) : spacedWordF ctx 0 = fun _ _ => none := rfl

theorem spacedWordF_succ (ctx : Ctx) (n : Nat) : spacedWordF ctx (n+1) = spacedWordB (funs n) ctx := rfl

theorem spacedWordF_fold (ctx : Ctx) (n : Nat) : (funs n).spacedWordF ctx = spacedWordF ctx n := rfl

theorem wordJoinF_zero (ctx : Ctx) : wordJoinF ctx 0 = fun _ _ _ => none := rfl

theorem wordJoinF_succ (ctx : Ctx) (n : Nat) : wordJoinF ctx (n+1) = wordJoinB (funs n) ctx := rfl

theorem wordJoinF_fold (ctx : Ctx) (n : Nat) : (funs n).wordJoinF ctx = wordJoinF ctx n := rfl

theorem wordJoinAux_zero (ctx : Ctx) : wordJoinAux ctx 0 = fun _ _ _ _ => none := rfl

theorem wordJoinAux_succ (ctx : Ctx) (n : Nat) : wordJoinAux ctx (n+1) = wordJoinAuxB (funs n) ctx := rfl

theorem wordJoinAux_fold (ctx : Ctx) (n : Nat) : (funs n).wordJoinAux ctx = wordJoinAux ctx n := rfl

theorem arithmF_zero (ctx : Ctx) : arithmF ctx 0 = fun _ _ _ => none := rfl

theorem arithmF_succ (ctx : Ctx) (n : Nat) : arithmF ctx (n+1) = arithmB (funs n) ctx := rfl

theorem arithmF_fold (ctx : Ctx) (n : Nat) : (funs n).arithmF ctx = arithmF ctx n := rfl

theorem condF_zero (ctx : Ctx) : condF ctx 0 = fun _ _ => none := rfl

theorem condF_succ (ctx : Ctx) (n : Nat) : condF ctx (n+1) = condB (funs n) ctx := rfl

theorem condF_fold (ctx : Ctx) (n : Nat) : (funs n).condF ctx = condF ctx n := rfl

theorem loopF_zero (ctx : Ctx) : loopF ctx 0 = fun _ _ => none := rfl

theorem loopF_succ (ctx : Ctx) (n : Nat) : loopF ctx (n+1) = loopB (funs n) ctx := rfl

theorem loopF_fold (ctx : Ctx) (n : Nat) : (funs n).loopF ctx = loopF ctx n := rfl

theorem stmtF_zero (ctx : Ctx) : stmtF ctx 0 = fun _ _ => none := rfl

theorem stmtF_succ (ctx : Ctx) (n : Nat) : stmtF ctx (n+1) = stmtB (funs n) ctx := rfl

theorem stmtF_fold (ctx : Ctx) (n : Nat) : (funs n).stmtF ctx = stmtF ctx n := rfl

theorem redirsF_zero (ctx : Ctx) : redirsF ctx 0 = fun _ _ _ => none := rfl

theorem redirsF_succ (ctx : Ctx) (n : Nat) : redirsF ctx (n+1) = redirsB (funs n) ctx := rfl

theorem redirsF_fold (ctx : Ctx) (n : Nat) : (funs n).redirsF ctx = redirsF ctx n := rfl

theorem commandF_zero (ctx : Ctx) : commandF ctx 0 = fun _ _ _ => none := rfl

theorem commandF_succ (ctx : Ctx) (n : Nat) : commandF ctx (n+1) = commandB (funs n) ctx := rfl

theorem commandF_fold (ctx : Ctx) (n : Nat) : (funs n).commandF ctx = commandF ctx n := rfl

theorem callRedirsF_zero (ctx : Ctx) : callRedirsF ctx 0 = fun _ _ _ => none := rfl

theorem callRedirsF_succ (ctx : Ctx) (n : Nat) : callRedirsF ctx (n+1) = callRedirsB (funs n) ctx := rfl

theorem callRedirsF_fold (ctx : Ctx) (n : Nat) : (funs n).callRedirsF ctx = callRedirsF ctx n := rfl

theorem elifsF_zero (ctx : Ctx) : elifsF ctx 0 = fun _ _ => none := rfl

theorem elifsF_succ (ctx : Ctx) (n : Nat) : elifsF ctx (n+1) = elifsB (funs n) ctx := rfl

theorem elifsF_fold (ctx : Ctx) (n : Nat) : (funs n).elifsF ctx = elifsF ctx n := rfl

theorem caseItemsF_zero (ctx : Ctx) : caseItemsF ctx 0 = fun _ _ _ => none := rfl

theorem caseItemsF_succ (ctx : Ctx) (n : Nat) : caseItemsF ctx (n+1) = caseItemsB (funs n) ctx := rfl

theorem caseItemsF_fold (ctx : Ctx) (n : Nat) : (funs n).caseItemsF ctx = caseItemsF ctx n := rfl

theorem patternsF_zero (ctx : Ctx) : patternsF ctx 0 = fun _ _ _ => none := rfl

theorem patternsF_succ (ctx : Ctx) (n : Nat) : patternsF ctx (n+1) = patternsB (funs n) ctx := rfl

theorem patternsF_fold (ctx : Ctx) (n : Nat) : (funs n).patternsF ctx = patternsF ctx n := rfl

theorem stmtsF_zero (ctx : Ctx) : stmtsF ctx 0 = fun _ _ => none := rfl

theorem stmtsF_succ (ctx : Ctx) (n : Nat) : stmtsF ctx (n+1) = stmtsB (funs n) ctx := rfl

theorem stmtsF_fold (ctx : Ctx) (n : Nat) : (funs n).stmtsF ctx = stmtsF ctx n := rfl

theorem stmtsLoopF_zero (ctx : Ctx) : stmtsLoopF ctx 0 = fun _ _ _ _ => none := rfl

theorem stmtsLoopF_succ (ctx : Ctx) (n : Nat) : stmtsLoopF ctx (n+1) = stmtsLoopB (funs n) ctx := rfl

theorem stmtsLoopF_fold (ctx : Ctx) (n : Nat) : (funs n).stmtsLoopF ctx = stmtsLoopF ctx n := rfl

theorem scanInlineF_zero (ctx : Ctx) : scanInlineF ctx 0 = fun _ _ _ _ => none := rfl

theorem scanInlineF_succ (ctx : Ctx) (n : Nat) : scanInlineF ctx (n+1) = scanInlineB (funs n) ctx := rfl

theorem scanInlineF_fold (ctx : Ctx) (n : Nat) : (funs n).scanInlineF ctx = scanInlineF ctx n := rfl

theorem stmtLenF_zero (ctx : Ctx) : stmtLenF ctx 0 = fun _ => none := rfl

theorem stmtLenF_succ (ctx : Ctx) (n : Nat) : stmtLenF ctx (n+1) = stmtLenB (funs n) ctx := rfl

theorem stmtLenF_fold (ctx : Ctx) (n : Nat) : (funs n).stmtLenF ctx = stmtLenF ctx n := rfl

theorem nestedStmtsF_zero (ctx : Ctx) : nestedStmtsF ctx 0 = fun _ _ => none := rfl

theorem nestedStmtsF_succ (ctx : Ctx) (n : Nat) : nestedStmtsF ctx (n+1) = nestedStmtsB (funs n) ctx := rfl

theorem nestedStmtsF_fold (ctx : Ctx) (n : Nat) : (funs n).nestedStmtsF ctx = nestedStmtsF ctx n := rfl

theorem assignsF_zero (ctx : Ctx) : assignsF ctx 0 = fun _ _ => none := rfl

theorem assignsF_succ (ctx : Ctx) (n : Nat) : assignsF ctx (n+1) = assignsB (funs n) ctx := rfl

theorem assignsF_fold (ctx : Ctx) (n : Nat) : (funs n).assignsF ctx = assignsF ctx n := rfl

theorem assignsAux_zero (ctx : Ctx) : assignsAux ctx 0 = fun _ _ _ => none := rfl

theorem assignsAux_succ (ctx : Ctx) (n : Nat) : assignsAux ctx (n+1) = assignsAuxB (funs n) ctx := rfl

theorem assignsAux_fold (ctx : Ctx) (n : Nat) : (funs n).assignsAux ctx = assignsAux ctx n := rfl

theorem letExprsF_zero (ctx : Ctx) : letExprsF ctx 0 = fun _ _ => none := rfl

theorem letExprsF_succ (ctx : Ctx) (n : Nat) : letExprsF ctx (n+1) = letExprsB (funs n) ctx := rfl

theorem letExprsF_fold (ctx : Ctx) (n : Nat) : (funs n).letExprsF ctx = letExprsF ctx n := rfl

theorem declOptsF_zero (ctx : Ctx) : declOptsF ctx 0 = fun _ _ => none := rfl

theorem declOptsF_succ (ctx : Ctx) (n : Nat) : declOptsF ctx (n+1) = declOptsB (funs n) ctx := rfl

theorem declOptsF_fold (ctx : Ctx) (n : Nat) : (funs n).declOptsF ctx = declOptsF ctx n := rfl


/-- The initial traversal state of `PrintConfig.Fprint`: zero-valued
printer with the file's comment list as backlog. -/
def initState (f : File) : PState :=
  { freshState with comments := f.comments }

/-- The traversal of `PrintConfig.Fprint`: statements, remaining comments
(`commentsUpTo(0)` flushes everything), final newline (which also drains
any pending heredocs). -/
def fprintRun (ctx : Ctx) (fuel : Nat) : Option PState :=
  (stmtsF ctx fuel ctx.f.stmts (initState ctx.f)).bind fun p =>
    (commentsUpToF ctx fuel 0 p.2).bind fun st =>
      newlineF ctx fuel st

/-- The full output written by `Fprint` when the sink never fails. -/
def FprintStr (ctx : Ctx) (fuel : Nat) : Option String :=
  (fprintRun ctx fuel).map evStr

/-- State of the buffered sink (`bufio.Writer` with its sticky error)
together with the printer's `err` field: bytes actually written, the
sticky first write error, the last value assigned to `p.err`, and the
count of attempted writes (errors are drawn from an oracle indexed by
attempt). -/
structure SinkSt where
  out : String
  werr : Option Nat
  perr : Option Nat
  cnt : Nat
  deriving DecidableEq, Repr

/-- One write through the sink. With a recorded error the write is a no-op
returning that error (`bufio`'s sticky contract); otherwise the oracle
decides whether this attempt fails. The returned error is stored in
`perr` (`p.err`) exactly when the event carries the assign flag. -/
def sinkStep (oracle : Nat → Option Nat) (w : SinkSt) (ev : Ev) : SinkSt :=
  match w.werr with
  | some e => { w with perr := if ev.assigns then some e else w.perr }
  | none =>
    match oracle w.cnt with
    | some e =>
      { w with werr := some e, cnt := w.cnt + 1,
               perr := if ev.assigns then some e else w.perr }
    | none =>
      { w with out := w.out ++ ev.s, cnt := w.cnt + 1,
               perr := if ev.assigns then none else w.perr }

/-- Feed the logged writes of a traversal through the sink. -/
def sinkRun (oracle : Nat → Option Nat) (evs : List Ev) (w : SinkSt) : SinkSt :=
  evs.foldl (sinkStep oracle) w

def sinkInit : SinkSt :=
  { out := "", werr := none, perr := none, cnt := 0 }

/-- Go `PrintConfig.Fprint` against a fallible sink: the traversal's writes
fed through the sink, returning the written bytes and the error `Fprint`
returns — `p.err` if set, else the result of `Flush` (the sticky error). -/
def FprintIO (ctx : Ctx) (oracle : Nat → Option Nat) (fuel : Nat) :
    Option (String × Option Nat) :=
  (fprintRun ctx fuel).map fun st =>
    let w := sinkRun oracle st.events sinkInit
    (w.out, match w.perr with | some e => some e | none => w.werr)

/-! Helper lemmas about the write log. -/

theorem evsStr_from (a : String) (evs : List Ev) :
    evs.foldl (fun acc e => acc ++ e.s) a = a ++ evsStr evs := by
  induction evs generalizing a with
  | nil => simp [evsStr]
  | cons e rest ih =>
    show List.foldl _ (a ++ e.s) rest = a ++ evsStr (e :: rest)
    have h2 : evsStr (e :: rest) = e.s ++ evsStr rest := by
      show List.foldl _ ("" ++ e.s) rest = _
      rw [ih ("" ++ e.s)]
      rfl
    rw [ih (a ++ e.s), h2, String.append_assoc]

@[simp] theorem evsStr_append (xs ys : List Ev) :
    evsStr (xs ++ ys) = evsStr xs ++ evsStr ys := by
  simp only [evsStr, List.foldl_append]
  exact evsStr_from ..

@[simp] theorem evsStr_nil : evsStr [] = "" := rfl

@[simp] theorem evsStr_cons (e : Ev) (l : List Ev) :
    evsStr (e :: l) = e.s ++ evsStr l :=
  evsStr_from e.s l

@[simp] theorem evStr_wr (s : String) (b : Bool) (st : PState) :
    evStr (wr s b st) = evStr st ++ s := by
  simp [evStr, wr, String.append_assoc]

@[simp] theorem evStr_with (evs : List Ev) (a b c : Bool) (d e f g h : Int)
    (li : List Bool) (cs : List Comment) (ph : List Redirect) :
    evStr ⟨evs, a, b, c, d, e, f, g, li, cs, ph⟩ = evsStr evs := rfl

@[simp] theorem evStr_str (s : String) (st : PState) :
    evStr (str s st) = evStr st ++ s := evStr_wr ..

@[simp] theorem evStr_space (st : PState) :
    evStr (space st) = evStr st ++ " " := by
  simp [space, evStr, wr, String.append_assoc]

@[simp] theorem evStr_byteW (c : Char) (st : PState) :
    evStr (byteW c st) = evStr st ++ String.singleton c := evStr_wr ..

@[simp] theorem evStr_token (s : String) (b : Bool) (st : PState) :
    evStr (token s b st) = evStr st ++ s := by
  simp [token, evStr, wr, String.append_assoc]

@[simp] theorem evStr_rsrv (s : String) (st : PState) :
    evStr (rsrv s st) = evStr st ++ s := by
  simp [rsrv, evStr, wr, String.append_assoc]

@[simp] theorem evStr_bslashNewl (st : PState) :
    evStr (bslashNewl st) = evStr st ++ " \\\n" := by
  simp [bslashNewl, evStr, wr, String.append_assoc]

/-- Repetition of a string, the shape produced by `spaces` and `tabs`. -/
def repStr (n : Nat) (s : String) : String :=
  match n with
  | 0 => ""
  | n+1 => s ++ repStr n s

theorem evsStr_replicate (n : Nat) (e : Ev) :
    evsStr (List.replicate n e) = repStr n e.s := by
  induction n with
  | zero => rfl
  | succ n ih => simp [List.replicate, repStr, ih]

@[simp] theorem evStr_spaces (n : Int) (st : PState) :
    evStr (spaces n st) = evStr st ++ repStr n.toNat " " := by
  simp [spaces, evStr, evsStr_replicate]

@[simp] theorem evStr_tabs (n : Int) (st : PState) :
    evStr (tabs n st) = evStr st ++ repStr n.toNat "\t" := by
  simp [tabs, evStr, evsStr_replicate]

@[simp] theorem events_spaces (n : Int) (st : PState) :
    (spaces n st).level = st.level ∧ (spaces n st).curLine = st.curLine := by
  simp [spaces]

@[simp] theorem singleton_nl : String.singleton '\n' = "\n" := rfl

@[simp] theorem singleton_hash : String.singleton '#' = "#" := rfl

@[simp] theorem singleton_lpar : String.singleton '(' = "(" := rfl

@[simp] theorem singleton_rpar : String.singleton ')' = ")" := rfl

@[simp] theorem singleton_lbrack : String.singleton '[' = "[" := rfl

@[simp] theorem singleton_rbrack : String.singleton ']' = "]" := rfl

@[simp] theorem singleton_dollar : String.singleton '$' = "$" := rfl

@[simp] theorem singleton_slash : String.singleton '/' = "/" := rfl

@[simp] theorem singleton_squote : String.singleton '\x27' = "\x27" := rfl

/-- The indentation text `printer.indent` emits for a config and level. -/
def indentStr (c : PrintConfig) (level : Int) : String :=
  if level = 0 then ""
  else if c.spaces = 0 then repStr level.toNat "\t"
  else if c.spaces > 0 then repStr (c.spaces * level).toNat " "
  else ""

/-- The write events `printer.indent` logs for a config and level. -/
def indentEvs (c : PrintConfig) (level : Int) : List Ev :=
  if level = 0 then []
  else if c.spaces = 0 then List.replicate level.toNat ⟨"\t", false⟩
  else if c.spaces > 0 then List.replicate (c.spaces * level).toNat ⟨" ", false⟩
  else []

@[simp] theorem indent_events (ctx : Ctx) (st : PState) :
    (indent ctx st).events = st.events ++ indentEvs ctx.c st.level := by
  unfold indent indentEvs
  by_cases h0 : st.level = 0
  · simp [h0]
  · by_cases h1 : ctx.c.spaces = 0
    · simp [h0, h1, tabs]
    · by_cases h2 : ctx.c.spaces > 0
      · simp [h0, h1, h2, spaces]
      · simp [h0, h1, h2]

@[simp] theorem evsStr_indentEvs (c : PrintConfig) (level : Int) :
    evsStr (indentEvs c level) = indentStr c level := by
  unfold indentEvs indentStr
  by_cases h0 : level = 0
  · simp [h0]
  · by_cases h1 : c.spaces = 0
    · simp [h0, h1, evsStr_replicate]
    · by_cases h2 : c.spaces > 0
      · simp [h0, h1, h2, evsStr_replicate]
      · simp [h0, h1, h2]

@[simp] theorem evStr_indent (ctx : Ctx) (st : PState) :
    evStr (indent ctx st) = evStr st ++ indentStr ctx.c st.level := by
  unfold indent indentStr
  by_cases h0 : st.level = 0
  · simp [h0, evStr]
  · by_cases h1 : ctx.c.spaces = 0
    · simp [h0, h1, evStr, tabs, evsStr_replicate]
    · by_cases h2 : ctx.c.spaces > 0
      · simp [h0, h1, h2, evStr, spaces, evsStr_replicate]
      · simp [h0, h1, h2, evStr]

theorem events_indent (ctx : Ctx) (st : PState) :
    (indent ctx st).level = st.level ∧
    (indent ctx st).curLine = st.curLine ∧
    (indent ctx st).pendingHdocs = st.pendingHdocs := by
  unfold indent
  by_cases h0 : st.level = 0
  · simp [h0]
  · by_cases h1 : ctx.c.spaces = 0
    · simp [h0, h1, spaces, tabs]
    · by_cases h2 : ctx.c.spaces > 0
      · simp [h0, h1, h2, spaces, tabs]
      · simp [h0, h1, h2]

/-- Number of trailing newline characters of a string. -/
def trailNl (s : String) : Nat :=
  (s.data.reverse.takeWhile fun c => c = '\n').length

/-- Longest run of consecutive newline characters, via an accumulator. -/
def maxNlRunAux : List Char → Nat → Nat → Nat
  | [], cur, best => max cur best
  | c :: rest, cur, best =>
    if c = '\n' then maxNlRunAux rest (cur + 1) best
    else maxNlRunAux rest 0 (max cur best)

/-- Longest run of consecutive newline characters in a string. A text with
at most one blank line between content lines has `maxNlRun ≤ 2`. -/
def maxNlRun (s : String) : Nat :=
  maxNlRunAux s.data 0 0

/-- Whether a string contains no newline at all. -/
def noNl (s : String) : Bool :=
  s.data.all fun c => c ≠ '\n'

theorem noNl_repStr (n : Nat) (s : String) (h : noNl s) : noNl (repStr n s) := by
  induction n with
  | zero => simp [repStr, noNl]
  | succ n ih =>
    simp only [noNl, repStr, String.data_append, List.all_append]
    simp only [noNl] at h ih
    rw [h, ih]
    rfl

theorem noNl_indentStr (c : PrintConfig) (level : Int) : noNl (indentStr c level) := by
  unfold indentStr
  split
  · simp [noNl]
  split
  · exact noNl_repStr _ _ (by simp [noNl])
  split
  · exact noNl_repStr _ _ (by simp [noNl])
  · simp [noNl]

/-- A string ends with a newline character. -/
def endsNl (s : String) : Prop :=
  ∃ t, s = t ++ "\n"

theorem endsNl_append (s t : String) (h : endsNl t) : endsNl (s ++ t) := by
  obtain ⟨u, rfl⟩ := h
  exact ⟨s ++ u, (String.append_assoc ..).symm⟩

theorem endsNl_nl (s : String) : endsNl (s ++ "\n") := ⟨s, rfl⟩

/-! Concrete fixtures used by the per-claim counterexamples and examples.
Positions are chosen to coincide with line numbers and the position
service `linePos` resolves an offset to itself as a line. -/

/-- Position service of the fixtures: the offset is the line number. -/
def linePos : Nat → Int := fun p => (p : Int)

/-- A one-literal word at a given position. -/
def litW (pos : Nat) (v : String) : Word :=
  .mk [.lit pos (pos + v.utf8ByteSize) v]

/-- A plain call statement. -/
def callStmt (pos : Nat) (args : List Word) : Stmt :=
  .mk pos false [] (some (.callExpr args)) [] false

/-- Fixture: `cmd <<EOF` with the given heredoc body, followed by `cmd2`
on line `l2`. -/
def hdocFile (body : String) (l2 : Nat) : File :=
  { stmts := [
      Stmt.mk 1 false [] (some (.callExpr [litW 1 "cmd"]))
        [Redirect.mk 1 .SHL none (litW 1 "EOF") ⟨2, body⟩] false,
      callStmt l2 [litW l2 "cmd2"] ],
    comments := [],
    lineOf := linePos }

/-- Fixture: a single call statement with one literal argument. -/
def litFile (v : String) : File :=
  { stmts := [callStmt 1 [litW 1 v]], comments := [], lineOf := linePos }

/-- Fixture: the empty file. -/
def emptyFile : File :=
  { stmts := [], comments := [], lineOf := linePos }

/-- Default context over the empty file, for rendering fragments. -/
def ctx0 : Ctx := ⟨emptyFile, ⟨0⟩⟩

/-! Claim theorems. -/

/-- Claim C9: printing a `File` whose statement list and comment list are
both empty produces exactly one newline byte as the entire output, for
every `PrintConfig` (and any position service); `n+2` is any sufficient
fuel. -/
theorem claim_C9 (lf : Nat → Int) (c : PrintConfig) (n : Nat) :
    FprintStr ⟨⟨[], [], lf⟩, c⟩ (n+2) = some "\n" := by
  simp [FprintStr, fprintRun, stmtsF_succ, stmtsB, commentsUpToF_succ,
    commentsUpToB, newlineF_succ, newlineB, drainHdocs_fold, drainHdocs_succ,
    drainHdocsB, initState, freshState, evStr, byteW, wr, pure]

/-- Claim C6 counterexample: rendering the comma operator in non-compact
mode yields `a, b` — a space is inserted AFTER the comma — so the comma
does not get "a space on neither side" as claimed. -/
theorem claim_C6_counterexample :
    (arithmF ctx0 9 (.binary .COMMA (.word (litW 1 "a")) (.word (litW 1 "b")))
        false freshState).map evStr = some "a, b"
    ∧ "a, b" ≠ "a,b" := by
  constructor
  · decide
  · decide

/-- Claim C6 (amended): in non-compact mode a space is inserted on each
side of the operator, except that the comma operator gets no space before
it but still a space after it; in compact mode no spaces are inserted. -/
theorem claim_C6 (ctx : Ctx) (op : Token) (a b : String) (pa ea pb eb : Nat)
    (n : Nat) (st : PState) :
    (op ≠ .COMMA →
      (arithmF ctx (n+5) (.binary op (.word (Word.mk [.lit pa ea a])) (.word (Word.mk [.lit pb eb b])))
          false st).map evStr
        = some (evStr st ++ a ++ " " ++ binaryExprOp op ++ " " ++ b))
    ∧ ((arithmF ctx (n+5) (.binary .COMMA (.word (Word.mk [.lit pa ea a])) (.word (Word.mk [.lit pb eb b])))
          false st).map evStr
        = some (evStr st ++ a ++ "," ++ " " ++ b))
    ∧ ((arithmF ctx (n+5) (.binary op (.word (Word.mk [.lit pa ea a])) (.word (Word.mk [.lit pb eb b])))
          true st).map evStr
        = some (evStr st ++ a ++ binaryExprOp op ++ b)) := by
  refine ⟨fun hop => ?_, ?_, ?_⟩
  · simp [arithmF_succ, arithmF_fold, arithmB, spacedWordF_succ, spacedWordF_fold,
      spacedWordB, wordPartsF_succ, wordPartsF_fold, wordPartsB,
      wordPartF_succ, wordPartF_fold, wordPartB, Word.parts, hop,
      evStr, wr, space, str, String.append_assoc]
  · simp [arithmF_succ, arithmF_fold, arithmB, spacedWordF_succ, spacedWordF_fold,
      spacedWordB, wordPartsF_succ, wordPartsF_fold, wordPartsB,
      wordPartF_succ, wordPartF_fold, wordPartB, Word.parts,
      binaryExprOp, evStr, wr, space, str, String.append_assoc]
    rfl
  · simp [arithmF_succ, arithmF_fold, arithmB, spacedWordF_succ, spacedWordF_fold,
      spacedWordB, wordPartsF_succ, wordPartsF_fold, wordPartsB,
      wordPartF_succ, wordPartF_fold, wordPartB, Word.parts,
      evStr, wr, space, str, String.append_assoc]

/-- Claim C6 witness: the amended statement at a concrete operator. -/
theorem claim_C6_witness :
    (Token.ADD ≠ Token.COMMA) ∧
    (arithmF ctx0 5 (.binary .ADD (.word (Word.mk [.lit 1 2 "a"])) (.word (Word.mk [.lit 1 2 "b"])))
        false freshState).map evStr
      = some (evStr freshState ++ "a" ++ " " ++ binaryExprOp .ADD ++ " " ++ "b") :=
  ⟨by decide, (claim_C6 ctx0 .ADD "a" "b" 1 2 1 2 0 freshState).1 (by decide)⟩

/-- Claim C7 counterexample: the C-style for-loop header renders its three
expressions in NON-compact mode — `((i = 0; i < 10; i++))` with spaces
around the binary operators — not in compact mode as claimed. -/
theorem claim_C7_counterexample :
    (loopF ctx0 20 (.cStyleLoop
        (.binary .ASSIGN (.word (litW 1 "i")) (.word (litW 1 "0")))
        (.binary .LSS (.word (litW 1 "i")) (.word (litW 1 "10")))
        (.unary .INC true (.word (litW 1 "i")))) freshState).map evStr
      = some "((i = 0; i < 10; i++))"
    ∧ "((i = 0; i < 10; i++))" ≠ "((i=0; i<10; i++))" := by
  constructor
  · decide
  · decide

/-- Claim C7 (amended): the C-style for-loop header renders as the triple
`((init; cond; post))` with all three arithmetic expressions in
NON-compact mode (`p.arithm(_, false)`), i.e. WITH spaces around binary
operators; compact mode is used by `let` clauses instead. -/
theorem claim_C7 (ctx : Ctx) (op1 op2 op3 : Token) (a1 b1 a2 b2 a3 b3 : String)
    (p q : Nat) (n : Nat) (st : PState)
    (h1 : op1 ≠ .COMMA) (h2 : op2 ≠ .COMMA) (h3 : op3 ≠ .COMMA) :
    (loopF ctx (n+7) (.cStyleLoop
        (.binary op1 (.word (Word.mk [.lit p q a1])) (.word (Word.mk [.lit p q b1])))
        (.binary op2 (.word (Word.mk [.lit p q a2])) (.word (Word.mk [.lit p q b2])))
        (.binary op3 (.word (Word.mk [.lit p q a3])) (.word (Word.mk [.lit p q b3])))) st).map evStr
      = some (evStr st ++ "((" ++ a1 ++ " " ++ binaryExprOp op1 ++ " " ++ b1 ++ "; "
          ++ a2 ++ " " ++ binaryExprOp op2 ++ " " ++ b2 ++ "; "
          ++ a3 ++ " " ++ binaryExprOp op3 ++ " " ++ b3 ++ "))") := by
  simp [loopF_succ, loopB, arithmF_succ, arithmF_fold, arithmB, spacedWordF_succ, spacedWordF_fold,
      spacedWordB, wordPartsF_succ, wordPartsF_fold, wordPartsB,
      wordPartF_succ, wordPartF_fold, wordPartB, Word.parts,
    h1, h2, h3, evStr, wr, space, str, String.append_assoc]

/-- Claim C7 witness: the amended statement at concrete operators. -/
theorem claim_C7_witness :
    (Token.ASSIGN ≠ Token.COMMA) ∧ (Token.LSS ≠ Token.COMMA) ∧ (Token.GTR ≠ Token.COMMA) ∧
    (loopF ctx0 7 (.cStyleLoop
        (.binary .ASSIGN (.word (Word.mk [.lit 1 2 "i"])) (.word (Word.mk [.lit 1 2 "0"])))
        (.binary .LSS (.word (Word.mk [.lit 1 2 "i"])) (.word (Word.mk [.lit 1 2 "9"])))
        (.binary .GTR (.word (Word.mk [.lit 1 2 "i"])) (.word (Word.mk [.lit 1 2 "2"])))) freshState).map evStr
      = some (evStr freshState ++ "((" ++ "i" ++ " " ++ binaryExprOp .ASSIGN ++ " " ++ "0" ++ "; "
          ++ "i" ++ " " ++ binaryExprOp .LSS ++ " " ++ "9" ++ "; "
          ++ "i" ++ " " ++ binaryExprOp .GTR ++ " " ++ "2" ++ "))") :=
  ⟨by decide, by decide, by decide,
    claim_C7 ctx0 .ASSIGN .LSS .GTR "i" "0" "i" "9" "i" "2" 1 2 0 freshState
      (by decide) (by decide) (by decide)⟩

/-- Claim C10: `unquotedWord` emits single-quoted values and quoted parts
without their quote delimiters, removes one leading backslash from a
literal, and reads a literal's first byte without a guard — on an empty
literal value the Go code panics (modelled as `none`), so the function is
well-defined only when every literal part is non-empty. -/
theorem claim_C10 :
    (unquotedWordF ctx0 10 (Word.mk [.lit 1 1 ""]) freshState = none)
    ∧ (∀ (ctx : Ctx) (n p q : Nat) (st : PState) (v : String), v ≠ "" →
        (unquotedWordF ctx (n+3) (Word.mk [.lit p q v]) st).map evStr
          = some (evStr st ++ (if v.front = '\\' then v.drop 1 else v)))
    ∧ (∀ (ctx : Ctx) (n p q : Nat) (st : PState) (v : String),
        (unquotedWordF ctx (n+3) (Word.mk [.sglQuoted p q v]) st).map evStr
          = some (evStr st ++ v))
    ∧ (∀ (ctx : Ctx) (n p q pi qi : Nat) (st : PState) (qt : Token) (v : String),
        (unquotedWordF ctx (n+5) (Word.mk [.quoted p q qt [.lit pi qi v]]) st).map evStr
          = some (evStr st ++ v)) := by
  refine ⟨rfl, ?_, ?_, ?_⟩
  · intro ctx n p q st v hv
    by_cases hb : v.front = '\\' <;>
      simp [unquotedWordF_succ, unquotedWordB, unquotedPartsF_succ, unquotedPartsF_fold,
      unquotedPartsB, wordPartsF_succ, wordPartsF_fold, wordPartsB,
      wordPartF_succ, wordPartF_fold, wordPartB, Word.parts, hv, hb, evStr, str, wr]
  · intro ctx n p q st v
    simp [unquotedWordF_succ, unquotedWordB, unquotedPartsF_succ, unquotedPartsF_fold,
      unquotedPartsB, wordPartsF_succ, wordPartsF_fold, wordPartsB,
      wordPartF_succ, wordPartF_fold, wordPartB, Word.parts, evStr, str, wr]
  · intro ctx n p q pi qi st qt v
    simp [unquotedWordF_succ, unquotedWordB, unquotedPartsF_succ, unquotedPartsF_fold,
      unquotedPartsB, wordPartsF_succ, wordPartsF_fold, wordPartsB,
      wordPartF_succ, wordPartF_fold, wordPartB, Word.parts, evStr, str, wr]

/-- Claim C10 witness: the literal rule at a concrete backslashed value. -/
theorem claim_C10_witness :
    ("\\x" ≠ "") ∧
    (unquotedWordF ctx0 13 (Word.mk [.lit 1 2 "\\x"]) freshState).map evStr
      = some (evStr freshState ++ (if ("\\x".front = '\\') then "\\x".drop 1 else "\\x")) :=
  ⟨by decide, claim_C10.2.1 ctx0 10 1 2 freshState "\\x" (by decide)⟩

/-! Helper lemmas for the trailing-newline and heredoc-drain claims. -/

theorem trailNl_append_nl (t : String) : 1 ≤ trailNl (t ++ "\n") := by
  simp [trailNl, String.data_append, List.takeWhile]

/-- Any successful heredoc drain either was a no-op (empty queue) or ends
with a newline character. -/
theorem drain_endsNl (ctx : Ctx) (l : List Redirect) :
    ∀ (n : Nat) (st st' : PState), drainHdocs ctx n l st = some st' →
      st' = st ∨ endsNl (evStr st') := by
  induction l with
  | nil =>
    intro n st st' h
    cases n with
    | zero => simp [drainHdocs_zero] at h
    | succ n =>
      simp [drainHdocs_succ, drainHdocsB, pure] at h
      exact Or.inl h.symm
  | cons r rest ih =>
    intro n st st' h
    cases n with
    | zero => simp [drainHdocs_zero] at h
    | succ n =>
      rw [drainHdocs_succ] at h
      simp only [drainHdocsB, drainHdocs_fold, Option.bind_eq_bind,
        Option.bind_eq_some] at h
      obtain ⟨st3, _, h2⟩ := h
      rcases ih n _ st' h2 with rfl | he
      · right
        simp [endsNl, evStr, byteW, wr]
        exact ⟨evsStr st3.events, rfl⟩
      · right
        exact he

/-- Any successful `newline` emission produces output ending in a newline
character. -/
theorem newline_endsNl (ctx : Ctx) (n : Nat) (st st' : PState)
    (h : newlineF ctx n st = some st') : endsNl (evStr st') := by
  cases n with
  | zero => simp [newlineF_zero] at h
  | succ n =>
    rw [newlineF_succ] at h
    simp only [newlineB, drainHdocs_fold, Option.bind_eq_bind,
      Option.bind_eq_some] at h
    obtain ⟨st3, h3, h2⟩ := h
    simp only [pure, Option.some.injEq] at h2
    subst h2
    rcases drain_endsNl ctx _ n _ st3 h3 with rfl | he
    · simp [endsNl, evStr, byteW, wr]
      exact ⟨evsStr st.events, rfl⟩
    · simpa [evStr] using he

/-- Claim C5 counterexample: a tree whose final literal itself ends in a
newline prints with TWO trailing newlines, refuting "exactly one trailing
newline" for every tree. -/
theorem claim_C5_counterexample :
    FprintStr ⟨litFile "a\n", ⟨0⟩⟩ 50 = some "a\n\n"
    ∧ trailNl "a\n\n" ≠ 1 := by
  constructor
  · decide
  · decide

/-- Claim C5 (amended): for every tree and options, the output of `Fprint`
ends with AT LEAST one trailing newline, appended by the final `newline`
emission after the last statement, trailing comments, and pending heredoc
bodies; a tree whose own final literal content ends in a newline can make
the output end in more than one. -/
theorem claim_C5 (ctx : Ctx) (fuel : Nat) (out : String)
    (h : FprintStr ctx fuel = some out) : endsNl out ∧ 1 ≤ trailNl out := by
  simp only [FprintStr, fprintRun, Option.map_eq_some', Option.bind_eq_some] at h
  obtain ⟨stf, ⟨⟨b, st1⟩, h1, st2, h2, h3⟩, rfl⟩ := h
  have he := newline_endsNl ctx fuel st2 stf h3
  refine ⟨he, ?_⟩
  obtain ⟨t, ht⟩ := he
  rw [ht]
  exact trailNl_append_nl t

/-- Claim C5 witness: the amended statement at a concrete print. -/
theorem claim_C5_witness :
    (FprintStr ⟨emptyFile, ⟨0⟩⟩ 10 = some "\n") ∧
    (endsNl "\n" ∧ 1 ≤ trailNl "\n") :=
  ⟨by decide, claim_C5 ⟨emptyFile, ⟨0⟩⟩ 10 "\n" (by decide)⟩

/-- Claim C3 counterexample: a heredoc body containing blank lines is
emitted verbatim, so the printed output contains a run of four newlines —
more than one consecutive blank line — refuting the cap for all inputs. -/
theorem claim_C3_counterexample :
    FprintStr ⟨hdocFile "x\n\n\n\ny\n" 8, ⟨0⟩⟩ 100
      = some "cmd <<EOF\nx\n\n\n\ny\nEOF\ncmd2\n"
    ∧ ¬ (maxNlRun "cmd <<EOF\nx\n\n\n\ny\nEOF\ncmd2\n" ≤ 2) := by
  constructor
  · decide
  · decide

/-- Claim C3 (amended): the newline-with-blank-preservation step itself
never emits more than one blank line: with no pending heredocs it appends
exactly one newline, one extra newline exactly when the next node's
original line exceeds the current line by more than one (regardless of
the gap size), and newline-free indentation; larger blank runs in output
can only come from verbatim content such as heredoc bodies. -/
theorem claim_C3 (ctx : Ctx) (posLine : Int) (st : PState) (n : Nat)
    (h : st.pendingHdocs = []) :
    ∃ st', newlinesF ctx (n+3) posLine st = some st' ∧
      evStr st' = evStr st ++ "\n"
        ++ (if posLine > st.curLine + 1 then "\n" else "")
        ++ indentStr ctx.c st.level ∧
      noNl (indentStr ctx.c st.level) = true := by
  by_cases hgap : posLine > st.curLine + 1 <;>
    simp [newlinesF_succ, newlinesB, newlineF_fold, newlineF_succ, newlineB,
      drainHdocs_fold, drainHdocs_succ, drainHdocsB, h, hgap, evStr, byteW,
      wr, String.append_assoc, noNl_indentStr, pure] <;>
    rfl

/-- Claim C3 witness: the amended statement at a concrete state. -/
theorem claim_C3_witness :
    (freshState.pendingHdocs = []) ∧
    (∃ st', newlinesF ctx0 3 5 freshState = some st' ∧
      evStr st' = evStr freshState ++ "\n"
        ++ (if (5:Int) > freshState.curLine + 1 then "\n" else "")
        ++ indentStr ctx0.c freshState.level ∧
      noNl (indentStr ctx0.c freshState.level) = true) :=
  ⟨rfl, claim_C3 ctx0 5 freshState 0 rfl⟩

/-! Projection lemmas: which primitives leave the pending-heredoc queue
(and friends) untouched. -/

@[simp] theorem wr_pendingHdocs (s : String) (b : Bool) (st : PState) :
    (wr s b st).pendingHdocs = st.pendingHdocs := rfl

@[simp] theorem space_pendingHdocs (st : PState) :
    (space st).pendingHdocs = st.pendingHdocs := rfl

@[simp] theorem str_pendingHdocs (s : String) (st : PState) :
    (str s st).pendingHdocs = st.pendingHdocs := rfl

@[simp] theorem byteW_pendingHdocs (c : Char) (st : PState) :
    (byteW c st).pendingHdocs = st.pendingHdocs := rfl

@[simp] theorem bslashNewl_pendingHdocs (st : PState) :
    (bslashNewl st).pendingHdocs = st.pendingHdocs := rfl

@[simp] theorem incLevel_pendingHdocs (st : PState) :
    (incLevel st).pendingHdocs = st.pendingHdocs := by
  unfold incLevel
  split
  · rfl
  · split <;> rfl

@[simp] theorem decLevel_pendingHdocs (st : PState) :
    (decLevel st).pendingHdocs = st.pendingHdocs := by
  unfold decLevel
  split <;> rfl

@[simp] theorem indent_pendingHdocs (ctx : Ctx) (st : PState) :
    (indent ctx st).pendingHdocs = st.pendingHdocs := by
  exact (events_indent ctx st).2.2

@[simp] theorem spaces_pendingHdocs (n : Int) (st : PState) :
    (spaces n st).pendingHdocs = st.pendingHdocs := rfl

@[simp] theorem tabs_pendingHdocs (n : Int) (st : PState) :
    (tabs n st).pendingHdocs = st.pendingHdocs := rfl

/-- Every successful `newline` emission leaves the pending-heredoc queue
empty (`p.pendingHdocs = nil` is its final action). -/
theorem newline_clears (ctx : Ctx) (n : Nat) (st st' : PState)
    (h : newlineF ctx n st = some st') : st'.pendingHdocs = [] := by
  cases n with
  | zero => simp [newlineF_zero] at h
  | succ n =>
    rw [newlineF_succ] at h
    simp only [newlineB, drainHdocs_fold, Option.bind_eq_bind,
      Option.bind_eq_some] at h
    obtain ⟨st3, _, h2⟩ := h
    simp only [pure, Option.some.injEq] at h2
    subst h2
    rfl

/-- Claim C1: heredoc deferral. (1) rendering a heredoc-kind redirection
appends it at the tail of the FIFO queue; (2) a queued entry is drained at
the next newline as body text, then unquoted terminator word, then a
newline, right after the newline that ends the line; (3) every `newline`
leaves the queue empty; (4) the queue is empty when `Fprint`'s traversal
returns; (5) concretely, `cmd <<EOF` with body then `cmd2` places body and
terminator strictly between the newline ending the `cmd` line and `cmd2`. -/
theorem claim_C1 :
    (∀ (ctx : Ctx) (n : Nat) (st : PState) (opP pv ev : Nat) (op : Token)
        (v : String) (hd : LitNode),
      (op = .SHL ∨ op = .DHEREDOC) →
      st.wantSpace = false → st.wantNewline = false → st.curLine = 0 →
      st.comments = [] →
      ∃ st', redirsF ctx (n+4)
          [Redirect.mk opP op none (Word.mk [.lit pv ev v]) hd] false st = some st' ∧
        st'.pendingHdocs = st.pendingHdocs
          ++ [Redirect.mk opP op none (Word.mk [.lit pv ev v]) hd])
    ∧ (∀ (ctx : Ctx) (n : Nat) (st : PState) (opP pv ev pb : Nat) (op : Token)
        (fd : Option LitNode) (v body : String),
      st.pendingHdocs = [Redirect.mk opP op fd (Word.mk [.lit pv ev v]) ⟨pb, body⟩] →
      v ≠ "" → ¬ (v.front = '\\') →
      ∃ st', newlineF ctx (n+5) st = some st' ∧
        evStr st' = evStr st ++ "\n" ++ body ++ v ++ "\n" ∧
        st'.pendingHdocs = [])
    ∧ (∀ (ctx : Ctx) (n : Nat) (st st' : PState),
        newlineF ctx n st = some st' → st'.pendingHdocs = [])
    ∧ (∀ (ctx : Ctx) (fuel : Nat) (stf : PState),
        fprintRun ctx fuel = some stf → stf.pendingHdocs = [])
    ∧ FprintStr ⟨hdocFile "body\n" 4, ⟨0⟩⟩ 100
        = some "cmd <<EOF\nbody\nEOF\ncmd2\n" := by
  refine ⟨?_, ?_, ?_, ?_, by decide⟩
  · intro ctx n st opP pv ev op v hd hop hws hwn hcl hcm
    rcases hop with rfl | rfl <;>
      simp [redirsF_succ, redirsB, redirsF_fold, didSeparateF_fold,
        didSeparateF_succ, didSeparateB, commentsUpToF_fold, commentsUpToF_succ,
        commentsUpToB, wordF_fold, wordF_succ, wordB, wordPartsF_fold,
        wordPartsF_succ, wordPartsB, wordPartF_fold, wordPartF_succ, wordPartB,
        Redirect.opPos, Redirect.op, Redirect.n, Redirect.word, Word.parts,
        hws, hwn, hcl, hcm, pure]
  · intro ctx n st opP pv ev pb op fd v body hpd hv hb
    simp [newlineF_succ, newlineB, drainHdocs_fold, drainHdocs_succ,
      drainHdocsB, unquotedWordF_fold, unquotedWordF_succ, unquotedWordB,
      unquotedPartsF_fold, unquotedPartsF_succ, unquotedPartsB, hpd, hv, hb,
      Redirect.hdoc, Redirect.word, Word.parts, evStr, str, wr, byteW, pure,
      String.append_assoc]
  · intro ctx n st st' h
    exact newline_clears ctx n st st' h
  · intro ctx fuel stf h
    unfold fprintRun at h
    simp only [Option.bind_eq_some] at h
    obtain ⟨p, _, st2, _, h3⟩ := h
    exact newline_clears ctx fuel st2 stf h3

/-- Claim C1 witness: the drain rule applied to a concrete queued heredoc. -/
theorem claim_C1_witness :
    (({ freshState with pendingHdocs :=
        [Redirect.mk 1 .SHL none (Word.mk [.lit 1 4 "EOF"]) ⟨2, "body\n"⟩] } : PState).pendingHdocs
      = [Redirect.mk 1 .SHL none (Word.mk [.lit 1 4 "EOF"]) ⟨2, "body\n"⟩]) ∧
    ("EOF" ≠ "") ∧
    (∃ st', newlineF ctx0 5
        { freshState with pendingHdocs :=
            [Redirect.mk 1 .SHL none (Word.mk [.lit 1 4 "EOF"]) ⟨2, "body\n"⟩] } = some st' ∧
      evStr st' = evStr { freshState with pendingHdocs :=
            [Redirect.mk 1 .SHL none (Word.mk [.lit 1 4 "EOF"]) ⟨2, "body\n"⟩] }
          ++ "\n" ++ "body\n" ++ "EOF" ++ "\n" ∧
      st'.pendingHdocs = []) :=
  ⟨rfl, by decide,
    claim_C1.2.1 ctx0 0 _ 1 1 4 2 .SHL none "EOF" "body\n" rfl (by decide) (by decide)⟩

/-! The sink lemmas for the error-propagation claim. -/

@[simp] theorem sinkRun_nil (oracle : Nat → Option Nat) (w : SinkSt) :
    sinkRun oracle [] w = w := rfl

theorem sinkRun_cons (oracle : Nat → Option Nat) (ev : Ev) (evs : List Ev)
    (w : SinkSt) :
    sinkRun oracle (ev :: evs) w = sinkRun oracle evs (sinkStep oracle w ev) := rfl

/-- Once the sink has recorded an error, later writes append nothing, the
recorded error is unchanged, and `p.err` can only be `none` or that same
error. -/
theorem sinkRun_sticky (oracle : Nat → Option Nat) (evs : List Ev) :
    ∀ (w : SinkSt) (e : Nat), w.werr = some e → (w.perr = none ∨ w.perr = some e) →
      (sinkRun oracle evs w).out = w.out ∧
      (sinkRun oracle evs w).werr = some e ∧
      ((sinkRun oracle evs w).perr = none ∨ (sinkRun oracle evs w).perr = some e) := by
  induction evs with
  | nil => intro w e hw hp; exact ⟨rfl, hw, hp⟩
  | cons ev rest ih =>
    intro w e hw hp
    have hstep : sinkStep oracle w ev =
        { w with perr := if ev.assigns then some e else w.perr } := by
      unfold sinkStep
      rw [hw]
    rw [sinkRun_cons, hstep]
    refine ih _ e hw ?_
    cases hb : ev.assigns
    · simpa using hp
    · simp

/-- If the oracle makes the `k`-th healthy write attempt fail with `e`
(all earlier attempts succeeding), the sink ends with exactly the first
`k` strings written, sticky error `e`, and `p.err` either `none` or `e`. -/
theorem sinkRun_firstFail (oracle : Nat → Option Nat) (evs : List Ev) :
    ∀ (w : SinkSt) (k : Nat) (e : Nat), w.werr = none → w.perr = none →
      k < evs.length →
      (∀ i, i < k → oracle (w.cnt + i) = none) →
      oracle (w.cnt + k) = some e →
      (sinkRun oracle evs w).out = w.out ++ evsStr (evs.take k) ∧
      (sinkRun oracle evs w).werr = some e ∧
      ((sinkRun oracle evs w).perr = none ∨ (sinkRun oracle evs w).perr = some e) := by
  induction evs with
  | nil => intro w k e _ _ hk; exact absurd hk (by simp)
  | cons ev rest ih =>
    intro w k e hw hp hk hbefore hfail
    cases k with
    | zero =>
      have h0 : oracle w.cnt = some e := by simpa using hfail
      have hstep : sinkStep oracle w ev =
          { w with werr := some e, cnt := w.cnt + 1,
                   perr := if ev.assigns then some e else w.perr } := by
        unfold sinkStep
        rw [hw, h0]
      rw [sinkRun_cons, hstep]
      have hs := sinkRun_sticky oracle rest
        { w with werr := some e, cnt := w.cnt + 1,
                 perr := if ev.assigns then some e else w.perr } e rfl
        (by cases hb : ev.assigns <;> simp [hb, hp])
      refine ⟨?_, hs.2.1, hs.2.2⟩
      rw [hs.1]
      simp only [List.take_zero, evsStr_nil, String.append_empty]
    | succ k =>
      have h0 : oracle w.cnt = none := by
        have := hbefore 0 (Nat.succ_pos k)
        simpa using this
      have hstep : sinkStep oracle w ev =
          { w with out := w.out ++ ev.s, cnt := w.cnt + 1,
                   perr := if ev.assigns then none else w.perr } := by
        unfold sinkStep
        rw [hw, h0]
      rw [sinkRun_cons, hstep]
      have hr := ih { w with out := w.out ++ ev.s, cnt := w.cnt + 1,
                             perr := if ev.assigns then none else w.perr }
        k e hw (by cases hb : ev.assigns <;> simp [hb, hp])
        (by simpa using hk)
        (fun i hi => show oracle (w.cnt + 1 + i) = none by
          have h3 : w.cnt + 1 + i = w.cnt + (i + 1) := by omega
          rw [h3]
          exact hbefore (i + 1) (by omega))
        (show oracle (w.cnt + 1 + k) = some e by
          have h3 : w.cnt + 1 + k = w.cnt + (k + 1) := by omega
          rw [h3]
          exact hfail)
      refine ⟨?_, hr.2.1, hr.2.2⟩
      rw [hr.1]
      simp [List.take_succ_cons, evsStr_cons, String.append_assoc]

/-- Claim C2: if the sink fails first at (healthy) write attempt `k`
during a completed print, `Fprint` returns exactly that first error, the
bytes actually written are exactly the strings of the first `k` logged
writes (all later writes are suppressed no-ops), and the traversal itself
— which never reads the error — still runs to completion, producing the
same event log as the failure-free print. -/
theorem claim_C2 (ctx : Ctx) (fuel : Nat) (stf : PState)
    (oracle : Nat → Option Nat) (k : Nat) (e : Nat)
    (h : fprintRun ctx fuel = some stf)
    (hk : k < stf.events.length)
    (he : oracle k = some e)
    (hbefore : ∀ i, i < k → oracle i = none) :
    FprintIO ctx oracle fuel = some (evsStr (stf.events.take k), some e)
    ∧ FprintStr ctx fuel = some (evStr stf) := by
  have hrun := sinkRun_firstFail oracle stf.events sinkInit k e rfl rfl hk
    (fun i hi => by simpa [sinkInit] using hbefore i hi)
    (by simpa [sinkInit] using he)
  constructor
  · unfold FprintIO
    rw [h]
    simp only [Option.map_some', Option.some.injEq]
    have hout : (sinkRun oracle stf.events sinkInit).out = evsStr (stf.events.take k) := by
      rw [hrun.1]
      rfl
    rcases hrun.2.2 with hp | hp
    · rw [hout, hp, hrun.2.1]
    · rw [hout, hp]
  · unfold FprintStr
    rw [h]
    rfl

/-- Claim C2 witness: a concrete print whose third write attempt fails
with error 7; only `cmd ` reaches the sink and error 7 is returned. -/
theorem claim_C2_witness :
    FprintIO ⟨hdocFile "body\n" 4, ⟨0⟩⟩ (fun i => if i = 2 then some 7 else none) 100
        = some ("cmd ", some 7)
    ∧ FprintStr ⟨hdocFile "body\n" 4, ⟨0⟩⟩ 100 = some "cmd <<EOF\nbody\nEOF\ncmd2\n" := by
  have h := claim_C2 ⟨hdocFile "body\n" 4, ⟨0⟩⟩ 100 _
    (fun i => if i = 2 then some 7 else none) 2 7 rfl (by decide) rfl
    (by intro i hi; interval_cases i <;> rfl)
  refine ⟨?_, ?_⟩
  · rw [h.1]
    decide
  · rw [h.2]
    decide

/-! Balance of the indentation machinery (claim C4). `lens` is the height
of the did-indent stack and `phi` is the level counter minus the number
of recorded increments; every printer method preserves both, the
`anyNewline`-carrying loops in an adjusted sense while their flag is set. -/

/-- Number of `true` entries (recorded level increments) on a stack. -/
def trues : List Bool → Nat
  | [] => 0
  | b :: l => (if b then 1 else 0) + trues l

/-- Height of the did-indent stack. -/
def lens (st : PState) : Nat := st.levelIncs.length

/-- Balance measure: the level counter minus the recorded increments. -/
def phi (st : PState) : Int := st.level - (trues st.levelIncs : Int)

/-- Both balance measures agree between two states. -/
def Keep (st stf : PState) : Prop := lens stf = lens st ∧ phi stf = phi st

/-- Adjusted agreement: while `anyNl` is set the stack is one higher on
entry than it will be on exit. -/
def KeepAdj (anyNl : Bool) (st stf : PState) : Prop :=
  (lens stf : Int) + (if anyNl then 1 else 0) = (lens st : Int) ∧ phi stf = phi st

theorem keep_refl (st : PState) : Keep st st := ⟨rfl, rfl⟩

theorem keep_trans {a b c : PState} (h1 : Keep a b) (h2 : Keep b c) : Keep a c :=
  ⟨h2.1.trans h1.1, h2.2.trans h1.2⟩

theorem keep_of_adj {st s : PState} (h : KeepAdj false st s) : Keep st s :=
  ⟨by have h1 := h.1; simp at h1; exact_mod_cast h1, h.2⟩

theorem adj_of_keep {st s : PState} (h : Keep st s) : KeepAdj false st s :=
  ⟨by simp [h.1], h.2⟩

/-- Decompose a successful `Option` bind into its two steps. -/
theorem bind_split {α β : Type} {x : Option α} {f : α → Option β} {b : β}
    (h : x >>= f = some b) : ∃ a, x = some a ∧ f a = some b := by
  cases x with
  | none => exact Option.noConfusion h
  | some a => exact ⟨a, rfl, h⟩

/-! Stack and level projections of the write primitives. -/

@[simp] theorem wr_levelIncs (s : String) (b : Bool) (st : PState) :
    (wr s b st).levelIncs = st.levelIncs := rfl

@[simp] theorem wr_level (s : String) (b : Bool) (st : PState) :
    (wr s b st).level = st.level := rfl

@[simp] theorem space_levelIncs (st : PState) :
    (space st).levelIncs = st.levelIncs := rfl

@[simp] theorem space_level (st : PState) : (space st).level = st.level := rfl

@[simp] theorem str_levelIncs (s : String) (st : PState) :
    (str s st).levelIncs = st.levelIncs := rfl

@[simp] theorem str_level (s : String) (st : PState) :
    (str s st).level = st.level := rfl

@[simp] theorem byteW_levelIncs (c : Char) (st : PState) :
    (byteW c st).levelIncs = st.levelIncs := rfl

@[simp] theorem byteW_level (c : Char) (st : PState) :
    (byteW c st).level = st.level := rfl

@[simp] theorem token_levelIncs (s : String) (b : Bool) (st : PState) :
    (token s b st).levelIncs = st.levelIncs := rfl

@[simp] theorem token_level (s : String) (b : Bool) (st : PState) :
    (token s b st).level = st.level := rfl

@[simp] theorem rsrv_levelIncs (s : String) (st : PState) :
    (rsrv s st).levelIncs = st.levelIncs := rfl

@[simp] theorem rsrv_level (s : String) (st : PState) :
    (rsrv s st).level = st.level := rfl

@[simp] theorem bslashNewl_levelIncs (st : PState) :
    (bslashNewl st).levelIncs = st.levelIncs := rfl

@[simp] theorem bslashNewl_level (st : PState) :
    (bslashNewl st).level = st.level := rfl

@[simp] theorem spaces_levelIncs (n : Int) (st : PState) :
    (spaces n st).levelIncs = st.levelIncs := rfl

@[simp] theorem spaces_level (n : Int) (st : PState) :
    (spaces n st).level = st.level := rfl

@[simp] theorem tabs_levelIncs (n : Int) (st : PState) :
    (tabs n st).levelIncs = st.levelIncs := rfl

@[simp] theorem tabs_level (n : Int) (st : PState) :
    (tabs n st).level = st.level := rfl

@[simp] theorem indent_levelIncs (ctx : Ctx) (st : PState) :
    (indent ctx st).levelIncs = st.levelIncs := by
  simp only [indent]; split_ifs <;> rfl

@[simp] theorem indent_level (ctx : Ctx) (st : PState) :
    (indent ctx st).level = st.level := by
  simp only [indent]; split_ifs <;> rfl

@[simp] theorem spacedRsrv_levelIncs (s : String) (st : PState) :
    (spacedRsrv s st).levelIncs = st.levelIncs := by
  simp only [spacedRsrv]; split_ifs <;> rfl

@[simp] theorem spacedRsrv_level (s : String) (st : PState) :
    (spacedRsrv s st).level = st.level := by
  simp only [spacedRsrv]; split_ifs <;> rfl

@[simp] theorem spacedTok_levelIncs (s : String) (b : Bool) (st : PState) :
    (spacedTok s b st).levelIncs = st.levelIncs := by
  simp only [spacedTok]; split_ifs <;> rfl

@[simp] theorem spacedTok_level (s : String) (b : Bool) (st : PState) :
    (spacedTok s b st).level = st.level := by
  simp only [spacedTok]; split_ifs <;> rfl

/-! Effect of `incLevel` and `decLevel` on the balance measures. -/

theorem lens_incLevel (st : PState) : lens (incLevel st) = lens st + 1 := by
  unfold incLevel lens
  split_ifs with h
  · simp
  · cases hl : st.levelIncs with
    | nil => simp
    | cons b rest => cases b <;> simp

theorem phi_incLevel (st : PState) : phi (incLevel st) = phi st := by
  unfold incLevel phi
  split_ifs with h
  · simp [trues]; omega
  · cases hl : st.levelIncs with
    | nil => simp [trues]
    | cons b rest => cases b <;> simp [trues] <;> omega

theorem phi_decLevel (st : PState) : phi (decLevel st) = phi st := by
  unfold decLevel phi
  cases hl : st.levelIncs with
  | nil => simp [hl]
  | cons b rest => cases b <;> simp [trues] <;> omega

theorem lens_decLevel (st : PState) (h : 1 ≤ lens st) :
    lens (decLevel st) + 1 = lens st := by
  unfold decLevel lens at *
  cases hl : st.levelIncs with
  | nil => rw [hl] at h; simp at h
  | cons b rest => simp

/-- Push the stack projection through a state-valued `ite`. -/
@[simp] theorem ite_levelIncs (c : Prop) [Decidable c] (a b : PState) :
    (if c then a else b).levelIncs = if c then a.levelIncs else b.levelIncs := by
  split <;> rfl

/-- Push the level projection through a state-valued `ite`. -/
@[simp] theorem ite_level (c : Prop) [Decidable c] (a b : PState) :
    (if c then a else b).level = if c then a.level else b.level := by
  split <;> rfl

/-- Raw-projection form of `lens_incLevel`. -/
@[simp] theorem incLevel_levelIncs_length (st : PState) :
    (incLevel st).levelIncs.length = st.levelIncs.length + 1 := lens_incLevel st

/-- Raw-projection form of `phi_incLevel`. -/
@[simp] theorem incLevel_balance (st : PState) :
    (incLevel st).level - (trues (incLevel st).levelIncs : Int)
      = st.level - (trues st.levelIncs : Int) := phi_incLevel st

/-- Raw-projection form of `phi_decLevel`. -/
@[simp] theorem decLevel_balance (st : PState) :
    (decLevel st).level - (trues (decLevel st).levelIncs : Int)
      = st.level - (trues st.levelIncs : Int) := phi_decLevel st

/-- All printer methods at fuel `n` preserve the balance measures. -/
structure BalanceAll (n : Nat) : Prop where
  newline : ∀ ctx st s, newlineF ctx n st = some s → Keep st s
  drain : ∀ ctx rs st s, drainHdocs ctx n rs st = some s → Keep st s
  newlines : ∀ ctx pl st s, newlinesF ctx n pl st = some s → Keep st s
  always : ∀ ctx pl st s, alwaysSeparateF ctx n pl st = some s → Keep st s
  didSep : ∀ ctx pl st q, didSeparateF ctx n pl st = some q → Keep st q.2
  sepTok : ∀ ctx tok pl st s, sepTokF ctx n tok pl st = some s → Keep st s
  semiRsrv : ∀ ctx tok rp fb st s, semiRsrvF ctx n tok rp fb st = some s → Keep st s
  semiOrNewl : ∀ ctx tok p st s, semiOrNewlF ctx n tok p st = some s → Keep st s
  comments : ∀ ctx line st s, commentsUpToF ctx n line st = some s → Keep st s
  wordPart : ∀ ctx wp st s, wordPartF ctx n wp st = some s → Keep st s
  quotedParts : ∀ ctx ps st s, quotedPartsF ctx n ps st = some s → Keep st s
  wordParts : ∀ ctx ps st s, wordPartsF ctx n ps st = some s → Keep st s
  word : ∀ ctx w st s, wordF ctx n w st = some s → Keep st s
  unquotedWord : ∀ ctx w st s, unquotedWordF ctx n w st = some s → Keep st s
  unquotedParts : ∀ ctx ps st s, unquotedPartsF ctx n ps st = some s → Keep st s
  spacedWord : ∀ ctx w st s, spacedWordF ctx n w st = some s → Keep st s
  wordJoin : ∀ ctx ws nb st s, wordJoinF ctx n ws nb st = some s → Keep st s
  wordJoinA : ∀ ctx ws nb anyNl st, (anyNl = true → 1 ≤ lens st) →
    ∀ s, wordJoinAux ctx n ws nb anyNl st = some s → KeepAdj anyNl st s
  arithm : ∀ ctx e cp st s, arithmF ctx n e cp st = some s → Keep st s
  condP : ∀ ctx c st s, condF ctx n c st = some s → Keep st s
  loopP : ∀ ctx l st s, loopF ctx n l st = some s → Keep st s
  stmt : ∀ ctx sm st s, stmtF ctx n sm st = some s → Keep st s
  redirs : ∀ ctx rs anyNl st, (anyNl = true → 1 ≤ lens st) →
    ∀ s, redirsF ctx n rs anyNl st = some s → KeepAdj anyNl st s
  command : ∀ ctx c rs st q, commandF ctx n c rs st = some q → Keep st q.2
  callRedirs : ∀ ctx rs a1 st q, callRedirsF ctx n rs a1 st = some q → Keep st q.2
  elifs : ∀ ctx els st s, elifsF ctx n els st = some s → Keep st s
  caseItems : ∀ ctx list esac st s, caseItemsF ctx n list esac st = some s → Keep st s
  patterns : ∀ ctx ws isFirst st s, patternsF ctx n ws isFirst st = some s → Keep st s
  stmts : ∀ ctx ss st q, stmtsF ctx n ss st = some q → Keep st q.2
  stmtsLoop : ∀ ctx ss ll ii st s, stmtsLoopF ctx n ss ll ii st = some s → Keep st s
  nested : ∀ ctx ss st q, nestedStmtsF ctx n ss st = some q → Keep st q.2
  assigns : ∀ ctx al st s, assignsF ctx n al st = some s → Keep st s
  assignsA : ∀ ctx al anyNl st, (anyNl = true → 1 ≤ lens st) →
    ∀ s, assignsAux ctx n al anyNl st = some s → KeepAdj anyNl st s
  letExprs : ∀ ctx es st s, letExprsF ctx n es st = some s → Keep st s
  declOpts : ∀ ctx ws st s, declOptsF ctx n ws st = some s → Keep st s

/-- Base case: at fuel 0 every method fails, so preservation is vacuous. -/
theorem balanceAll_zero : BalanceAll 0 := by
  constructor <;> (intros; exact Option.noConfusion (by assumption))

/-- Preservation step for `printer.newline`. -/
theorem bal_newline (n : Nat) (ih : BalanceAll n) :
    ∀ ctx st s, newlineF ctx (n+1) st = some s → Keep st s := by
  intro ctx st s hs
  rw [newlineF_succ] at hs
  obtain ⟨a, ha, hs⟩ := bind_split hs
  obtain rfl := Option.some.inj hs
  refine keep_trans (keep_trans ?_ (ih.drain ctx _ _ _ ha)) ?_ <;> exact ⟨rfl, rfl⟩

/-- Preservation step for the heredoc drain loop. -/
theorem bal_drain (n : Nat) (ih : BalanceAll n) :
    ∀ ctx rs st s, drainHdocs ctx (n+1) rs st = some s → Keep st s := by
  intro ctx rs st s hs
  rw [drainHdocs_succ] at hs
  cases rs with
  | nil =>
    obtain rfl := Option.some.inj hs
    exact keep_refl st
  | cons r rest =>
    obtain ⟨a, ha, hs⟩ := bind_split hs
    have k1 := ih.unquotedWord ctx _ _ _ ha
    have k2 := ih.drain ctx _ _ _ hs
    refine keep_trans (keep_trans ?_ k1) (keep_trans ?_ k2) <;> exact ⟨rfl, rfl⟩

/-- Preservation step for `printer.newlines`. -/
theorem bal_newlines (n : Nat) (ih : BalanceAll n) :
    ∀ ctx pl st s, newlinesF ctx (n+1) pl st = some s → Keep st s := by
  intro ctx pl st s hs
  rw [newlinesF_succ] at hs
  obtain ⟨a, ha, hs⟩ := bind_split hs
  obtain rfl := Option.some.inj hs
  refine keep_trans (ih.newline ctx _ _ ha) ?_
  split <;> simp [Keep, lens, phi]

/-- Preservation step for `printer.alwaysSeparate`. -/
theorem bal_always (n : Nat) (ih : BalanceAll n) :
    ∀ ctx pl st s, alwaysSeparateF ctx (n+1) pl st = some s → Keep st s := by
  intro ctx pl st s hs
  rw [alwaysSeparateF_succ] at hs
  obtain ⟨a, ha, hs⟩ := bind_split hs
  have k1 := ih.comments ctx _ _ _ ha
  try simp only [] at hs
  split at hs
  · exact keep_trans k1 (ih.newlines ctx _ _ _ hs)
  · obtain rfl := Option.some.inj hs
    exact keep_trans k1 ⟨rfl, rfl⟩

/-- Preservation step for `printer.didSeparate`. -/
theorem bal_didSep (n : Nat) (ih : BalanceAll n) :
    ∀ ctx pl st q, didSeparateF ctx (n+1) pl st = some q → Keep st q.2 := by
  intro ctx pl st q hq
  rw [didSeparateF_succ] at hq
  obtain ⟨a, ha, hq⟩ := bind_split hq
  have k1 := ih.comments ctx _ _ _ ha
  try simp only [] at hq
  split at hq
  · obtain ⟨b, hb, hq⟩ := bind_split hq
    obtain rfl := Option.some.inj hq
    exact keep_trans k1 (ih.newlines ctx _ _ _ hb)
  · split at hq
    · obtain rfl := Option.some.inj hq
      exact keep_trans k1 ⟨rfl, rfl⟩
    · obtain rfl := Option.some.inj hq
      exact keep_trans k1 ⟨rfl, rfl⟩

/-- Preservation step for `printer.sepTok` (the raw level bump around the
comment flush cancels). -/
theorem bal_sepTok (n : Nat) (ih : BalanceAll n) :
    ∀ ctx tok pl st s, sepTokF ctx (n+1) tok pl st = some s → Keep st s := by
  intro ctx tok pl st s hs
  rw [sepTokF_succ] at hs
  obtain ⟨a, ha, hs⟩ := bind_split hs
  have k1 := ih.comments ctx _ _ _ ha
  obtain ⟨q, hq, hs⟩ := bind_split hs
  obtain ⟨sep1, q2⟩ := q
  have k2 := ih.didSep ctx _ _ _ hq
  obtain rfl := Option.some.inj hs
  have e1 : lens q2 = lens st ∧ phi q2 = phi st := by
    obtain ⟨k1a, k1b⟩ := k1
    obtain ⟨k2a, k2b⟩ := k2
    simp only [lens, phi] at *
    constructor <;> omega
  split <;> exact ⟨e1.1, e1.2⟩

/-- Preservation step for `printer.semiRsrv` (same cancelling bump). -/
theorem bal_semiRsrv (n : Nat) (ih : BalanceAll n) :
    ∀ ctx tok rp fb st s, semiRsrvF ctx (n+1) tok rp fb st = some s → Keep st s := by
  intro ctx tok rp fb st s hs
  rw [semiRsrvF_succ] at hs
  obtain ⟨a, ha, hs⟩ := bind_split hs
  have k1 := ih.comments ctx _ _ _ ha
  obtain ⟨q, hq, hs⟩ := bind_split hs
  obtain ⟨sep1, q2⟩ := q
  have k2 := ih.didSep ctx _ _ _ hq
  obtain rfl := Option.some.inj hs
  have e1 : lens q2 = lens st ∧ phi q2 = phi st := by
    obtain ⟨k1a, k1b⟩ := k1
    obtain ⟨k2a, k2b⟩ := k2
    simp only [lens, phi] at *
    constructor <;> omega
  split
  · exact ⟨e1.1, e1.2⟩
  · split <;> exact ⟨e1.1, e1.2⟩

/-- Preservation step for `printer.semiOrNewl`. -/
theorem bal_semiOrNewl (n : Nat) (ih : BalanceAll n) :
    ∀ ctx tok p st s, semiOrNewlF ctx (n+1) tok p st = some s → Keep st s := by
  intro ctx tok p st s hs
  rw [semiOrNewlF_succ] at hs
  unfold semiOrNewlB at hs
  simp only [] at hs
  split at hs
  · obtain ⟨b, hb, hs⟩ := bind_split hs
    obtain ⟨y, hy, hs⟩ := bind_split hs
    obtain rfl := Option.some.inj hy
    obtain rfl := Option.some.inj hs
    refine keep_trans (ih.newline ctx _ _ hb) ?_
    simp [Keep, lens, phi]
  · obtain ⟨y, hy, hs⟩ := bind_split hs
    obtain rfl := Option.some.inj hy
    obtain rfl := Option.some.inj hs
    exact ⟨rfl, rfl⟩

/-- Preservation step for `printer.commentsUpTo`. -/
theorem bal_comments (n : Nat) (ih : BalanceAll n) :
    ∀ ctx line st s, commentsUpToF ctx (n+1) line st = some s → Keep st s := by
  intro ctx line st s hs
  rw [commentsUpToF_succ] at hs
  unfold commentsUpToB at hs
  rcases hcm : st.comments with _ | ⟨c, rest⟩
  · rw [hcm] at hs
    obtain rfl := Option.some.inj hs
    exact keep_refl st
  · rw [hcm] at hs
    simp only [] at hs
    split at hs
    · obtain rfl := Option.some.inj hs
      exact keep_refl st
    · obtain ⟨q, hq, hs⟩ := bind_split hs
      obtain ⟨sep1, q2⟩ := q
      have k1 : Keep st q2 := by
        refine keep_trans ?_ (ih.didSep ctx _ _ _ hq)
        exact ⟨rfl, rfl⟩
      have k2 := ih.comments ctx _ _ _ hs
      refine keep_trans k1 (keep_trans ?_ k2)
      (repeat' split) <;> exact ⟨rfl, rfl⟩

/-- Preservation step for `printer.wordPart`. -/
theorem bal_wordPart (n : Nat) (ih : BalanceAll n) :
    ∀ ctx wp st s, wordPartF ctx (n+1) wp st = some s → Keep st s := by
  intro ctx wp st s hs
  rw [wordPartF_succ] at hs
  unfold wordPartB at hs
  cases wp with
  | lit p pe v =>
    obtain ⟨y, hy, hs⟩ := bind_split hs
    obtain rfl := Option.some.inj hy
    obtain rfl := Option.some.inj hs
    exact ⟨rfl, rfl⟩
  | sglQuoted p pe v =>
    obtain ⟨y, hy, hs⟩ := bind_split hs
    obtain rfl := Option.some.inj hy
    obtain rfl := Option.some.inj hs
    exact ⟨rfl, rfl⟩
  | quoted p pe q ps =>
    obtain ⟨a, ha, hs⟩ := bind_split hs
    obtain ⟨y, hy, hs⟩ := bind_split hs
    obtain rfl := Option.some.inj hy
    obtain rfl := Option.some.inj hs
    refine keep_trans (keep_trans ?_ (ih.quotedParts ctx _ _ _ ha)) ?_ <;>
      exact ⟨rfl, rfl⟩
  | cmdSubst p pe bq stmts right =>
    obtain ⟨q, hq, hs⟩ := bind_split hs
    obtain ⟨b1, q2⟩ := q
    try simp only [] at hs
    split at hs
    · obtain ⟨y, hy, hs⟩ := bind_split hs
      obtain rfl := Option.some.inj hs
      refine keep_trans ?_ (keep_trans (ih.nested ctx _ _ _ hq)
        (keep_trans ?_ (keep_trans (ih.sepTok ctx _ _ _ _ hy) ?_)))
      · (repeat' split) <;> exact ⟨rfl, rfl⟩
      · exact ⟨rfl, rfl⟩
      · exact ⟨rfl, rfl⟩
    · obtain ⟨y, hy, hs⟩ := bind_split hs
      obtain rfl := Option.some.inj hs
      refine keep_trans ?_ (keep_trans (ih.nested ctx _ _ _ hq)
        (keep_trans ?_ (keep_trans (ih.sepTok ctx _ _ _ _ hy) ?_)))
      · (repeat' split) <;> exact ⟨rfl, rfl⟩
      · exact ⟨rfl, rfl⟩
      · exact ⟨rfl, rfl⟩
  | paramExp p pe short len param ind repl expn =>
    try simp only [] at hs
    split at hs
    · obtain ⟨y, hy, hs⟩ := bind_split hs
      obtain rfl := Option.some.inj hy
      obtain rfl := Option.some.inj hs
      exact ⟨rfl, rfl⟩
    · cases ind with
      | some w =>
        obtain ⟨a, ha, hs⟩ := bind_split hs
        obtain ⟨y1, hy1, hs⟩ := bind_split hs
        obtain rfl := Option.some.inj hy1
        have k1 : Keep st (byteW ']' a) := by
          refine keep_trans ?_ (keep_trans (ih.word ctx _ _ _ ha) ?_)
          · (repeat' split) <;> exact ⟨rfl, rfl⟩
          · exact ⟨rfl, rfl⟩
        cases repl with
        | some r =>
          obtain ⟨all, orig, withW⟩ := r
          obtain ⟨a2, ha2, hs⟩ := bind_split hs
          obtain ⟨a3, ha3, hs⟩ := bind_split hs
          obtain ⟨y, hy, hs⟩ := bind_split hs
          obtain rfl := Option.some.inj hy
          obtain rfl := Option.some.inj hs
          refine keep_trans k1 (keep_trans ?_ (keep_trans (ih.word ctx _ _ _ ha2)
            (keep_trans ?_ (keep_trans (ih.word ctx _ _ _ ha3) ?_))))
          · (repeat' split) <;> exact ⟨rfl, rfl⟩
          · exact ⟨rfl, rfl⟩
          · exact ⟨rfl, rfl⟩
        | none =>
          cases expn with
          | some ex =>
            obtain ⟨op, w2⟩ := ex
            obtain ⟨a2, ha2, hs⟩ := bind_split hs
            obtain ⟨y, hy, hs⟩ := bind_split hs
            obtain rfl := Option.some.inj hy
            obtain rfl := Option.some.inj hs
            refine keep_trans k1 (keep_trans ?_ (keep_trans (ih.word ctx _ _ _ ha2) ?_)) <;>
              exact ⟨rfl, rfl⟩
          | none =>
            obtain ⟨a2, ha2, hs⟩ := bind_split hs
            obtain rfl := Option.some.inj ha2
            obtain ⟨y, hy, hs⟩ := bind_split hs
            obtain rfl := Option.some.inj hy
            obtain rfl := Option.some.inj hs
            exact keep_trans k1 ⟨rfl, rfl⟩
      | none =>
        obtain ⟨a, ha, hs⟩ := bind_split hs
        obtain rfl := Option.some.inj ha
        have k1 : Keep st (if len then byteW '#' (str "$\x7b" st) else str "$\x7b" st) := by
          (repeat' split) <;> exact ⟨rfl, rfl⟩
        cases repl with
        | some r =>
          obtain ⟨all, orig, withW⟩ := r
          obtain ⟨a2, ha2, hs⟩ := bind_split hs
          obtain ⟨a3, ha3, hs⟩ := bind_split hs
          obtain ⟨y, hy, hs⟩ := bind_split hs
          obtain rfl := Option.some.inj hy
          obtain rfl := Option.some.inj hs
          refine keep_trans ?_ (keep_trans (ih.word ctx _ _ _ ha2)
            (keep_trans ?_ (keep_trans (ih.word ctx _ _ _ ha3) ?_)))
          · (repeat' split) <;> exact ⟨rfl, rfl⟩
          · exact ⟨rfl, rfl⟩
          · exact ⟨rfl, rfl⟩
        | none =>
          cases expn with
          | some ex =>
            obtain ⟨op, w2⟩ := ex
            obtain ⟨a2, ha2, hs⟩ := bind_split hs
            obtain ⟨y, hy, hs⟩ := bind_split hs
            obtain rfl := Option.some.inj hy
            obtain rfl := Option.some.inj hs
            refine keep_trans ?_ (keep_trans (ih.word ctx _ _ _ ha2) ?_) <;>
              ((repeat' split) <;> exact ⟨rfl, rfl⟩)
          | none =>
            obtain ⟨a2, ha2, hs⟩ := bind_split hs
            obtain rfl := Option.some.inj ha2
            obtain ⟨y, hy, hs⟩ := bind_split hs
            obtain rfl := Option.some.inj hy
            obtain rfl := Option.some.inj hs
            (repeat' split) <;> exact ⟨rfl, rfl⟩
  | arithmExp p pe x =>
    obtain ⟨a, ha, hs⟩ := bind_split hs
    obtain ⟨y, hy, hs⟩ := bind_split hs
    obtain rfl := Option.some.inj hy
    obtain rfl := Option.some.inj hs
    refine keep_trans (keep_trans ?_ (ih.arithm ctx _ _ _ _ ha)) ?_ <;>
      exact ⟨rfl, rfl⟩
  | arrayExpr p pe list rparen =>
    obtain ⟨a, ha, hs⟩ := bind_split hs
    obtain ⟨y, hy, hs⟩ := bind_split hs
    obtain rfl := Option.some.inj hs
    refine keep_trans (keep_trans ?_ (ih.wordJoin ctx _ _ _ _ ha))
      (keep_trans (ih.sepTok ctx _ _ _ _ hy) ?_) <;> exact ⟨rfl, rfl⟩
  | procSubst p pe op stmts =>
    obtain ⟨q, hq, hs⟩ := bind_split hs
    obtain ⟨b1, q2⟩ := q
    obtain ⟨y, hy, hs⟩ := bind_split hs
    obtain rfl := Option.some.inj hy
    obtain rfl := Option.some.inj hs
    refine keep_trans ?_ (keep_trans (ih.nested ctx _ _ _ hq) ?_)
    · repeat' split
      all_goals exact ⟨rfl, rfl⟩
    · exact ⟨rfl, rfl⟩

/-- Preservation step for the quoted-part loop. -/
theorem bal_quotedParts (n : Nat) (ih : BalanceAll n) :
    ∀ ctx ps st s, quotedPartsF ctx (n+1) ps st = some s → Keep st s := by
  intro ctx ps st s hs
  rw [quotedPartsF_succ] at hs
  cases ps with
  | nil =>
    obtain rfl := Option.some.inj hs
    exact keep_refl st
  | cons p rest =>
    obtain ⟨a, ha, hs⟩ := bind_split hs
    refine keep_trans (ih.wordPart ctx _ _ _ ha)
      (keep_trans ?_ (ih.quotedParts ctx _ _ _ hs))
    exact ⟨rfl, rfl⟩

/-- Preservation step for the plain word-part fold. -/
theorem bal_wordParts (n : Nat) (ih : BalanceAll n) :
    ∀ ctx ps st s, wordPartsF ctx (n+1) ps st = some s → Keep st s := by
  intro ctx ps st s hs
  rw [wordPartsF_succ] at hs
  cases ps with
  | nil =>
    obtain rfl := Option.some.inj hs
    exact keep_refl st
  | cons p rest =>
    obtain ⟨a, ha, hs⟩ := bind_split hs
    exact keep_trans (ih.wordPart ctx _ _ _ ha) (ih.wordParts ctx _ _ _ hs)

/-- Preservation step for `printer.word`. -/
theorem bal_word (n : Nat) (ih : BalanceAll n) :
    ∀ ctx w st s, wordF ctx (n+1) w st = some s → Keep st s := by
  intro ctx w st s hs
  rw [wordF_succ] at hs
  exact ih.wordParts ctx _ _ _ hs

/-- Preservation step for `printer.unquotedWord`. -/
theorem bal_unquotedWord (n : Nat) (ih : BalanceAll n) :
    ∀ ctx w st s, unquotedWordF ctx (n+1) w st = some s → Keep st s := by
  intro ctx w st s hs
  rw [unquotedWordF_succ] at hs
  exact ih.unquotedParts ctx _ _ _ hs

/-- Preservation step for the unquoted part loop. -/
theorem bal_unquotedParts (n : Nat) (ih : BalanceAll n) :
    ∀ ctx ps st s, unquotedPartsF ctx (n+1) ps st = some s → Keep st s := by
  intro ctx ps st s hs
  rw [unquotedPartsF_succ] at hs
  cases ps with
  | nil =>
    obtain rfl := Option.some.inj hs
    exact keep_refl st
  | cons wp rest =>
    unfold unquotedPartsB at hs
    try simp only [] at hs
    split at hs
    · obtain ⟨y, hy, hs⟩ := bind_split hs
      obtain rfl := Option.some.inj hy
      refine keep_trans ?_ (ih.unquotedParts ctx _ _ _ hs)
      exact ⟨rfl, rfl⟩
    · obtain ⟨y, hy, hs⟩ := bind_split hs
      exact keep_trans (ih.wordParts ctx _ _ _ hy) (ih.unquotedParts ctx _ _ _ hs)
    · split at hs
      · exact Option.noConfusion hs
      · split at hs
        · obtain ⟨y, hy, hs⟩ := bind_split hs
          obtain rfl := Option.some.inj hy
          refine keep_trans ?_ (ih.unquotedParts ctx _ _ _ hs)
          exact ⟨rfl, rfl⟩
        · obtain ⟨y, hy, hs⟩ := bind_split hs
          obtain rfl := Option.some.inj hy
          refine keep_trans ?_ (ih.unquotedParts ctx _ _ _ hs)
          exact ⟨rfl, rfl⟩
    · obtain ⟨y, hy, hs⟩ := bind_split hs
      exact keep_trans (ih.wordPart ctx _ _ _ hy) (ih.unquotedParts ctx _ _ _ hs)

/-- Preservation step for `printer.spacedWord`. -/
theorem bal_spacedWord (n : Nat) (ih : BalanceAll n) :
    ∀ ctx w st s, spacedWordF ctx (n+1) w st = some s → Keep st s := by
  intro ctx w st s hs
  rw [spacedWordF_succ] at hs
  refine keep_trans ?_ (ih.wordParts ctx _ _ _ hs)
  (repeat' split) <;> exact ⟨rfl, rfl⟩

/-- Preservation step for `printer.wordJoin` (the loop starts with the
`anyNewline` flag clear). -/
theorem bal_wordJoin (n : Nat) (ih : BalanceAll n) :
    ∀ ctx ws nb st s, wordJoinF ctx (n+1) ws nb st = some s → Keep st s := by
  intro ctx ws nb st s hs
  rw [wordJoinF_succ] at hs
  exact keep_of_adj (ih.wordJoinA ctx ws nb false st (by simp) s hs)

/-- Preservation step for the loop of `printer.wordJoin`: adjusted while
`anyNewline` is set, since the matching `decLevel` only runs at the end. -/
theorem bal_wordJoinA (n : Nat) (ih : BalanceAll n) :
    ∀ ctx ws nb anyNl st, (anyNl = true → 1 ≤ lens st) →
      ∀ s, wordJoinAux ctx (n+1) ws nb anyNl st = some s → KeepAdj anyNl st s := by
  intro ctx ws nb anyNl st hv s hs
  rw [wordJoinAux_succ] at hs
  cases ws with
  | nil =>
    obtain rfl := Option.some.inj hs
    cases anyNl with
    | false => exact adj_of_keep (keep_refl st)
    | true =>
      have h1 := lens_decLevel st (hv rfl)
      refine ⟨?_, phi_decLevel st⟩
      simp only [lens] at h1 ⊢
      simp
      omega
  | cons w rest =>
    unfold wordJoinAuxB at hs
    try simp only [] at hs
    cases anyNl with
    | false =>
      split at hs
      · obtain ⟨p1, hp1, hs⟩ := bind_split hs
        obtain rfl := Option.some.inj hp1
        obtain ⟨a2, ha2, hs⟩ := bind_split hs
        have kw := ih.wordParts ctx _ _ _ ha2
        have hv2 : true = true → 1 ≤ lens a2 := by
          intro hx
          have h1 := kw.1
          simp [lens] at h1 ⊢
          omega
        obtain ⟨t1, t2⟩ := ih.wordJoinA ctx rest nb true a2 hv2 s hs
        obtain ⟨kw1, kw2⟩ := kw
        constructor
        · simp [lens] at t1 kw1 ⊢
          omega
        · simp [phi, lens] at t2 kw2 ⊢
          omega
      · obtain ⟨p1, hp1, hs⟩ := bind_split hs
        obtain rfl := Option.some.inj hp1
        obtain ⟨a2, ha2, hs⟩ := bind_split hs
        have kw := ih.wordParts ctx _ _ _ ha2
        have hv2 : false = true → 1 ≤ lens a2 := fun hx => absurd hx (by simp)
        obtain ⟨t1, t2⟩ := ih.wordJoinA ctx rest nb false a2 hv2 s hs
        obtain ⟨kw1, kw2⟩ := kw
        constructor
        · simp [lens] at t1 kw1 ⊢
          omega
        · simp [phi, lens] at t2 kw2 ⊢
          omega
    | true =>
      split at hs
      · obtain ⟨p1, hp1, hs⟩ := bind_split hs
        obtain rfl := Option.some.inj hp1
        obtain ⟨a2, ha2, hs⟩ := bind_split hs
        have kw := ih.wordParts ctx _ _ _ ha2
        have hv2 : true = true → 1 ≤ lens a2 := by
          intro hx
          have h1 := kw.1
          have h0 := hv rfl
          simp [lens] at h1 h0 ⊢
          omega
        obtain ⟨t1, t2⟩ := ih.wordJoinA ctx rest nb true a2 hv2 s hs
        obtain ⟨kw1, kw2⟩ := kw
        constructor
        · simp [lens] at t1 kw1 ⊢
          omega
        · simp [phi, lens] at t2 kw2 ⊢
          omega
      · obtain ⟨p1, hp1, hs⟩ := bind_split hs
        obtain rfl := Option.some.inj hp1
        obtain ⟨a2, ha2, hs⟩ := bind_split hs
        have kw := ih.wordParts ctx _ _ _ ha2
        have hv2 : true = true → 1 ≤ lens a2 := by
          intro hx
          have h1 := kw.1
          have h0 := hv rfl
          simp [lens] at h1 h0 ⊢
          omega
        obtain ⟨t1, t2⟩ := ih.wordJoinA ctx rest nb true a2 hv2 s hs
        obtain ⟨kw1, kw2⟩ := kw
        constructor
        · simp [lens] at t1 kw1 ⊢
          omega
        · simp [phi, lens] at t2 kw2 ⊢
          omega

/-- Compose an adjusted tail with the entry relation of one loop step. -/
theorem adj_compose {anyNl anyNl2 : Bool} {st mid s : PState}
    (hrel : (lens mid : Int) - (if anyNl2 = true then 1 else 0)
        = (lens st : Int) - (if anyNl = true then 1 else 0))
    (hphi : phi mid = phi st)
    (hvm : anyNl2 = true → 1 ≤ lens mid)
    (tail : (anyNl2 = true → 1 ≤ lens mid) → KeepAdj anyNl2 mid s) :
    KeepAdj anyNl st s := by
  obtain ⟨t1, t2⟩ := tail hvm
  refine ⟨?_, t2.trans hphi⟩
  cases anyNl <;> cases anyNl2 <;> simp_all <;> omega

/-- Preservation step for the trailing-redirection loop of `printer.stmt`
(adjusted while `anyNewline` is set). -/
theorem bal_redirs (n : Nat) (ih : BalanceAll n) :
    ∀ ctx rs anyNl st, (anyNl = true → 1 ≤ lens st) →
      ∀ s, redirsF ctx (n+1) rs anyNl st = some s → KeepAdj anyNl st s := by
  intro ctx rs anyNl st hv s hs
  rw [redirsF_succ] at hs
  cases rs with
  | nil =>
    obtain rfl := Option.some.inj hs
    cases anyNl with
    | false => exact adj_of_keep (keep_refl st)
    | true =>
      have h1 := lens_decLevel st (hv rfl)
      refine ⟨?_, phi_decLevel st⟩
      simp only [lens] at h1 ⊢
      simp
      omega
  | cons rd rest =>
    unfold redirsB at hs
    try simp only [] at hs
    cases anyNl with
    | false =>
      split at hs
      · obtain ⟨p1, hp1, hs⟩ := bind_split hs
        obtain rfl := Option.some.inj hp1
        obtain ⟨q, hq, hs⟩ := bind_split hs
        obtain ⟨f1, q2⟩ := q
        have kd := ih.didSep ctx _ _ _ hq
        obtain ⟨a3, ha3, hs⟩ := bind_split hs
        have kw := ih.word ctx _ _ _ ha3
        have kw2 : Keep q2 a3 := by
          refine keep_trans ?_ kw
          (repeat' split) <;> exact ⟨rfl, rfl⟩
        refine adj_compose ?_ ?_ ?_ (fun hv2 => ih.redirs ctx rest _ _ hv2 s hs)
        · obtain ⟨kd1, kd2⟩ := kd
          obtain ⟨k21, k22⟩ := kw2
          simp [lens] at kd1 k21 ⊢
          omega
        · obtain ⟨kd1, kd2⟩ := kd
          obtain ⟨k21, k22⟩ := kw2
          simp [phi, lens] at kd2 k22 ⊢
          omega
        · intro hx
          obtain ⟨kd1, kd2⟩ := kd
          obtain ⟨k21, k22⟩ := kw2
          simp [lens] at kd1 k21 ⊢
          omega
      · obtain ⟨p1, hp1, hs⟩ := bind_split hs
        obtain rfl := Option.some.inj hp1
        obtain ⟨q, hq, hs⟩ := bind_split hs
        obtain ⟨f1, q2⟩ := q
        have kd := ih.didSep ctx _ _ _ hq
        obtain ⟨a3, ha3, hs⟩ := bind_split hs
        have kw := ih.word ctx _ _ _ ha3
        have kw2 : Keep q2 a3 := by
          refine keep_trans ?_ kw
          (repeat' split) <;> exact ⟨rfl, rfl⟩
        refine adj_compose ?_ ?_ ?_ (fun hv2 => ih.redirs ctx rest _ _ hv2 s hs)
        · obtain ⟨kd1, kd2⟩ := kd
          obtain ⟨k21, k22⟩ := kw2
          simp [lens] at kd1 k21 ⊢
          omega
        · obtain ⟨kd1, kd2⟩ := kd
          obtain ⟨k21, k22⟩ := kw2
          simp [phi, lens] at kd2 k22 ⊢
          omega
        · intro hx
          exact absurd hx (by simp)
    | true =>
      split at hs
      · obtain ⟨p1, hp1, hs⟩ := bind_split hs
        obtain rfl := Option.some.inj hp1
        obtain ⟨q, hq, hs⟩ := bind_split hs
        obtain ⟨f1, q2⟩ := q
        have kd := ih.didSep ctx _ _ _ hq
        obtain ⟨a3, ha3, hs⟩ := bind_split hs
        have kw := ih.word ctx _ _ _ ha3
        have kw2 : Keep q2 a3 := by
          refine keep_trans ?_ kw
          (repeat' split) <;> exact ⟨rfl, rfl⟩
        refine adj_compose ?_ ?_ ?_ (fun hv2 => ih.redirs ctx rest _ _ hv2 s hs)
        · obtain ⟨kd1, kd2⟩ := kd
          obtain ⟨k21, k22⟩ := kw2
          simp [lens] at kd1 k21 ⊢
          omega
        · obtain ⟨kd1, kd2⟩ := kd
          obtain ⟨k21, k22⟩ := kw2
          simp [phi, lens] at kd2 k22 ⊢
          omega
        · intro hx
          have h0 := hv rfl
          obtain ⟨kd1, kd2⟩ := kd
          obtain ⟨k21, k22⟩ := kw2
          simp [lens] at h0 kd1 k21 ⊢
          omega
      · obtain ⟨p1, hp1, hs⟩ := bind_split hs
        obtain rfl := Option.some.inj hp1
        obtain ⟨q, hq, hs⟩ := bind_split hs
        obtain ⟨f1, q2⟩ := q
        have kd := ih.didSep ctx _ _ _ hq
        obtain ⟨a3, ha3, hs⟩ := bind_split hs
        have kw := ih.word ctx _ _ _ ha3
        have kw2 : Keep q2 a3 := by
          refine keep_trans ?_ kw
          (repeat' split) <;> exact ⟨rfl, rfl⟩
        refine adj_compose ?_ ?_ ?_ (fun hv2 => ih.redirs ctx rest _ _ hv2 s hs)
        · obtain ⟨kd1, kd2⟩ := kd
          obtain ⟨k21, k22⟩ := kw2
          simp [lens] at kd1 k21 ⊢
          omega
        · obtain ⟨kd1, kd2⟩ := kd
          obtain ⟨k21, k22⟩ := kw2
          simp [phi, lens] at kd2 k22 ⊢
          omega
        · intro hx
          have h0 := hv rfl
          obtain ⟨kd1, kd2⟩ := kd
          obtain ⟨k21, k22⟩ := kw2
          simp [lens] at h0 kd1 k21 ⊢
          omega

/-- Finish one loop step: bridge the step entry into the adjusted tail. -/
theorem adj_finish {anyNl anyNl2 : Bool} {st p1 a3 s : PState}
    (kb : Keep p1 a3)
    (hrel : (lens p1 : Int) - (if anyNl2 = true then 1 else 0)
        = (lens st : Int) - (if anyNl = true then 1 else 0))
    (hphi : phi p1 = phi st)
    (hvp : anyNl2 = true → 1 ≤ lens p1)
    (tail : (anyNl2 = true → 1 ≤ lens a3) → KeepAdj anyNl2 a3 s) :
    KeepAdj anyNl st s := by
  obtain ⟨k1, k2⟩ := kb
  refine adj_compose ?_ ?_ ?_ tail
  · omega
  · exact k2.trans hphi
  · intro hx
    have := hvp hx
    omega

/-- Preservation step for the loop of `printer.assigns` (adjusted while
`anyNewline` is set). -/
theorem bal_assignsA (n : Nat) (ih : BalanceAll n) :
    ∀ ctx al anyNl st, (anyNl = true → 1 ≤ lens st) →
      ∀ s, assignsAux ctx (n+1) al anyNl st = some s → KeepAdj anyNl st s := by
  intro ctx al anyNl st hv s hs
  rw [assignsAux_succ] at hs
  cases al with
  | nil =>
    obtain rfl := Option.some.inj hs
    cases anyNl with
    | false => exact adj_of_keep (keep_refl st)
    | true =>
      have h1 := lens_decLevel st (hv rfl)
      refine ⟨?_, phi_decLevel st⟩
      simp only [lens] at h1 ⊢
      simp
      omega
  | cons a rest =>
    unfold assignsAuxB at hs
    try simp only [] at hs
    cases anyNl with
    | false =>
      split at hs
      · obtain ⟨p1, hp1, hs⟩ := bind_split hs
        obtain rfl := Option.some.inj hp1
        try simp only [Bool.not_false, Bool.not_true, eq_self_iff_true, if_true,
          Bool.false_eq_true, if_false] at hs
        split at hs
        · obtain ⟨y1, hy1, hs⟩ := bind_split hs
          obtain rfl := Option.some.inj hy1
          obtain ⟨a3, ha3, hs⟩ := bind_split hs
          have kw := ih.word ctx _ _ _ ha3
          have kb : Keep (indent ctx (incLevel (bslashNewl st))) a3 := by
            refine keep_trans ?_ kw
            (repeat' split) <;> exact ⟨rfl, rfl⟩
          refine adj_finish kb ?_ ?_ ?_ (fun hv2 => ih.assignsA ctx rest _ _ hv2 s hs)
          · simp [lens] <;> omega
          · simp [phi, lens] <;> omega
          · intro hx
            simp [lens] <;> omega
        · obtain ⟨y1, hy1, hs⟩ := bind_split hs
          obtain rfl := Option.some.inj hy1
          obtain ⟨a3, ha3, hs⟩ := bind_split hs
          have kw := ih.word ctx _ _ _ ha3
          have kb : Keep (indent ctx (incLevel (bslashNewl st))) a3 := by
            refine keep_trans ?_ kw
            (repeat' split) <;> exact ⟨rfl, rfl⟩
          refine adj_finish kb ?_ ?_ ?_ (fun hv2 => ih.assignsA ctx rest _ _ hv2 s hs)
          · simp [lens] <;> omega
          · simp [phi, lens] <;> omega
          · intro hx
            simp [lens] <;> omega
      · obtain ⟨p1, hp1, hs⟩ := bind_split hs
        obtain rfl := Option.some.inj hp1
        try simp only [Bool.not_false, Bool.not_true, eq_self_iff_true, if_true,
          Bool.false_eq_true, if_false] at hs
        split at hs
        · obtain ⟨y1, hy1, hs⟩ := bind_split hs
          obtain rfl := Option.some.inj hy1
          obtain ⟨a3, ha3, hs⟩ := bind_split hs
          have kw := ih.word ctx _ _ _ ha3
          have kb : Keep (if st.wantSpace = true then space st else st) a3 := by
            refine keep_trans ?_ kw
            (repeat' split) <;> exact ⟨rfl, rfl⟩
          refine adj_finish kb ?_ ?_ ?_ (fun hv2 => ih.assignsA ctx rest _ _ hv2 s hs)
          · simp [lens] <;> omega
          · simp [phi, lens] <;> omega
          · intro hx
            simp at hx
        · obtain ⟨y1, hy1, hs⟩ := bind_split hs
          obtain rfl := Option.some.inj hy1
          obtain ⟨a3, ha3, hs⟩ := bind_split hs
          have kw := ih.word ctx _ _ _ ha3
          have kb : Keep (if st.wantSpace = true then space st else st) a3 := by
            refine keep_trans ?_ kw
            (repeat' split) <;> exact ⟨rfl, rfl⟩
          refine adj_finish kb ?_ ?_ ?_ (fun hv2 => ih.assignsA ctx rest _ _ hv2 s hs)
          · simp [lens] <;> omega
          · simp [phi, lens] <;> omega
          · intro hx
            simp at hx
    | true =>
      split at hs
      · obtain ⟨p1, hp1, hs⟩ := bind_split hs
        obtain rfl := Option.some.inj hp1
        try simp only [Bool.not_false, Bool.not_true, eq_self_iff_true, if_true,
          Bool.false_eq_true, if_false] at hs
        split at hs
        · obtain ⟨y1, hy1, hs⟩ := bind_split hs
          obtain rfl := Option.some.inj hy1
          obtain ⟨a3, ha3, hs⟩ := bind_split hs
          have kw := ih.word ctx _ _ _ ha3
          have kb : Keep (indent ctx (bslashNewl st)) a3 := by
            refine keep_trans ?_ kw
            (repeat' split) <;> exact ⟨rfl, rfl⟩
          refine adj_finish kb ?_ ?_ ?_ (fun hv2 => ih.assignsA ctx rest _ _ hv2 s hs)
          · simp [lens] <;> omega
          · simp [phi, lens] <;> omega
          · intro hx
            have h0 := hv rfl
            simp [lens] at h0 ⊢ <;> omega
        · obtain ⟨y1, hy1, hs⟩ := bind_split hs
          obtain rfl := Option.some.inj hy1
          obtain ⟨a3, ha3, hs⟩ := bind_split hs
          have kw := ih.word ctx _ _ _ ha3
          have kb : Keep (indent ctx (bslashNewl st)) a3 := by
            refine keep_trans ?_ kw
            (repeat' split) <;> exact ⟨rfl, rfl⟩
          refine adj_finish kb ?_ ?_ ?_ (fun hv2 => ih.assignsA ctx rest _ _ hv2 s hs)
          · simp [lens] <;> omega
          · simp [phi, lens] <;> omega
          · intro hx
            have h0 := hv rfl
            simp [lens] at h0 ⊢ <;> omega
      · obtain ⟨p1, hp1, hs⟩ := bind_split hs
        obtain rfl := Option.some.inj hp1
        try simp only [Bool.not_false, Bool.not_true, eq_self_iff_true, if_true,
          Bool.false_eq_true, if_false] at hs
        split at hs
        · obtain ⟨y1, hy1, hs⟩ := bind_split hs
          obtain rfl := Option.some.inj hy1
          obtain ⟨a3, ha3, hs⟩ := bind_split hs
          have kw := ih.word ctx _ _ _ ha3
          have kb : Keep (if st.wantSpace = true then space st else st) a3 := by
            refine keep_trans ?_ kw
            (repeat' split) <;> exact ⟨rfl, rfl⟩
          refine adj_finish kb ?_ ?_ ?_ (fun hv2 => ih.assignsA ctx rest _ _ hv2 s hs)
          · simp [lens] <;> omega
          · simp [phi, lens] <;> omega
          · intro hx
            have h0 := hv rfl
            simp [lens] at h0 ⊢ <;> omega
        · obtain ⟨y1, hy1, hs⟩ := bind_split hs
          obtain rfl := Option.some.inj hy1
          obtain ⟨a3, ha3, hs⟩ := bind_split hs
          have kw := ih.word ctx _ _ _ ha3
          have kb : Keep (if st.wantSpace = true then space st else st) a3 := by
            refine keep_trans ?_ kw
            (repeat' split) <;> exact ⟨rfl, rfl⟩
          refine adj_finish kb ?_ ?_ ?_ (fun hv2 => ih.assignsA ctx rest _ _ hv2 s hs)
          · simp [lens] <;> omega
          · simp [phi, lens] <;> omega
          · intro hx
            have h0 := hv rfl
            simp [lens] at h0 ⊢ <;> omega

/-- Preservation step for `printer.assigns` (the loop starts with the
`anyNewline` flag clear). -/
theorem bal_assigns (n : Nat) (ih : BalanceAll n) :
    ∀ ctx al st s, assignsF ctx (n+1) al st = some s → Keep st s := by
  intro ctx al st s hs
  rw [assignsF_succ] at hs
  exact keep_of_adj (ih.assignsA ctx al false st (by simp) s hs)

/-- Preservation step for `printer.arithm`. -/
theorem bal_arithm (n : Nat) (ih : BalanceAll n) :
    ∀ ctx e cp st s, arithmF ctx (n+1) e cp st = some s → Keep st s := by
  intro ctx e cp st s hs
  rw [arithmF_succ] at hs
  unfold arithmB at hs
  cases e with
  | word w =>
    refine keep_trans ?_ (ih.spacedWord ctx _ _ _ hs)
    exact ⟨rfl, rfl⟩
  | binary op x y =>
    try simp only [] at hs
    split at hs
    · obtain ⟨a, ha, hs⟩ := bind_split hs
      refine keep_trans ?_ (keep_trans (ih.arithm ctx _ _ _ _ ha)
        (keep_trans ?_ (ih.arithm ctx _ _ _ _ hs))) <;>
        ((repeat' split) <;> exact ⟨rfl, rfl⟩)
    · obtain ⟨a, ha, hs⟩ := bind_split hs
      refine keep_trans ?_ (keep_trans (ih.arithm ctx _ _ _ _ ha)
        (keep_trans ?_ (ih.arithm ctx _ _ _ _ hs))) <;>
        ((repeat' split) <;> exact ⟨rfl, rfl⟩)
  | unary op post x =>
    try simp only [] at hs
    split at hs
    · obtain ⟨a, ha, hs⟩ := bind_split hs
      obtain rfl := Option.some.inj hs
      refine keep_trans ?_ (keep_trans (ih.arithm ctx _ _ _ _ ha) ?_) <;>
        exact ⟨rfl, rfl⟩
    · refine keep_trans ?_ (ih.arithm ctx _ _ _ _ hs)
      exact ⟨rfl, rfl⟩
  | paren x =>
    obtain ⟨a, ha, hs⟩ := bind_split hs
    obtain rfl := Option.some.inj hs
    refine keep_trans ?_ (keep_trans (ih.arithm ctx _ _ _ _ ha) ?_) <;>
      exact ⟨rfl, rfl⟩

/-- Preservation step for `printer.cond`. -/
theorem bal_cond (n : Nat) (ih : BalanceAll n) :
    ∀ ctx c st s, condF ctx (n+1) c st = some s → Keep st s := by
  intro ctx c st s hs
  rw [condF_succ] at hs
  cases c with
  | stmtCond stmts =>
    obtain ⟨q, hq, hs⟩ := bind_split hs
    obtain ⟨b1, q2⟩ := q
    obtain rfl := Option.some.inj hs
    exact ih.nested ctx _ _ _ hq
  | cStyleCond x =>
    obtain ⟨a, ha, hs⟩ := bind_split hs
    obtain rfl := Option.some.inj hs
    refine keep_trans ?_ (keep_trans (ih.arithm ctx _ _ _ _ ha) ?_) <;>
      ((repeat' split) <;> simp [Keep, lens, phi])

/-- Preservation step for `printer.loop`. -/
theorem bal_loop (n : Nat) (ih : BalanceAll n) :
    ∀ ctx l st s, loopF ctx (n+1) l st = some s → Keep st s := by
  intro ctx l st s hs
  rw [loopF_succ] at hs
  unfold loopB at hs
  cases l with
  | wordIter name list =>
    try simp only [] at hs
    split at hs
    · refine keep_trans ?_ (ih.wordJoin ctx _ _ _ _ hs)
      exact ⟨rfl, rfl⟩
    · obtain rfl := Option.some.inj hs
      exact ⟨rfl, rfl⟩
  | cStyleLoop ini cnd post =>
    obtain ⟨a1, ha1, hs⟩ := bind_split hs
    obtain ⟨a2, ha2, hs⟩ := bind_split hs
    obtain ⟨a3, ha3, hs⟩ := bind_split hs
    obtain rfl := Option.some.inj hs
    refine keep_trans ?_ (keep_trans (ih.arithm ctx _ _ _ _ ha1)
      (keep_trans ?_ (keep_trans (ih.arithm ctx _ _ _ _ ha2)
        (keep_trans ?_ (keep_trans (ih.arithm ctx _ _ _ _ ha3) ?_))))) <;>
      exact ⟨rfl, rfl⟩

/-- Preservation step for `printer.stmt`. -/
theorem bal_stmt (n : Nat) (ih : BalanceAll n) :
    ∀ ctx sm st s, stmtF ctx (n+1) sm st = some s → Keep st s := by
  intro ctx sm st s hs
  rw [stmtF_succ] at hs
  unfold stmtB at hs
  obtain ⟨a1, ha1, hs⟩ := bind_split hs
  have k1 := ih.assigns ctx _ _ _ ha1
  obtain ⟨q, hq, hs⟩ := bind_split hs
  obtain ⟨cnt, q2⟩ := q
  have k2 := ih.command ctx _ _ _ _ hq
  obtain ⟨a3, ha3, hs⟩ := bind_split hs
  have k3 : Keep q2 a3 := keep_of_adj (ih.redirs ctx _ false _ (by simp) _ ha3)
  obtain rfl := Option.some.inj hs
  refine keep_trans ?_ (keep_trans k1 (keep_trans k2 (keep_trans k3 ?_))) <;>
    ((repeat' split) <;> simp [Keep, lens, phi])

/-- Preservation step for the case-pattern loop. -/
theorem bal_patterns (n : Nat) (ih : BalanceAll n) :
    ∀ ctx ws isFirst st s, patternsF ctx (n+1) ws isFirst st = some s → Keep st s := by
  intro ctx ws isFirst st s hs
  rw [patternsF_succ] at hs
  cases ws with
  | nil =>
    obtain rfl := Option.some.inj hs
    exact keep_refl st
  | cons w rest =>
    obtain ⟨a, ha, hs⟩ := bind_split hs
    refine keep_trans ?_ (keep_trans (ih.spacedWord ctx _ _ _ ha)
      (ih.patterns ctx _ _ _ _ hs))
    (repeat' split) <;> simp [Keep, lens, phi]

/-- Preservation step for the `elif` loop. -/
theorem bal_elifs (n : Nat) (ih : BalanceAll n) :
    ∀ ctx els st s, elifsF ctx (n+1) els st = some s → Keep st s := by
  intro ctx els st s hs
  rw [elifsF_succ] at hs
  cases els with
  | nil =>
    obtain rfl := Option.some.inj hs
    exact keep_refl st
  | cons el rest =>
    obtain ⟨a1, ha1, hs⟩ := bind_split hs
    obtain ⟨a2, ha2, hs⟩ := bind_split hs
    obtain ⟨a3, ha3, hs⟩ := bind_split hs
    obtain ⟨q, hq, hs⟩ := bind_split hs
    obtain ⟨b1, q2⟩ := q
    exact keep_trans (ih.semiRsrv ctx _ _ _ _ _ ha1)
      (keep_trans (ih.condP ctx _ _ _ ha2)
        (keep_trans (ih.semiOrNewl ctx _ _ _ _ ha3)
          (keep_trans (ih.nested ctx _ _ _ hq) (ih.elifs ctx _ _ _ hs))))

/-- Preservation step for the `let` expression loop. -/
theorem bal_letExprs (n : Nat) (ih : BalanceAll n) :
    ∀ ctx es st s, letExprsF ctx (n+1) es st = some s → Keep st s := by
  intro ctx es st s hs
  rw [letExprsF_succ] at hs
  cases es with
  | nil =>
    obtain rfl := Option.some.inj hs
    exact keep_refl st
  | cons e rest =>
    obtain ⟨a, ha, hs⟩ := bind_split hs
    refine keep_trans ?_ (keep_trans (ih.arithm ctx _ _ _ _ ha)
      (ih.letExprs ctx _ _ _ hs))
    exact ⟨rfl, rfl⟩

/-- Preservation step for the declare-option loop. -/
theorem bal_declOpts (n : Nat) (ih : BalanceAll n) :
    ∀ ctx ws st s, declOptsF ctx (n+1) ws st = some s → Keep st s := by
  intro ctx ws st s hs
  rw [declOptsF_succ] at hs
  cases ws with
  | nil =>
    obtain rfl := Option.some.inj hs
    exact keep_refl st
  | cons w rest =>
    obtain ⟨a, ha, hs⟩ := bind_split hs
    exact keep_trans (ih.spacedWord ctx _ _ _ ha) (ih.declOpts ctx _ _ _ hs)

/-- Preservation step for `printer.nestedStmts`: the `incLevel` is undone
by the final `decLevel`. -/
theorem bal_nested (n : Nat) (ih : BalanceAll n) :
    ∀ ctx ss st q, nestedStmtsF ctx (n+1) ss st = some q → Keep st q.2 := by
  intro ctx ss st q hq
  rw [nestedStmtsF_succ] at hq
  obtain ⟨p, hp, hq⟩ := bind_split hq
  obtain ⟨sep1, p2⟩ := p
  have k := ih.stmts ctx _ _ _ hp
  obtain rfl := Option.some.inj hq
  obtain ⟨k1, k2⟩ := k
  constructor
  · have h1 : 1 ≤ lens p2 := by
      simp [lens] at k1 ⊢
      omega
    have hd := lens_decLevel p2 h1
    simp [lens] at k1 hd ⊢
    omega
  · have hp2 := phi_decLevel p2
    simp [phi, lens] at k2 hp2 ⊢
    omega

/-- Preservation step for `printer.stmts`. -/
theorem bal_stmts (n : Nat) (ih : BalanceAll n) :
    ∀ ctx ss st q, stmtsF ctx (n+1) ss st = some q → Keep st q.2 := by
  intro ctx ss st q hq
  rw [stmtsF_succ] at hq
  cases ss with
  | nil =>
    obtain rfl := Option.some.inj hq
    exact ⟨rfl, rfl⟩
  | cons s0 rest =>
    unfold stmtsB at hq
    try simp only [] at hq
    split at hq
    · obtain ⟨q1, hq1, hq⟩ := bind_split hq
      obtain ⟨f1, d2⟩ := q1
      have kd := ih.didSep ctx _ _ _ hq1
      obtain ⟨a2, ha2, hq⟩ := bind_split hq
      have k2 := ih.stmt ctx _ _ _ ha2
      obtain rfl := Option.some.inj hq
      exact keep_trans kd k2
    · obtain ⟨a, ha, hq⟩ := bind_split hq
      obtain rfl := Option.some.inj hq
      refine keep_trans (ih.stmtsLoop ctx _ _ _ _ _ ha) ?_
      exact ⟨rfl, rfl⟩

/-- Preservation step for the main loop of `printer.stmts`. -/
theorem bal_stmtsLoop (n : Nat) (ih : BalanceAll n) :
    ∀ ctx ss ll ii st s, stmtsLoopF ctx (n+1) ss ll ii st = some s → Keep st s := by
  intro ctx ss ll ii st s hs
  rw [stmtsLoopF_succ] at hs
  cases ss with
  | nil =>
    obtain rfl := Option.some.inj hs
    exact keep_refl st
  | cons s0 rest =>
    unfold stmtsLoopB at hs
    try simp only [] at hs
    obtain ⟨a1, ha1, hs⟩ := bind_split hs
    have k1 := ih.always ctx _ _ _ ha1
    obtain ⟨a2, ha2, hs⟩ := bind_split hs
    have k2 := ih.stmt ctx _ _ _ ha2
    repeat' (split at hs)
    all_goals
      (first
        | exact keep_trans k1 (keep_trans k2 (ih.stmtsLoop ctx _ _ _ _ _ hs))
        | (obtain ⟨y, hy, hs⟩ := bind_split hs;
           obtain ⟨l1, hl1, hs⟩ := bind_split hs;
           refine keep_trans k1 (keep_trans k2
             (keep_trans ?_ (ih.stmtsLoop ctx _ _ _ _ _ hs)));
           exact ⟨rfl, rfl⟩))

/-- Preservation step for the in-place redirection loop of `*CallExpr`. -/
theorem bal_callRedirs (n : Nat) (ih : BalanceAll n) :
    ∀ ctx rs a1 st q, callRedirsF ctx (n+1) rs a1 st = some q → Keep st q.2 := by
  intro ctx rs a1 st q hq
  rw [callRedirsF_succ] at hq
  cases rs with
  | nil =>
    obtain rfl := Option.some.inj hq
    exact ⟨rfl, rfl⟩
  | cons r rest =>
    unfold callRedirsB at hq
    try simp only [] at hq
    split at hq
    · obtain rfl := Option.some.inj hq
      exact ⟨rfl, rfl⟩
    · split at hq
      · obtain rfl := Option.some.inj hq
        exact ⟨rfl, rfl⟩
      · obtain ⟨a2, ha2, hq⟩ := bind_split hq
        have kw := ih.word ctx _ _ _ ha2
        have kw2 : Keep st a2 := by
          refine keep_trans ?_ kw
          (repeat' split) <;> exact ⟨rfl, rfl⟩
        obtain ⟨q2p, hq2, hq⟩ := bind_split hq
        obtain ⟨cnt2, c2⟩ := q2p
        have kc := ih.callRedirs ctx _ _ _ _ hq2
        obtain rfl := Option.some.inj hq
        exact keep_trans kw2 kc

/-- Preservation step for the case-item loop (the raw level bump around
the separator cancels). -/
theorem bal_caseItems (n : Nat) (ih : BalanceAll n) :
    ∀ ctx list esac st s, caseItemsF ctx (n+1) list esac st = some s → Keep st s := by
  intro ctx list esac st s hs
  rw [caseItemsF_succ] at hs
  cases list with
  | nil =>
    obtain rfl := Option.some.inj hs
    exact keep_refl st
  | cons pl rest =>
    unfold caseItemsB at hs
    try simp only [] at hs
    obtain ⟨q1, hq1, hs⟩ := bind_split hs
    obtain ⟨f1, d2⟩ := q1
    have kd := ih.didSep ctx _ _ _ hq1
    obtain ⟨a2, ha2, hs⟩ := bind_split hs
    have kp := ih.patterns ctx _ _ _ _ ha2
    obtain ⟨q2, hq2, hs⟩ := bind_split hs
    obtain ⟨sep2, n2⟩ := q2
    have kn := ih.nested ctx _ _ _ hq2
    obtain ⟨a3, ha3, hs⟩ := bind_split hs
    have ksep := ih.sepTok ctx _ _ _ _ ha3
    have kc := ih.caseItems ctx _ _ _ _ hs
    obtain ⟨kd1, kd2⟩ := kd
    obtain ⟨kp1, kp2⟩ := kp
    obtain ⟨kn1, kn2⟩ := kn
    obtain ⟨ks1, ks2⟩ := ksep
    obtain ⟨kc1, kc2⟩ := kc
    constructor
    · simp [lens] at kd1 kp1 kn1 ks1 kc1 ⊢
      omega
    · simp [phi, lens] at kd2 kp2 kn2 ks2 kc2 ⊢
      omega

/-- Preservation step for `printer.command` across all command variants. -/
theorem bal_command (n : Nat) (ih : BalanceAll n) :
    ∀ ctx c rs st q, commandF ctx (n+1) c rs st = some q → Keep st q.2 := by
  intro ctx c rs st q hq
  rw [commandF_succ] at hq
  cases c with
  | none =>
    obtain rfl := Option.some.inj hq
    exact ⟨rfl, rfl⟩
  | some cm =>
    unfold commandB at hq
    cases cm with
    | callExpr args =>
      cases args with
      | nil =>
        obtain ⟨a, ha, hq⟩ := bind_split hq
        obtain rfl := Option.some.inj hq
        exact ih.wordJoin ctx _ _ _ _ ha
      | cons a0 tl =>
        cases tl with
        | nil =>
          obtain ⟨a, ha, hq⟩ := bind_split hq
          obtain rfl := Option.some.inj hq
          exact ih.wordJoin ctx _ _ _ _ ha
        | cons a1 rest =>
          obtain ⟨b1, hb1, hq⟩ := bind_split hq
          have k1 := ih.wordJoin ctx _ _ _ _ hb1
          obtain ⟨q1, hq1, hq⟩ := bind_split hq
          obtain ⟨cnt1, c2⟩ := q1
          have k2 := ih.callRedirs ctx _ _ _ _ hq1
          obtain ⟨b3, hb3, hq⟩ := bind_split hq
          have k3 := ih.wordJoin ctx _ _ _ _ hb3
          obtain rfl := Option.some.inj hq
          exact keep_trans k1 (keep_trans k2 k3)
    | block stmts rbrace =>
      obtain ⟨q1, hq1, hq⟩ := bind_split hq
      obtain ⟨f1, n2⟩ := q1
      have k1 := ih.nested ctx _ _ _ hq1
      obtain ⟨a2, ha2, hq⟩ := bind_split hq
      have k2 := ih.semiRsrv ctx _ _ _ _ _ ha2
      obtain rfl := Option.some.inj hq
      refine keep_trans ?_ (keep_trans k1 k2)
      simp [Keep, lens, phi]
    | ifClause cnd thenPos thenStmts elifs elsePos elseStmts fiPos =>
      obtain ⟨a1, ha1, hq⟩ := bind_split hq
      have k1 := ih.condP ctx _ _ _ ha1
      obtain ⟨a2, ha2, hq⟩ := bind_split hq
      have k2 := ih.semiOrNewl ctx _ _ _ _ ha2
      obtain ⟨q1, hq1, hq⟩ := bind_split hq
      obtain ⟨f1, n2⟩ := q1
      have k3 := ih.nested ctx _ _ _ hq1
      obtain ⟨a4, ha4, hq⟩ := bind_split hq
      have k4 := ih.elifs ctx _ _ _ ha4
      have k14 : Keep st a4 := by
        refine keep_trans ?_ (keep_trans k1 (keep_trans k2 (keep_trans k3 k4)))
        simp [Keep, lens, phi]
      try simp only [] at hq
      split at hq
      · obtain ⟨a5, ha5, hq⟩ := bind_split hq
        have k5 := ih.semiRsrv ctx _ _ _ _ _ ha5
        obtain ⟨q2, hq2, hq⟩ := bind_split hq
        obtain ⟨f2, n3⟩ := q2
        have k6 := ih.nested ctx _ _ _ hq2
        obtain ⟨y1, hy1, hq⟩ := bind_split hq
        obtain rfl := Option.some.inj hy1
        obtain ⟨a7, ha7, hq⟩ := bind_split hq
        have k7 := ih.semiRsrv ctx _ _ _ _ _ ha7
        obtain rfl := Option.some.inj hq
        exact keep_trans k14 (keep_trans k5 (keep_trans k6 k7))
      · split at hq
        · obtain ⟨y1, hy1, hq⟩ := bind_split hq
          obtain rfl := Option.some.inj hy1
          obtain ⟨a7, ha7, hq⟩ := bind_split hq
          have k7 := ih.semiRsrv ctx _ _ _ _ _ ha7
          obtain rfl := Option.some.inj hq
          refine keep_trans k14 (keep_trans ?_ k7)
          exact ⟨rfl, rfl⟩
        · obtain ⟨y1, hy1, hq⟩ := bind_split hq
          obtain rfl := Option.some.inj hy1
          obtain ⟨a7, ha7, hq⟩ := bind_split hq
          have k7 := ih.semiRsrv ctx _ _ _ _ _ ha7
          obtain rfl := Option.some.inj hq
          exact keep_trans k14 k7
    | subshell stmts rparen =>
      obtain ⟨q1, hq1, hq⟩ := bind_split hq
      obtain ⟨f1, n2⟩ := q1
      have k1 := ih.nested ctx _ _ _ hq1
      obtain ⟨a2, ha2, hq⟩ := bind_split hq
      have k2 := ih.sepTok ctx _ _ _ _ ha2
      obtain rfl := Option.some.inj hq
      refine keep_trans ?_ (keep_trans k1 k2)
      (repeat' split) <;> simp [Keep, lens, phi]
    | whileClause cnd doPos doStmts donePos =>
      obtain ⟨a1, ha1, hq⟩ := bind_split hq
      have k1 := ih.condP ctx _ _ _ ha1
      obtain ⟨a2, ha2, hq⟩ := bind_split hq
      have k2 := ih.semiOrNewl ctx _ _ _ _ ha2
      obtain ⟨q1, hq1, hq⟩ := bind_split hq
      obtain ⟨f1, n2⟩ := q1
      have k3 := ih.nested ctx _ _ _ hq1
      obtain ⟨a4, ha4, hq⟩ := bind_split hq
      have k4 := ih.semiRsrv ctx _ _ _ _ _ ha4
      obtain rfl := Option.some.inj hq
      refine keep_trans ?_ (keep_trans k1 (keep_trans k2 (keep_trans k3 k4)))
      simp [Keep, lens, phi]
    | untilClause cnd doPos doStmts donePos =>
      obtain ⟨a1, ha1, hq⟩ := bind_split hq
      have k1 := ih.condP ctx _ _ _ ha1
      obtain ⟨a2, ha2, hq⟩ := bind_split hq
      have k2 := ih.semiOrNewl ctx _ _ _ _ ha2
      obtain ⟨q1, hq1, hq⟩ := bind_split hq
      obtain ⟨f1, n2⟩ := q1
      have k3 := ih.nested ctx _ _ _ hq1
      obtain ⟨a4, ha4, hq⟩ := bind_split hq
      have k4 := ih.semiRsrv ctx _ _ _ _ _ ha4
      obtain rfl := Option.some.inj hq
      refine keep_trans ?_ (keep_trans k1 (keep_trans k2 (keep_trans k3 k4)))
      simp [Keep, lens, phi]
    | forClause loop doPos doStmts donePos =>
      obtain ⟨a1, ha1, hq⟩ := bind_split hq
      have k1 := ih.loopP ctx _ _ _ ha1
      obtain ⟨a2, ha2, hq⟩ := bind_split hq
      have k2 := ih.semiOrNewl ctx _ _ _ _ ha2
      obtain ⟨q1, hq1, hq⟩ := bind_split hq
      obtain ⟨f1, n2⟩ := q1
      have k3 := ih.nested ctx _ _ _ hq1
      obtain ⟨a4, ha4, hq⟩ := bind_split hq
      have k4 := ih.semiRsrv ctx _ _ _ _ _ ha4
      obtain rfl := Option.some.inj hq
      refine keep_trans ?_ (keep_trans k1 (keep_trans k2 (keep_trans k3 k4)))
      simp [Keep, lens, phi]
    | binaryCmd op x y =>
      obtain ⟨a1, ha1, hq⟩ := bind_split hq
      have k1 := ih.stmt ctx _ _ _ ha1
      try simp only [] at hq
      by_cases hdo : (!a1.nestedBinary) = true
      · simp only [hdo, eq_self_iff_true, if_true] at hq
        repeat' (split at hq)
        all_goals
          (obtain ⟨y1, hy1, hq⟩ := bind_split hq;
           obtain rfl := Option.some.inj hy1;
           obtain ⟨a2, ha2, hq⟩ := bind_split hq;
           have k2 := ih.stmt ctx _ _ _ ha2;
           obtain rfl := Option.some.inj hq;
           obtain ⟨k1a, k1b⟩ := k1;
           obtain ⟨k2a, k2b⟩ := k2;
           have h1 : 1 ≤ lens a2 := by simp [lens, hdo] at k2a ⊢ <;> omega;
           have hd := lens_decLevel a2 h1;
           have hp2 := phi_decLevel a2;
           refine ⟨?_, ?_⟩;
           ((simp [lens, hdo] at k1a k2a hd ⊢) <;> omega);
           ((simp [phi, lens, hdo] at k1b k2b hp2 ⊢) <;> omega))
      · simp only [Bool.not_eq_true] at hdo
        simp only [hdo, Bool.false_eq_true, if_false] at hq
        repeat' (split at hq)
        all_goals
          (obtain ⟨y1, hy1, hq⟩ := bind_split hq;
           obtain rfl := Option.some.inj hy1;
           obtain ⟨a2, ha2, hq⟩ := bind_split hq;
           have k2 := ih.stmt ctx _ _ _ ha2;
           obtain rfl := Option.some.inj hq;
           obtain ⟨k1a, k1b⟩ := k1;
           obtain ⟨k2a, k2b⟩ := k2;
           refine ⟨?_, ?_⟩;
           ((simp [lens, hdo] at k1a k2a ⊢) <;> omega);
           ((simp [phi, lens, hdo] at k1b k2b ⊢) <;> omega))
    | funcDecl bashStyle name body =>
      obtain ⟨a1, ha1, hq⟩ := bind_split hq
      have k1 := ih.stmt ctx _ _ _ ha1
      obtain rfl := Option.some.inj hq
      refine keep_trans ?_ k1
      (repeat' split) <;> exact ⟨rfl, rfl⟩
    | caseClause w list esac =>
      obtain ⟨a1, ha1, hq⟩ := bind_split hq
      have k1 := ih.word ctx _ _ _ ha1
      obtain ⟨a2, ha2, hq⟩ := bind_split hq
      have k2 := ih.caseItems ctx _ _ _ _ ha2
      obtain ⟨a3, ha3, hq⟩ := bind_split hq
      have k3 := ih.semiRsrv ctx _ _ _ _ _ ha3
      obtain rfl := Option.some.inj hq
      obtain ⟨k1a, k1b⟩ := k1
      obtain ⟨k2a, k2b⟩ := k2
      obtain ⟨k3a, k3b⟩ := k3
      constructor
      · have h1 : 1 ≤ lens a2 := by
          simp [lens] at k2a ⊢
          omega
        have hd := lens_decLevel a2 h1
        simp [lens] at k1a k2a k3a hd ⊢
        omega
      · have hp2 := phi_decLevel a2
        simp [phi, lens] at k1b k2b k3b hp2 ⊢
        omega
    | declClause loc opts assigns =>
      obtain ⟨a1, ha1, hq⟩ := bind_split hq
      have k1 := ih.declOpts ctx _ _ _ ha1
      obtain ⟨a2, ha2, hq⟩ := bind_split hq
      have k2 := ih.assigns ctx _ _ _ ha2
      obtain rfl := Option.some.inj hq
      refine keep_trans ?_ (keep_trans k1 k2)
      (repeat' split) <;> simp [Keep, lens, phi]
    | evalClause stmtOpt =>
      try simp only [] at hq
      cases stmtOpt with
      | some s2 =>
        obtain ⟨y1, hy1, hq⟩ := bind_split hq
        have k1 := ih.stmt ctx _ _ _ hy1
        obtain rfl := Option.some.inj hq
        refine keep_trans ?_ k1
        simp [Keep, lens, phi]
      | none =>
        obtain ⟨y1, hy1, hq⟩ := bind_split hq
        obtain rfl := Option.some.inj hy1
        obtain rfl := Option.some.inj hq
        simp [Keep, lens, phi]
    | letClause exprs =>
      obtain ⟨a1, ha1, hq⟩ := bind_split hq
      have k1 := ih.letExprs ctx _ _ _ ha1
      obtain rfl := Option.some.inj hq
      refine keep_trans ?_ k1
      simp [Keep, lens, phi]

/-- The induction step: every method at fuel `n+1` preserves the balance
measures, given that all methods at fuel `n` do. -/
theorem balanceAll_succ (n : Nat) (ih : BalanceAll n) : BalanceAll (n+1) :=
  { newline := bal_newline n ih, drain := bal_drain n ih,
    newlines := bal_newlines n ih, always := bal_always n ih,
    didSep := bal_didSep n ih, sepTok := bal_sepTok n ih,
    semiRsrv := bal_semiRsrv n ih, semiOrNewl := bal_semiOrNewl n ih,
    comments := bal_comments n ih, wordPart := bal_wordPart n ih,
    quotedParts := bal_quotedParts n ih, wordParts := bal_wordParts n ih,
    word := bal_word n ih, unquotedWord := bal_unquotedWord n ih,
    unquotedParts := bal_unquotedParts n ih, spacedWord := bal_spacedWord n ih,
    wordJoin := bal_wordJoin n ih, wordJoinA := bal_wordJoinA n ih,
    arithm := bal_arithm n ih, condP := bal_cond n ih, loopP := bal_loop n ih,
    stmt := bal_stmt n ih, redirs := bal_redirs n ih,
    command := bal_command n ih, callRedirs := bal_callRedirs n ih,
    elifs := bal_elifs n ih, caseItems := bal_caseItems n ih,
    patterns := bal_patterns n ih, stmts := bal_stmts n ih,
    stmtsLoop := bal_stmtsLoop n ih, nested := bal_nested n ih,
    assigns := bal_assigns n ih, assignsA := bal_assignsA n ih,
    letExprs := bal_letExprs n ih, declOpts := bal_declOpts n ih }

/-- Every printer method, at every fuel, preserves the balance measures. -/
theorem balanceAll : ∀ n, BalanceAll n
  | 0 => balanceAll_zero
  | n+1 => balanceAll_succ n (balanceAll n)

/-- Claim C4: indentation-level increases and decreases are balanced in
strict LIFO order during every print. Formally: rendering any statement
preserves both the height of the did-indent stack (`lens`, every push is
popped) and the level-minus-pending-increments measure (`phi`); and the
state at the end of a full `Fprint` traversal has a zero level counter
and an empty did-indent stack, i.e. both return to their initial state. -/
theorem claim_C4 :
    (∀ ctx n sm st s, stmtF ctx n sm st = some s →
      lens s = lens st ∧ phi s = phi st)
    ∧ (∀ ctx fuel stf, fprintRun ctx fuel = some stf →
      stf.level = 0 ∧ stf.levelIncs = []) := by
  constructor
  · intro ctx n sm st s h
    exact (balanceAll n).stmt ctx sm st s h
  · intro ctx fuel stf h
    unfold fprintRun at h
    obtain ⟨p, hp, h⟩ := bind_split h
    have k1 := (balanceAll fuel).stmts ctx _ _ _ hp
    obtain ⟨a2, ha2, h⟩ := bind_split h
    have k2 := (balanceAll fuel).comments ctx _ _ _ ha2
    have k3 := (balanceAll fuel).newline ctx _ _ h
    obtain ⟨e1, e2⟩ := keep_trans k1 (keep_trans k2 k3)
    have hnil : stf.levelIncs = [] := by
      simp [lens, initState, freshState] at e1
      exact e1
    refine ⟨?_, hnil⟩
    simp [phi, initState, freshState, trues, hnil] at e2
    omega

/-- Claim C4 witness: a concrete statement render and a concrete full
print, both of which end with the level counter and stack at zero. -/
theorem claim_C4_witness :
    (lens ((stmtF ⟨litFile "a", ⟨0⟩⟩ 10 (callStmt 1 [litW 1 "a"])
        freshState).getD freshState) = lens freshState
      ∧ phi ((stmtF ⟨litFile "a", ⟨0⟩⟩ 10 (callStmt 1 [litW 1 "a"])
        freshState).getD freshState) = phi freshState)
    ∧ ((fprintRun ⟨litFile "a", ⟨0⟩⟩ 20).getD freshState).level = 0
    ∧ ((fprintRun ⟨litFile "a", ⟨0⟩⟩ 20).getD freshState).levelIncs = [] :=
  ⟨claim_C4.1 ⟨litFile "a", ⟨0⟩⟩ 10 (callStmt 1 [litW 1 "a"]) freshState _ rfl,
   claim_C4.2 ⟨litFile "a", ⟨0⟩⟩ 20 _ rfl⟩

/-! Claim C8: inline-comment alignment. `inlineRun` and `runMax` are
written from the claim wording (the maximal run of consecutive statements
on adjacent lines all carrying inline comments, and the maximum rendered
width over it) and compared against the source scan. -/

/-- The maximal prefix of the remaining statements, starting from the
current one, whose members all carry inline comments and sit on adjacent
lines (line gap at most one). -/
def inlineRun (ctx : Ctx) (cm : List Comment) : Int → List Stmt → List Stmt
  | _, [] => []
  | lastLine, s :: rest =>
    let pos := ctx.f.lineOf s.pos
    if hasInline ctx pos cm = true ∧ pos ≤ lastLine + 1 then
      s :: inlineRun ctx cm pos rest
    else []

/-- Maximum of the given rendered widths over a statement list, folded
from `acc`. -/
def runMax (len : Stmt → Int) (acc : Int) : List Stmt → Int
  | [] => acc
  | s :: rest => runMax len (if len s > acc then len s else acc) rest

/-- The source alignment scan computes exactly the maximum rendered width
over the maximal adjacent-inline run, provided the width oracle `len`
agrees with every successful `stmtLen` measurement of a scanned statement. -/
theorem scanInline_runMax (ctx : Ctx) (len : Stmt → Int) :
    ∀ n rem lastLine acc st i,
      (∀ sm, sm ∈ rem → ∀ m, m < n →
        stmtLenF ctx m sm = none ∨ stmtLenF ctx m sm = some (len sm)) →
      scanInlineF ctx n rem lastLine acc st = some i →
      i = runMax len acc (inlineRun ctx st.comments lastLine rem) := by
  intro n
  induction n with
  | zero =>
    intro rem ll acc st i hlen h
    rw [scanInlineF_zero] at h
    exact Option.noConfusion h
  | succ n ih =>
    intro rem ll acc st i hlen h
    rw [scanInlineF_succ] at h
    cases rem with
    | nil =>
      obtain rfl := Option.some.inj h
      rfl
    | cons s2 rest =>
      unfold scanInlineB at h
      try simp only [] at h
      split at h
      · rename_i hc
        obtain rfl := Option.some.inj h
        simp only [inlineRun]
        rw [if_neg]
        · rfl
        · rintro ⟨h1, h2⟩
          rcases hc with hc | hc
          · rw [h1] at hc
            simp at hc
          · omega
      · rename_i hc
        obtain ⟨l, hl, h⟩ := bind_split h
        rw [stmtLenF_fold] at hl
        have hleq : l = len s2 := by
          rcases hlen s2 (by simp) n (by omega) with h2 | h2
          · rw [h2] at hl
            exact Option.noConfusion hl
          · rw [h2] at hl
            exact (Option.some.inj hl).symm
        have hrec := ih rest (ctx.f.lineOf s2.pos) (if l > acc then l else acc) st i
          (fun sm hm m hmn => hlen sm (by simp [hm]) m (by omega)) h
        rw [hrec, hleq]
        simp only [not_or] at hc
        obtain ⟨hc1, hc2⟩ := hc
        simp only [Bool.not_eq_true] at hc1
        have hcnd : hasInline ctx (ctx.f.lineOf s2.pos) st.comments = true
            ∧ ctx.f.lineOf s2.pos ≤ ll + 1 := by
          constructor
          · cases hhi : hasInline ctx (ctx.f.lineOf s2.pos) st.comments
            · rw [hhi] at hc1
              simp at hc1
            · rfl
          · omega
        simp only [inlineRun]
        rw [if_pos hcnd]
        rfl

/-- Fixture: two adjacent one-argument call statements that both carry
inline comments. -/
def cmtFile : File :=
  { stmts := [callStmt 1 [litW 1 "a"], callStmt 2 [litW 2 "bbbb"]],
    comments := [⟨1, " x"⟩, ⟨2, " y"⟩],
    lineOf := linePos }

/-- The inline flush of `printer.commentsUpTo`: a backlog comment on the
current line (with no pending newline) is emitted as `wantSpaces + 1`
padding spaces, then the hash, then the comment text. -/
theorem commentsUpTo_inline (ctx : Ctx) (line : Int) (c : Comment) (st : PState)
    (n : Nat) (hcm : st.comments = [c]) (hwn : st.wantNewline = false)
    (hcl : st.curLine = ctx.f.lineOf c.hash) (hpos : 0 < st.curLine)
    (hline : ¬(line > 0 ∧ ctx.f.lineOf c.hash ≥ line)) :
    (commentsUpToF ctx (n+4) line st).map evStr
      = some (evStr st ++ repStr (st.wantSpaces + 1).toNat " " ++ "#" ++ c.text) := by
  have hpos2 : 0 < ctx.f.lineOf c.hash := hcl ▸ hpos
  have hne : ¬(ctx.f.lineOf c.hash = 0) := by omega
  simp only [commentsUpToF_succ]
  unfold commentsUpToB
  rw [hcm]
  simp only [hline, if_false, reduceIte, hwn, hcl, hpos2, hne,
    didSeparateF_fold, didSeparateF_succ, didSeparateB, commentsUpToB,
    commentsUpToF_fold, commentsUpToF_succ, lt_irrefl, le_refl, pure_bind,
    eq_self_iff_true, if_true, and_true, true_and, and_false, false_and,
    false_or, or_false, gt_iff_lt, lt_self_iff_false, Bool.false_eq_true,
    Option.map_some]
  simp [evStr, evsStr_append, str, wr, byteW, spaces, evsStr_replicate,
    String.append_assoc]

/-- Claim C8: the printer aligns runs of inline comments. First, the
alignment scan computes exactly the maximum rendered statement width (the
widths measured by `stmtLen` into a discarded buffer) over the maximal
run of consecutive statements on adjacent lines that all carry inline
comments — so the run resets at a line gap of two or more or at a
statement without an inline comment, where `inlineRun` is empty and the
scan returns its accumulator. Second, each statement of the run is padded
with `wantSpaces + 1` spaces before its hash, where `wantSpaces` was set
to the column deficit, which aligns the hashes in one column. Third, a
concrete two-statement run renders with both hashes aligned at column
six. -/
theorem claim_C8 :
    (∀ ctx (len : Stmt → Int) n rem lastLine acc st i,
      (∀ sm, sm ∈ rem → ∀ m, m < n →
        stmtLenF ctx m sm = none ∨ stmtLenF ctx m sm = some (len sm)) →
      scanInlineF ctx n rem lastLine acc st = some i →
      i = runMax len acc (inlineRun ctx st.comments lastLine rem))
    ∧ (∀ ctx line (c : Comment) st n, st.comments = [c] →
      st.wantNewline = false → st.curLine = ctx.f.lineOf c.hash →
      0 < st.curLine → ¬(line > 0 ∧ ctx.f.lineOf c.hash ≥ line) →
      (commentsUpToF ctx (n+4) line st).map evStr
        = some (evStr st ++ repStr (st.wantSpaces + 1).toNat " " ++ "#" ++ c.text))
    ∧ FprintStr ⟨cmtFile, ⟨0⟩⟩ 30 = some "a    # x\nbbbb # y\n" :=
  ⟨scanInline_runMax, commentsUpTo_inline, by decide⟩

/-- Claim C8 witness: the scan of the concrete two-statement run yields
the maximum width 4; a concrete inline flush pads with four spaces; the
full render aligns both hashes. -/
theorem claim_C8_witness :
    ((4 : Int) = runMax (fun sm => if sm.pos = 1 then 1 else 4) 0
      (inlineRun ⟨cmtFile, ⟨0⟩⟩ (initState cmtFile).comments 1 cmtFile.stmts))
    ∧ ((commentsUpToF ⟨cmtFile, ⟨0⟩⟩ (5+4) 2
        { events := [], nestedBinary := false, wantSpace := true,
          wantNewline := false, wantSpaces := 3, curLine := 1, lastLevel := 0,
          level := 0, levelIncs := [], comments := [⟨1, " x"⟩],
          pendingHdocs := [] }).map evStr
      = some (evStr
          { events := [], nestedBinary := false, wantSpace := true,
            wantNewline := false, wantSpaces := 3, curLine := 1, lastLevel := 0,
            level := 0, levelIncs := [], comments := [⟨1, " x"⟩],
            pendingHdocs := [] }
        ++ repStr ((3 : Int) + 1).toNat " " ++ "#" ++ " x"))
    ∧ FprintStr ⟨cmtFile, ⟨0⟩⟩ 30 = some "a    # x\nbbbb # y\n" :=
  ⟨claim_C8.1 ⟨cmtFile, ⟨0⟩⟩ (fun sm => if sm.pos = 1 then 1 else 4) 12
      cmtFile.stmts 1 0 (initState cmtFile) 4 (by decide) (by decide),
   claim_C8.2.1 ⟨cmtFile, ⟨0⟩⟩ 2 ⟨1, " x"⟩ _ 5 rfl rfl rfl (by decide) (by decide),
   claim_C8.2.2⟩

end ShPrint
